import Mathlib

/-!
# FullPivHouseholderQR: rank-revealing QR decomposition with full pivoting

A shallow embedding of `Eigen/src/QR/FullPivHouseholderQR.h` (`compute`, the
solver `evalTo`, `matrixQ` and the rank queries) over an arbitrary linearly
ordered field `K`, which plays the role of exact real arithmetic.

A dense matrix is its dimensions together with a coefficient function
`Nat → Nat → K`; only the coefficients at `i < rows`, `j < cols` are part of the
matrix.  Integer vectors (`m_rows_transpositions`, the indices of
`m_cols_permutation`) and `m_hCoeffs` are functions on `Nat` in the same way.
Storage that the code leaves unwritten keeps whatever value it had before.
-/

set_option linter.unusedSectionVars false

namespace FullPivQR

/-- A dense matrix: dimensions and coefficients (meaningful inside the dimensions). -/
structure DenseMatrix (K : Type) where
  rows : Nat
  cols : Nat
  coeff : Nat → Nat → K

/-- Modelled from the spec: the consumed scalar utilities that are not under src/
(the machine-epsilon constant `epsilon<Scalar>()`, the square root `ei_sqrt` and the
natural logarithm);
absolute value and comparison are those of the ordered field. -/
structure ScalarOps (K : Type) where
  epsilon : K
  sqrt : K → K
  log : K → K

/-- The members of the class `FullPivHouseholderQR`. -/
structure FullPivHouseholderQR (K : Type) where
  m_qr : DenseMatrix K
  m_hCoeffs : Nat → K
  m_rows_transpositions : Nat → Nat
  m_cols_permutation : Nat → Nat
  m_isInitialized : Bool
  m_precision : K
  m_rank : Nat
  m_det_pq : Int

/-- The assertions (`ei_assert`) that guard the member functions. -/
inductive AssertFailure where
  | notInitialized
  | notSquare
  | rhsRowsMismatch
  deriving DecidableEq, Repr

/-- The locals and members that the main loop of `compute` reads and writes. -/
structure ComputeState (K : Type) where
  qr : Nat → Nat → K
  hCoeffs : Nat → K
  rows_transpositions : Nat → Nat
  cols_transpositions : Nat → Nat
  number_of_transpositions : Nat
  biggest : K
  rank : Nat

/-- What `evalTo` leaves behind: the destination buffer and the assertion that failed, if any. -/
structure EvalOutcome (K : Type) where
  dst : DenseMatrix K
  failure : Option AssertFailure

section Definitions

variable {K : Type} [LinearOrderedField K]

/-- A counted loop `for (i = lo; i < lo + n; ++i) body(i)`. -/
def forRange {σ : Type} (body : Nat → σ → σ) : Nat → Nat → σ → σ
  | _, 0, s => s
  | lo, n + 1, s => forRange body (lo + 1) n (body lo s)

/-- One visit of the largest-coefficient reduction: keep the first strictly larger entry. -/
def visitMax (f : Nat → Nat → K) (acc : K × Nat × Nat) (p : Nat × Nat) : K × Nat × Nat :=
  if acc.1 < f p.1 p.2 then (f p.1 p.2, p.1, p.2) else acc

/-- The positions of an `nr`-by-`nc` block in column-major order. -/
def blockPositions (nr nc : Nat) : List (Nat × Nat) :=
  (List.range nc).flatMap (fun j => (List.range nr).map (fun i => (i, j)))

/-- Modelled from the spec: the dense-matrix reduction `maxCoeff(&row, &col)` (not under
src/), "largest-magnitude element and its position" over a sub-block, here over the block
`f` with `nr` rows and `nc` columns; the first largest entry in column-major order wins. -/
def maxCoeff (f : Nat → Nat → K) (nr nc : Nat) : K × Nat × Nat :=
  (blockPositions nr nc).foldl (visitMax f) (f 0 0, 0, 0)

/-- Modelled from the spec: the scalar comparison `ei_isMuchSmallerThan` (not under src/):
"a value x is negligible relative to y when x <= precisionThreshold * y". -/
def isMuchSmallerThan (x y prec : K) : Bool :=
  decide (x ≤ prec * y)

/-- The statement `m.row(k).tail(cols-k).swap(m.row(r).tail(cols-k))`. -/
def swapRowTails (m : Nat → Nat → K) (cols k r : Nat) : Nat → Nat → K :=
  fun i j =>
    if k ≤ j ∧ j < cols then
      if i = k then m r j else if i = r then m k j else m i j
    else m i j

/-- The statement `m.col(k).swap(m.col(c))` on a matrix with `rows` rows. -/
def swapCols (m : Nat → Nat → K) (rows k c : Nat) : Nat → Nat → K :=
  fun i j =>
    if i < rows then
      if j = k then m i c else if j = c then m i k else m i j
    else m i j

/-- The statement `m.row(k).swap(m.row(r))` on a matrix with `cols` columns. -/
def swapRows (m : Nat → Nat → K) (cols k r : Nat) : Nat → Nat → K :=
  fun i j =>
    if j < cols then
      if i = k then m r j else if i = r then m k j else m i j
    else m i j

/-- What `makeHouseholderInPlace` hands back: the updated column storage, `tau` and `beta`. -/
structure HouseholderResult (K : Type) where
  qr : Nat → Nat → K
  tau : K
  beta : K

/-- Modelled from the spec: `makeHouseholderInPlace` (Householder.h is not under src/),
"in-place Householder-vectorization of a column segment producing a coefficient and a
leading value", applied to `m.col(k).tail(rows-k)`: the reflector `I - tau v v^T` with
`v = [1, essential]` sends the segment to `[beta, 0, ..., 0]`, and the essential part
overwrites the segment below its first entry. -/
def makeHouseholderInPlace (S : ScalarOps K) (m : Nat → Nat → K) (rows k : Nat) :
    HouseholderResult K :=
  let tailSqNorm := ∑ i ∈ Finset.Ico (k + 1) rows, m i k * m i k
  let c0 := m k k
  if tailSqNorm = 0 then
    { qr := m, tau := 0, beta := c0 }
  else
    let beta := if 0 ≤ c0 then - S.sqrt (c0 * c0 + tailSqNorm) else S.sqrt (c0 * c0 + tailSqNorm)
    { qr := fun i j => if j = k ∧ k < i ∧ i < rows then m i k / (c0 - beta) else m i j
      tau := (beta - c0) / beta
      beta := beta }

/-- Modelled from the spec: `applyHouseholderOnTheLeft` (Householder.h is not under src/),
"in-place application of a stored Householder reflector to a sub-block from the left":
the block of `m` with top-left corner `(r0, c0)`, `nr` rows and `nc` columns becomes
`(I - tau v v^T) * block` with `v = [1, essential]`. -/
def applyHouseholderOnTheLeft (m : Nat → Nat → K) (r0 c0 nr nc : Nat)
    (essential : Nat → K) (tau : K) : Nat → Nat → K :=
  fun i j =>
    if r0 ≤ i ∧ i < r0 + nr ∧ c0 ≤ j ∧ j < c0 + nc then
      if i = r0 then
        m i j - tau * ((∑ l ∈ Finset.range (nr - 1), essential l * m (r0 + 1 + l) j) + m r0 j)
      else
        m i j - tau * essential (i - r0 - 1) *
          ((∑ l ∈ Finset.range (nr - 1), essential l * m (r0 + 1 + l) j) + m r0 j)
    else m i j

/-- The statement `m.coeffRef(r, c) = x`. -/
def setCoeff (m : Nat → Nat → K) (r c : Nat) (x : K) : Nat → Nat → K :=
  fun i j => if i = r ∧ j = c then x else m i j

/-- The inner loop of `compute` on early termination, lines 297-302: identity
transpositions and zero coefficients at index `i`. -/
def fillStep (i : Nat) (s : ComputeState K) : ComputeState K :=
  { s with
    rows_transpositions := Function.update s.rows_transpositions i i
    cols_transpositions := Function.update s.cols_transpositions i i
    hCoeffs := Function.update s.hCoeffs i 0 }

/-- The body of the main loop of `compute` after the rank test, lines 306-322, for the
pivot found at `(r, c)`. -/
def pivotStep (S : ScalarOps K) (rows cols k r c : Nat) (s : ComputeState K) :
    ComputeState K :=
  let qr1 := if k ≠ r then swapRowTails s.qr cols k r else s.qr
  let qr2 := if k ≠ c then swapCols qr1 rows k c else qr1
  let hh := makeHouseholderInPlace S qr2 rows k
  let qr3 := setCoeff hh.qr k k hh.beta
  { qr := applyHouseholderOnTheLeft qr3 k (k + 1) (rows - k) (cols - k - 1)
            (fun l => qr3 (k + 1 + l) k) hh.tau
    hCoeffs := Function.update s.hCoeffs k hh.tau
    rows_transpositions := Function.update s.rows_transpositions k r
    cols_transpositions := Function.update s.cols_transpositions k c
    number_of_transpositions :=
      s.number_of_transpositions + (if k ≠ r then 1 else 0) + (if k ≠ c then 1 else 0)
    biggest := s.biggest
    rank := s.rank }

/-- The pivot search of step `k`, lines 286-288: the largest absolute value of the corner
`m_qr.corner(BottomRight, rows-k, cols-k)` and its position inside the corner. -/
def pivotOf (q : Nat → Nat → K) (rows cols k : Nat) : K × Nat × Nat :=
  maxCoeff (fun i j => abs (q (k + i) (k + j))) (rows - k) (cols - k)

/-- The value of `biggest` after line 291 of step `k`. -/
def biggestAt (q : Nat → Nat → K) (rows cols k : Nat) (old : K) : K :=
  if k = 0 then (pivotOf q rows cols k).1 else old

/-- The main loop of `compute`, lines 281-323: `n` iterations remain, the next one is `k`. -/
def computeLoop (S : ScalarOps K) (rows cols size : Nat) (prec : K) :
    Nat → Nat → ComputeState K → ComputeState K
  | 0, _, s => s
  | n + 1, k, s =>
    if isMuchSmallerThan (pivotOf s.qr rows cols k).1 (biggestAt s.qr rows cols k s.biggest) prec
    then
      forRange fillStep k (size - k)
        { s with biggest := biggestAt s.qr rows cols k s.biggest, rank := k }
    else
      computeLoop S rows cols size prec n (k + 1)
        (pivotStep S rows cols k ((pivotOf s.qr rows cols k).2.1 + k)
          ((pivotOf s.qr rows cols k).2.2 + k)
          { s with biggest := biggestAt s.qr rows cols k s.biggest })

/-- Modelled from the spec: `PermutationMatrix::applyTranspositionOnTheRight(i, j)`
(PermutationMatrix.h is not under src/): the transposition is composed onto the
permutation by exchanging the indices stored at positions `i` and `j`. -/
def applyTranspositionOnTheRight (indices : Nat → Nat) (i j : Nat) : Nat → Nat :=
  fun l => if l = i then indices j else if l = j then indices i else indices l

/-- The state of `compute` before its main loop, lines 263-279; storage that `resize`
or a declaration leaves unwritten keeps the value it had (`cols_transpositions` is a fresh
local, none of its unwritten entries is ever read). -/
def computeInit (self : FullPivHouseholderQR K) (matrix : DenseMatrix K) : ComputeState K :=
  { qr := matrix.coeff
    hCoeffs := self.m_hCoeffs
    rows_transpositions := self.m_rows_transpositions
    cols_transpositions := fun _ => 0
    number_of_transpositions := 0
    biggest := 0
    rank := min matrix.rows matrix.cols }

/-- The state of `compute` after its main loop (line 323). -/
def computeFinal (S : ScalarOps K) (self : FullPivHouseholderQR K) (matrix : DenseMatrix K) :
    ComputeState K :=
  computeLoop S matrix.rows matrix.cols (min matrix.rows matrix.cols)
    (S.epsilon * ((min matrix.rows matrix.cols : Nat) : K))
    (min matrix.rows matrix.cols) 0 (computeInit self matrix)

/-- The permutation indices after lines 325-327, built from the first `n` recorded column
transpositions. -/
def colsPermutationOf (cols_transpositions : Nat → Nat) (n : Nat) : Nat → Nat :=
  forRange (fun k p => applyTranspositionOnTheRight p k (cols_transpositions k)) 0 n (fun i => i)

/-- The function `FullPivHouseholderQR::compute`, called on the object `self`. -/
def compute (S : ScalarOps K) (self : FullPivHouseholderQR K) (matrix : DenseMatrix K) :
    FullPivHouseholderQR K :=
  { m_qr := { rows := matrix.rows, cols := matrix.cols, coeff := (computeFinal S self matrix).qr }
    m_hCoeffs := (computeFinal S self matrix).hCoeffs
    m_rows_transpositions := (computeFinal S self matrix).rows_transpositions
    m_cols_permutation :=
      colsPermutationOf (computeFinal S self matrix).cols_transpositions
        (min matrix.rows matrix.cols)
    m_isInitialized := true
    m_precision := S.epsilon * ((min matrix.rows matrix.cols : Nat) : K)
    m_rank := (computeFinal S self matrix).rank
    m_det_pq :=
      if (computeFinal S self matrix).number_of_transpositions % 2 = 1 then -1 else 1 }

/-- A counted loop running downwards, `for (k = n - 1; k >= 0; k--) body(k)`. -/
def forRangeDown {σ : Type} (body : Nat → σ → σ) : Nat → σ → σ
  | 0, s => s
  | k + 1, s => forRangeDown body k (body k s)

/-- The statement `dst.resize(r, c)`; the coefficients of a resized matrix are unspecified,
here they are whatever the buffer held. -/
def resize (dst : DenseMatrix K) (r c : Nat) : DenseMatrix K :=
  { rows := r, cols := c, coeff := dst.coeff }

/-- The statement `dst.setZero()`. -/
def setZero (dst : DenseMatrix K) : DenseMatrix K :=
  { dst with coeff := fun i j => if i < dst.rows ∧ j < dst.cols then 0 else dst.coeff i j }

/-- The statement `dst.row(p) = c.row(i)`. -/
def assignRow (dst : DenseMatrix K) (p : Nat) (c : Nat → Nat → K) (i : Nat) : DenseMatrix K :=
  { dst with coeff := fun a b => if a = p ∧ b < dst.cols then c i b else dst.coeff a b }

/-- The statement `dst.row(p).setZero()`. -/
def setZeroRow (dst : DenseMatrix K) (p : Nat) : DenseMatrix K :=
  { dst with coeff := fun a b => if a = p ∧ b < dst.cols then 0 else dst.coeff a b }

/-- Modelled from the spec: `triangularView<Upper>().solveInPlace` (not under src/),
"in-place triangular-system back-substitution over a square sub-block": one row of the
back-substitution with the `n`-by-`n` upper-triangular matrix `u`, on the first `nc`
columns of `c`; the rows below `i` are already solved. -/
def backSubstRow (u : Nat → Nat → K) (n nc i : Nat) (c : Nat → Nat → K) : Nat → Nat → K :=
  fun a b =>
    if a = i ∧ b < nc then
      (c i b - ∑ l ∈ Finset.Ico (i + 1) n, u i l * c l b) / u i i
    else c a b

/-- Modelled from the spec: `triangularView<Upper>().solveInPlace` (not under src/):
back-substitution from the last row up to the first. -/
def solveInPlace (u : Nat → Nat → K) (n nc : Nat) (c : Nat → Nat → K) : Nat → Nat → K :=
  forRangeDown (backSubstRow u n nc) n c

/-- The member function `rank()`. -/
def rank (self : FullPivHouseholderQR K) : Except AssertFailure Nat :=
  if self.m_isInitialized then .ok self.m_rank else .error .notInitialized

/-- The member function `dimensionOfKernel()`; the subtraction is the one of `int`. -/
def dimensionOfKernel (self : FullPivHouseholderQR K) : Except AssertFailure Int :=
  if self.m_isInitialized then .ok ((self.m_qr.cols : Int) - (self.m_rank : Int))
  else .error .notInitialized

/-- The member function `isInjective()`. -/
def isInjective (self : FullPivHouseholderQR K) : Except AssertFailure Bool :=
  if self.m_isInitialized then .ok (decide (self.m_rank = self.m_qr.cols))
  else .error .notInitialized

/-- The member function `isSurjective()`. -/
def isSurjective (self : FullPivHouseholderQR K) : Except AssertFailure Bool :=
  if self.m_isInitialized then .ok (decide (self.m_rank = self.m_qr.rows))
  else .error .notInitialized

/-- The member function `isInvertible()`. -/
def isInvertible (self : FullPivHouseholderQR K) : Except AssertFailure Bool :=
  if self.m_isInitialized then do
    let inj ← isInjective self
    let sur ← isSurjective self
    pure (inj && sur)
  else .error .notInitialized

/-- One iteration of the loop of `evalTo`, lines 358-365. -/
def solveStep (dec : FullPivHouseholderQR K) (rows rhsCols k : Nat) (c : Nat → Nat → K) :
    Nat → Nat → K :=
  applyHouseholderOnTheLeft (swapRows c rhsCols k (dec.m_rows_transpositions k))
    k 0 (rows - k) rhsCols (fun l => dec.m_qr.coeff (k + 1 + l) k) (dec.m_hCoeffs k)

/-- The function `ei_solve_retval<FullPivHouseholderQR, Rhs>::evalTo`, which writes the
solution of `solve(rhs)` into `dst`. -/
def evalTo (S : ScalarOps K) (dec : FullPivHouseholderQR K) (rhs : DenseMatrix K)
    (dst : DenseMatrix K) : EvalOutcome K :=
  let rows := dec.m_qr.rows
  let cols := dec.m_qr.cols
  let dst1 := resize dst cols rhs.cols
  if rhs.rows ≠ rows then
    { dst := dst1, failure := some .rhsRowsMismatch }
  else if dec.m_rank = 0 then
    { dst := setZero dst1, failure := none }
  else
    let c := forRange (solveStep dec rows rhs.cols) 0 dec.m_rank rhs.coeff
    let biggest_in_upper_part_of_c :=
      (maxCoeff (fun i j => abs (c i j)) dec.m_rank rhs.cols).1
    let biggest_in_lower_part_of_c :=
      (maxCoeff (fun i j => abs (c (dec.m_rank + i) j)) (rows - dec.m_rank) rhs.cols).1
    let m_precision := S.epsilon * ((min rows cols : Nat) : K)
    if dec.m_rank ≠ rows ∧
        isMuchSmallerThan biggest_in_lower_part_of_c biggest_in_upper_part_of_c m_precision
          = false then
      { dst := dst1, failure := none }
    else
      let c1 := solveInPlace dec.m_qr.coeff dec.m_rank rhs.cols c
      let dst2 := forRange (fun i d => assignRow d (dec.m_cols_permutation i) c1 i)
        0 dec.m_rank dst1
      let dst3 := forRange (fun i d => setZeroRow d (dec.m_cols_permutation i))
        dec.m_rank (cols - dec.m_rank) dst2
      { dst := dst3, failure := none }

/-- The member function `solve(b)`, evaluated into the destination `dst`. -/
def solve (S : ScalarOps K) (self : FullPivHouseholderQR K) (b : DenseMatrix K)
    (dst : DenseMatrix K) : EvalOutcome K :=
  if self.m_isInitialized then evalTo S self b dst
  else { dst := dst, failure := some .notInitialized }

/-- The member function `inverse()`: `solve` applied to `Identity(rows, cols)`. -/
def inverse (S : ScalarOps K) (self : FullPivHouseholderQR K) (dst : DenseMatrix K) :
    EvalOutcome K :=
  solve S self
    { rows := self.m_qr.rows, cols := self.m_qr.cols, coeff := fun i j => if i = j then 1 else 0 }
    dst

/-- The member function `absDeterminant()`. -/
def absDeterminant (self : FullPivHouseholderQR K) : Except AssertFailure K :=
  if self.m_isInitialized then
    if self.m_qr.rows = self.m_qr.cols then
      .ok (abs (∏ i ∈ Finset.range (min self.m_qr.rows self.m_qr.cols), self.m_qr.coeff i i))
    else .error .notSquare
  else .error .notInitialized

/-- The member function `logAbsDeterminant()`. -/
def logAbsDeterminant (S : ScalarOps K) (self : FullPivHouseholderQR K) :
    Except AssertFailure K :=
  if self.m_isInitialized then
    if self.m_qr.rows = self.m_qr.cols then
      .ok (∑ i ∈ Finset.range (min self.m_qr.rows self.m_qr.cols),
        S.log (abs (self.m_qr.coeff i i)))
    else .error .notSquare
  else .error .notInitialized

/-- One iteration of the loop of `matrixQ`, lines 402-404 (real scalars: `ei_conj` is
the identity). -/
def matrixQStep (self : FullPivHouseholderQR K) (rows k : Nat) (res : Nat → Nat → K) :
    Nat → Nat → K :=
  swapRows
    (applyHouseholderOnTheLeft res k k (rows - k) (rows - k)
      (fun l => self.m_qr.coeff (k + 1 + l) k) (self.m_hCoeffs k))
    rows k (self.m_rows_transpositions k)

/-- The member function `matrixQ()`. -/
def matrixQ (self : FullPivHouseholderQR K) : Except AssertFailure (DenseMatrix K) :=
  if self.m_isInitialized then
    .ok { rows := self.m_qr.rows
          cols := self.m_qr.rows
          coeff := forRangeDown (matrixQStep self self.m_qr.rows)
            (min self.m_qr.rows self.m_qr.cols) (fun i j => if i = j then 1 else 0) }
  else .error .notInitialized

end Definitions

section Auxiliary

variable {K : Type} [LinearOrderedField K]

/-- The recorded transpositions of the steps before `k` point forwards and stay inside. -/
def TranspositionsInRange (rows cols k : Nat) (s : ComputeState K) : Prop :=
  ∀ i, i < k → i ≤ s.rows_transpositions i ∧ s.rows_transpositions i < rows ∧
    i ≤ s.cols_transpositions i ∧ s.cols_transpositions i < cols

/-- The Householder vector of step `k` as a vector on all rows: zero above row `k`, one
at row `k`, and below it the essential part stored in column `k` of `q`. -/
def householderVector (q : Nat → Nat → K) (rows k : Nat) : Nat → K :=
  fun i => if i = k then 1 else if k < i ∧ i < rows then q i k else 0

/-- The reflector `I - tau v v^T` applied from the left to the first `cols` columns. -/
def reflect (rows cols : Nat) (v : Nat → K) (tau : K) (m : Nat → Nat → K) : Nat → Nat → K :=
  fun i j =>
    if j < cols then m i j - tau * v i * ∑ l ∈ Finset.range rows, v l * m l j else m i j

/-- Undoing step `k`: the stored reflector, then the row exchange (the body of the loop
of `matrixQ` on all columns). -/
def undoStep (rows cols : Nat) (q : Nat → Nat → K) (hc : Nat → K) (rt : Nat → Nat) (k : Nat)
    (m : Nat → Nat → K) : Nat → Nat → K :=
  swapRows (reflect rows cols (householderVector q rows k) (hc k) m) cols k (rt k)

/-- Undoing the steps `n - 1`, ..., `0` in this order. -/
def undoAll (rows cols : Nat) (q : Nat → Nat → K) (hc : Nat → K) (rt : Nat → Nat) (n : Nat)
    (m : Nat → Nat → K) : Nat → Nat → K :=
  forRangeDown (undoStep rows cols q hc rt) n m

/-- The working matrix with the stored Householder vectors of the columns before `k`
replaced by the zeros they stand for. -/
def reducedMatrix (rows k : Nat) (q : Nat → Nat → K) : Nat → Nat → K :=
  fun i j => if j < k ∧ j < i ∧ i < rows then 0 else q i j

/-- The matrix `a` with column `j` replaced by column `p j`. -/
def permuteCols (a : Nat → Nat → K) (rows cols : Nat) (p : Nat → Nat) : Nat → Nat → K :=
  fun i j => if i < rows ∧ j < cols then a i (p j) else a i j

/-- The product of the `rows`-by-`n` matrix `x` and the `n`-by-`m` matrix `y`; outside
these dimensions the coefficients are those of `fb`. -/
def gmul (rows n m : Nat) (fb x y : Nat → Nat → K) : Nat → Nat → K :=
  fun i j => if i < rows ∧ j < m then ∑ l ∈ Finset.range n, x i l * y l j else fb i j

/-- The working matrix after lines 317-322 of step `k`, started on the matrix `q` in
which the pivot has been moved to position `(k, k)`. -/
def householderUpdate (S : ScalarOps K) (rows cols k : Nat) (q : Nat → Nat → K) :
    Nat → Nat → K :=
  applyHouseholderOnTheLeft
    (setCoeff (makeHouseholderInPlace S q rows k).qr k k (makeHouseholderInPlace S q rows k).beta)
    k (k + 1) (rows - k) (cols - k - 1)
    (fun l => setCoeff (makeHouseholderInPlace S q rows k).qr k k
      (makeHouseholderInPlace S q rows k).beta (k + 1 + l) k)
    (makeHouseholderInPlace S q rows k).tau

/-- The reflector of step `k` squares to the identity. -/
def ReflectorInvolutive (rows : Nat) (q : Nat → Nat → K) (hc : Nat → K) (k : Nat) : Prop :=
  hc k * hc k * (∑ l ∈ Finset.range rows,
    householderVector q rows k l * householderVector q rows k l) = 2 * hc k

/-- Invariant of the main loop of `compute` before step `k`, for the input `a`: undoing
the steps done so far on the reduced working matrix gives the input with its columns
permuted by the transpositions recorded so far. -/
def FactorInvariant (rows cols : Nat) (a : Nat → Nat → K) (k : Nat) (s : ComputeState K) :
    Prop :=
  TranspositionsInRange rows cols k s ∧
  (∀ j, j < k → ReflectorInvolutive rows s.qr s.hCoeffs j) ∧
  undoAll rows cols s.qr s.hCoeffs s.rows_transpositions k (reducedMatrix rows k s.qr) =
    permuteCols a rows cols (colsPermutationOf s.cols_transpositions k)

/-- What the main loop of `compute` establishes for the input `a`. -/
def Factorized (rows cols size : Nat) (a : Nat → Nat → K) (f : ComputeState K) : Prop :=
  (∀ j, j < size → ReflectorInvolutive rows f.qr f.hCoeffs j) ∧
  undoAll rows cols f.qr f.hCoeffs f.rows_transpositions size (reducedMatrix rows f.rank f.qr) =
    permuteCols a rows cols (colsPermutationOf f.cols_transpositions size)

/-- The accumulator of `matrixQ` is still the identity in the rows and columns before `n`. -/
def IdentityBefore (n : Nat) (res : Nat → Nat → K) : Prop :=
  ∀ i j, i < n ∨ j < n → res i j = if i = j then 1 else 0

/-- Redoing step `k` on a right-hand side: the row exchange, then the stored reflector
(the body of the loop of `evalTo`). -/
def redoStep (rows cols : Nat) (q : Nat → Nat → K) (hc : Nat → K) (rt : Nat → Nat) (k : Nat)
    (m : Nat → Nat → K) : Nat → Nat → K :=
  reflect rows cols (householderVector q rows k) (hc k) (swapRows m cols k (rt k))

/-- Writing the row `row` into row `p` of the destination (the common shape of
`dst.row(p) = c.row(i)` and `dst.row(p).setZero()`). -/
def writeRow (dst : DenseMatrix K) (p : Nat) (row : Nat → K) : DenseMatrix K :=
  { dst with coeff := fun a b => if a = p ∧ b < dst.cols then row b else dst.coeff a b }

/-- The right-hand side of `evalTo` after its loop over the steps before `rank`
(line 365): the transformed copy `c`. -/
def transformedRhs (dec : FullPivHouseholderQR K) (rhs : DenseMatrix K) : Nat → Nat → K :=
  forRange (solveStep dec dec.m_qr.rows rhs.cols) 0 dec.m_rank rhs.coeff

/-- The consistency test of `evalTo`, lines 367-376: true when the system is not
surjective and the lower part of the transformed right-hand side is not negligible. -/
def consistencyCheckFails (S : ScalarOps K) (dec : FullPivHouseholderQR K)
    (rhs : DenseMatrix K) : Prop :=
  dec.m_rank ≠ dec.m_qr.rows ∧
  isMuchSmallerThan
    (maxCoeff (fun i j => abs (transformedRhs dec rhs (dec.m_rank + i) j))
      (dec.m_qr.rows - dec.m_rank) rhs.cols).1
    (maxCoeff (fun i j => abs (transformedRhs dec rhs i j)) dec.m_rank rhs.cols).1
    (S.epsilon * ((min dec.m_qr.rows dec.m_qr.cols : Nat) : K)) = false

/-- Two states of the main loop of `compute` before step `k` that agree in everything the
loop reads, and in the entries of `hCoeffs` and `rows_transpositions` written so far or
listed in `I`. -/
def SameRecord (I : Nat → Prop) (k : Nat) (s1 s2 : ComputeState K) : Prop :=
  s1.qr = s2.qr ∧ s1.rank = s2.rank ∧ s1.biggest = s2.biggest ∧
  s1.cols_transpositions = s2.cols_transpositions ∧
  s1.number_of_transpositions = s2.number_of_transpositions ∧
  ∀ i, i < k ∨ I i →
    s1.hCoeffs i = s2.hCoeffs i ∧ s1.rows_transpositions i = s2.rows_transpositions i

/-- The determinant of the `n`-by-`n` matrix with the coefficients `a i j`, `i, j < n`. -/
def determinant (n : Nat) (a : Nat → Nat → K) : K :=
  Matrix.det (Matrix.of fun i j : Fin n => a i j)

/-- The state of the main loop of `compute` at the start of step `k`, when none of the
steps before `k` has ended the loop: the body of the loop after the rank test (lines
306-322), repeated from the initial state `s0`. -/
def workingStateAt (S : ScalarOps K) (rows cols : Nat) (s0 : ComputeState K) :
    Nat → ComputeState K
  | 0 => s0
  | k + 1 =>
    pivotStep S rows cols k
      ((pivotOf (workingStateAt S rows cols s0 k).qr rows cols k).2.1 + k)
      ((pivotOf (workingStateAt S rows cols s0 k).qr rows cols k).2.2 + k)
      { workingStateAt S rows cols s0 k with
        biggest := biggestAt (workingStateAt S rows cols s0 k).qr rows cols k
          (workingStateAt S rows cols s0 k).biggest }

/-- The rank test of step `k` (line 293) on the state at the start of that step. -/
def rankTestAt (S : ScalarOps K) (rows cols : Nat) (prec : K) (s0 : ComputeState K)
    (k : Nat) : Bool :=
  isMuchSmallerThan (pivotOf (workingStateAt S rows cols s0 k).qr rows cols k).1
    (biggestAt (workingStateAt S rows cols s0 k).qr rows cols k
      (workingStateAt S rows cols s0 k).biggest) prec

/-- The transposition of `i` and `j` as a permutation of the indices below `n` (the
identity when an index is out of range). -/
def swapPerm (n i j : Nat) : Equiv.Perm (Fin n) :=
  if h : i < n ∧ j < n then Equiv.swap ⟨i, h.1⟩ ⟨j, h.2⟩ else 1

/-- The permutation composed of the transpositions `(k, t k)` for `k < m`, each applied on
the right of the ones before it. -/
def composedPerm (n : Nat) (t : Nat → Nat) : Nat → Equiv.Perm (Fin n)
  | 0 => 1
  | m + 1 => composedPerm n t m * swapPerm n m (t m)

/-- The sign of a permutation as an integer, +1 or -1. -/
def permSign {n : Nat} (p : Equiv.Perm (Fin n)) : Int :=
  ((Equiv.Perm.sign p : ℤˣ) : Int)

end Auxiliary

section Examples

/-- Scalar utilities over the rationals: double-precision epsilon and the exact rational
square root. -/
def exampleOps : ScalarOps ℚ :=
  { epsilon := 1 / 2 ^ 52, sqrt := Rat.sqrt, log := fun _ => 0 }

/-- A default-constructed object: only `m_isInitialized` is set, the other members hold
arbitrary values. -/
def exampleFresh : FullPivHouseholderQR ℚ :=
  { m_qr := { rows := 0, cols := 0, coeff := fun _ _ => 0 }
    m_hCoeffs := fun _ => 99
    m_rows_transpositions := fun _ => 77
    m_cols_permutation := fun _ => 55
    m_isInitialized := false
    m_precision := 0
    m_rank := 0
    m_det_pq := 0 }

/-- The 2-by-1 matrix with entries 1, 0. -/
def exampleTall : DenseMatrix ℚ :=
  { rows := 2, cols := 1, coeff := fun i _ => if i = 0 then 1 else 0 }

/-- The 2-by-2 matrix with rows (0, 1) and (0, 0). -/
def exampleShift : DenseMatrix ℚ :=
  { rows := 2, cols := 2, coeff := fun i j => if i = 0 ∧ j = 1 then 1 else 0 }

/-- The invertible 3-by-3 matrix with rows (3, 0, 4), (0, 5, 0), (4, 0, -3). -/
def exampleReflected : DenseMatrix ℚ :=
  { rows := 3, cols := 3
    coeff := fun i j =>
      if i = 0 ∧ j = 0 then 3 else if i = 0 ∧ j = 2 then 4 else if i = 1 ∧ j = 1 then 5
      else if i = 2 ∧ j = 0 then 4 else if i = 2 ∧ j = 2 then -3 else 0 }

/-- The all-zero 3-by-3 matrix. -/
def exampleZero3 : DenseMatrix ℚ :=
  { rows := 3, cols := 3, coeff := fun _ _ => 0 }

/-- The empty 0-by-0 matrix. -/
def exampleEmpty : DenseMatrix ℚ :=
  { rows := 0, cols := 0, coeff := fun _ _ => 0 }

/-- A right-hand side with 3 rows and one column. -/
def exampleRhs3 : DenseMatrix ℚ :=
  { rows := 3, cols := 1, coeff := fun i _ => if i = 0 then 7 else if i = 1 then 5 else 1 }

/-- The all-zero right-hand side with 3 rows and one column. -/
def exampleRhsZero3 : DenseMatrix ℚ :=
  { rows := 3, cols := 1, coeff := fun _ _ => 0 }

/-- The right-hand side (0, 1) with 2 rows and one column. -/
def exampleRhs2 : DenseMatrix ℚ :=
  { rows := 2, cols := 1, coeff := fun i _ => if i = 1 then 1 else 0 }

/-- A destination buffer holding arbitrary values. -/
def exampleDst : DenseMatrix ℚ :=
  { rows := 0, cols := 0, coeff := fun _ _ => 42 }

/-- A default-constructed object over the reals. -/
def realFresh : FullPivHouseholderQR ℝ :=
  { m_qr := { rows := 0, cols := 0, coeff := fun _ _ => 0 }
    m_hCoeffs := fun _ => 0
    m_rows_transpositions := fun _ => 0
    m_cols_permutation := fun _ => 0
    m_isInitialized := false
    m_precision := 0
    m_rank := 0
    m_det_pq := 0 }

/-- The invertible real 3-by-3 matrix diag(3, 2, 1). -/
def realDiag3 : DenseMatrix ℝ :=
  { rows := 3, cols := 3
    coeff := fun i j => if i = j then (if i = 0 then 3 else if i = 1 then 2 else 1) else 0 }

/-- The right-hand side diag(3, 2, 1) * (1, 2, 3) = (3, 4, 3). -/
def realRhs3 : DenseMatrix ℝ :=
  { rows := 3, cols := 1, coeff := fun i _ => if i = 1 then 4 else 3 }

/-- The singular real 2-by-2 matrix with rows (1, 0) and (0, 0). -/
def realSingular2 : DenseMatrix ℝ :=
  { rows := 2, cols := 2, coeff := fun i j => if i = 0 ∧ j = 0 then 1 else 0 }

/-- The right-hand side (1, 0), in the column space of `realSingular2`. -/
def realRhs2 : DenseMatrix ℝ :=
  { rows := 2, cols := 1, coeff := fun i _ => if i = 0 then 1 else 0 }

/-- A real destination buffer holding arbitrary values. -/
def realDst : DenseMatrix ℝ :=
  { rows := 0, cols := 0, coeff := fun _ _ => 42 }

/-- The 2-by-2 matrix diag(1, 2^-52), whose second pivot is negligible but not zero. -/
def exampleNearSingular : DenseMatrix ℚ :=
  { rows := 2, cols := 2
    coeff := fun i j => if i = 0 ∧ j = 0 then 1 else if i = 1 ∧ j = 1 then 1 / 2 ^ 52 else 0 }

/-- The right-hand side (1, 2^-52) = diag(1, 2^-52) * (1, 1). -/
def exampleNearRhs : DenseMatrix ℚ :=
  { rows := 2, cols := 1, coeff := fun i _ => if i = 0 then 1 else 1 / 2 ^ 52 }

/-- The 1-by-2 matrix with entries 1, 0. -/
def exampleWide : DenseMatrix ℚ :=
  { rows := 1, cols := 2, coeff := fun _ j => if j = 0 then 1 else 0 }

/-- The 2-by-2 matrix with rows (2, 0) and (0, 3). -/
def exampleDiag2 : DenseMatrix ℚ :=
  { rows := 2, cols := 2
    coeff := fun i j => if i = 0 ∧ j = 0 then 2 else if i = 1 ∧ j = 1 then 3 else 0 }

/-- An object that holds the record of an earlier decomposition. -/
def exampleStale : FullPivHouseholderQR ℚ :=
  { m_qr := { rows := 4, cols := 4, coeff := fun _ _ => 8 }
    m_hCoeffs := fun _ => 13
    m_rows_transpositions := fun _ => 3
    m_cols_permutation := fun _ => 2
    m_isInitialized := true
    m_precision := 1
    m_rank := 4
    m_det_pq := -1 }

/-- The invertible 3-by-3 matrix with rows (1, 0, 0), (0, 0, 2^-52), (0, 2^-52, 0). -/
def exampleHiddenBlock : DenseMatrix ℚ :=
  { rows := 3, cols := 3
    coeff := fun i j =>
      if i = 0 ∧ j = 0 then 1 else if i = 1 ∧ j = 2 then 1 / 2 ^ 52
      else if i = 2 ∧ j = 1 then 1 / 2 ^ 52 else 0 }

/-- The 3-by-2 matrix with rows (1, 0), (0, 2^-52), (0, 0); its columns are independent. -/
def exampleNearTall : DenseMatrix ℚ :=
  { rows := 3, cols := 2
    coeff := fun i j => if i = 0 ∧ j = 0 then 1 else if i = 1 ∧ j = 1 then 1 / 2 ^ 52 else 0 }

/-- The real 3-by-2 matrix with rows (2, 0), (0, 1), (0, 0). -/
def realTall : DenseMatrix ℝ :=
  { rows := 3, cols := 2
    coeff := fun i j => if i = 0 ∧ j = 0 then 2 else if i = 1 ∧ j = 1 then 1 else 0 }

/-- The right-hand side (1, 0) with 2 rows and one column. -/
def exampleRhsUnit : DenseMatrix ℚ :=
  { rows := 2, cols := 1, coeff := fun i _ => if i = 0 then 1 else 0 }

end Examples

end FullPivQR

/-!
# Line-cone and segment-segment intersection queries

A shallow embedding of `Wm4IntrLine3Cone3.cpp` (`Find`, `GetQuantity`, `GetPoint`) and of
`Wm4IntrSegment2Segment2.cpp` (`Classify`, `Test`, `Find`) over an arbitrary linearly
ordered field `K`.  A member function is a function from the object before the call to the
object after it, together with the returned value; members that a call does not write keep
their value.
-/

namespace Wm4

/-- Modelled from the spec: the intersection types of the base class `Intersector`
(Wm4Intersector.h is not under src/, and the spec leaves the geometry code to its source);
these are the values that the two intersection queries assign. -/
inductive IntersectionType where
  | IT_EMPTY
  | IT_POINT
  | IT_SEGMENT
  | IT_RAY
  deriving DecidableEq, Repr

/-- Modelled from the spec: the members of `Math<Real>` that the intersection queries use
(Wm4Math.h is not under src/): the constant `ZERO_TOLERANCE` and the function `Sqrt`;
`FAbs` is the absolute value of the ordered field. -/
structure MathOps (K : Type) where
  ZERO_TOLERANCE : K
  Sqrt : K → K

/-- Modelled from the spec: the class `Vector3` (Wm4Vector3.h is not under src/), a triple
of coordinates. -/
@[ext]
structure Vector3 (K : Type) where
  x : K
  y : K
  z : K
  deriving DecidableEq

/-- Modelled from the spec: the class `Vector2` (Wm4Vector2.h is not under src/), a pair of
coordinates. -/
@[ext]
structure Vector2 (K : Type) where
  x : K
  y : K
  deriving DecidableEq

/-- Modelled from the spec: the class `Line3` (Wm4Line3.h is not under src/): the line
`Origin + t * Direction`. -/
structure Line3 (K : Type) where
  Origin : Vector3 K
  Direction : Vector3 K

/-- Modelled from the spec: the class `Cone3` (Wm4Cone3.h is not under src/): the members
that `Find` reads. -/
structure Cone3 (K : Type) where
  Vertex : Vector3 K
  Axis : Vector3 K
  CosAngle : K

/-- Modelled from the spec: the class `Segment2` (Wm4Segment2.h is not under src/): the
points `Origin + s * Direction` with `|s| <= Extent`. -/
structure Segment2 (K : Type) where
  Origin : Vector2 K
  Direction : Vector2 K
  Extent : K

/-- The members of the class `IntrLine3Cone3`; `m_akPoint` is an array of two points. -/
structure IntrLine3Cone3 (K : Type) where
  m_pkLine : Line3 K
  m_pkCone : Cone3 K
  m_iIntersectionType : IntersectionType
  m_iQuantity : Int
  m_akPoint : Int → Vector3 K

/-- The members of the class `IntrSegment2Segment2`. -/
structure IntrSegment2Segment2 (K : Type) where
  m_pkSegment0 : Segment2 K
  m_pkSegment1 : Segment2 K
  m_iIntersectionType : IntersectionType
  m_iQuantity : Int
  m_kPoint : Vector2 K

/-- What a call of `Classify` hands back: the returned type and the contents of the three
output locations (`none` for a null pointer). -/
structure ClassifyResult (K : Type) where
  type : IntersectionType
  afS : Option (K × K)
  pkDiff : Option (Vector2 K)
  pkDiffN : Option (Vector2 K)

section Definitions

variable {K : Type} [LinearOrderedField K]

/-- Modelled from the spec: `Vector3::operator+` (not under src/). -/
instance : Add (Vector3 K) where
  add u v := { x := u.x + v.x, y := u.y + v.y, z := u.z + v.z }

/-- Modelled from the spec: `Vector3::operator-` (not under src/). -/
instance : Sub (Vector3 K) where
  sub u v := { x := u.x - v.x, y := u.y - v.y, z := u.z - v.z }

/-- Modelled from the spec: the product of a scalar and a `Vector3` (not under src/). -/
instance : SMul K (Vector3 K) where
  smul a v := { x := a * v.x, y := a * v.y, z := a * v.z }

/-- Modelled from the spec: `Vector3::Dot` (not under src/), the dot product that the
comments of `Find` write `Dot(A,X-V)`. -/
def Vector3.Dot (u v : Vector3 K) : K :=
  u.x * v.x + u.y * v.y + u.z * v.z

/-- Modelled from the spec: `Vector2::operator+` (not under src/). -/
instance : Add (Vector2 K) where
  add u v := { x := u.x + v.x, y := u.y + v.y }

/-- Modelled from the spec: `Vector2::operator-` (not under src/). -/
instance : Sub (Vector2 K) where
  sub u v := { x := u.x - v.x, y := u.y - v.y }

/-- Modelled from the spec: the product of a scalar and a `Vector2` (not under src/). -/
instance : SMul K (Vector2 K) where
  smul a v := { x := a * v.x, y := a * v.y }

/-- Modelled from the spec: `Vector2::DotPerp` (not under src/), which the comment of
`Classify` writes `D0.Dot(Perp(D1))` with `Perp(x, y) = (y, -x)`. -/
def Vector2.DotPerp (u v : Vector2 K) : K :=
  u.x * v.y - u.y * v.x

/-- Modelled from the spec: `Vector2::Normalize` (not under src/): the vector is divided by
its length when the length exceeds `ZERO_TOLERANCE` and is set to zero otherwise. -/
def Vector2.Normalize (M : MathOps K) (v : Vector2 K) : Vector2 K :=
  if M.Sqrt (v.x * v.x + v.y * v.y) > M.ZERO_TOLERANCE then
    { x := v.x * (1 / M.Sqrt (v.x * v.x + v.y * v.y))
      y := v.y * (1 / M.Sqrt (v.x * v.x + v.y * v.y)) }
  else { x := 0, y := 0 }

/-- Modelled from the spec: the constant `INT_MAX` of `<climits>` for a 32-bit `int`. -/
def INT_MAX : Int := 2147483647

/-- Lines 85-92 and 94-101 of `IntrLine3Cone3::Find`: the point of the root `fT` is written
to `m_akPoint[m_iQuantity]` and counted when it lies in front of the vertex. -/
def IntrLine3Cone3.keepRoot (self : IntrLine3Cone3 K) (fT : K) : IntrLine3Cone3 K :=
  { self with
    m_akPoint := Function.update self.m_akPoint self.m_iQuantity
      (self.m_pkLine.Origin + fT • self.m_pkLine.Direction)
    m_iQuantity :=
      if ((self.m_pkLine.Origin + fT • self.m_pkLine.Direction) - self.m_pkCone.Vertex).Dot
          self.m_pkCone.Axis > 0 then
        self.m_iQuantity + 1
      else self.m_iQuantity }

/-- Lines 81-122 of `IntrLine3Cone3::Find`: two distinct real roots. -/
def IntrLine3Cone3.findDistinctRoots (M : MathOps K) (self : IntrLine3Cone3 K)
    (fC2 fC1 fDiscr : K) : IntrLine3Cone3 K :=
  let fRoot := M.Sqrt fDiscr
  let fInvC2 := 1 / fC2
  let s0 : IntrLine3Cone3 K := { self with m_iQuantity := 0 }
  let s1 := s0.keepRoot ((-fC1 - fRoot) * fInvC2)
  let s2 := s1.keepRoot ((-fC1 + fRoot) * fInvC2)
  if s2.m_iQuantity = 2 then
    { s2 with m_iIntersectionType := .IT_SEGMENT }
  else if s2.m_iQuantity = 1 then
    { s2 with
      m_iIntersectionType := .IT_RAY
      m_akPoint := Function.update s2.m_akPoint s2.m_iQuantity self.m_pkLine.Direction
      m_iQuantity := s2.m_iQuantity + 1 }
  else
    { s2 with m_iIntersectionType := .IT_EMPTY }

/-- Lines 127-138 of `IntrLine3Cone3::Find`: one repeated real root. -/
def IntrLine3Cone3.findRepeatedRoot (self : IntrLine3Cone3 K) (fC2 fC1 : K) :
    IntrLine3Cone3 K :=
  let p := self.m_pkLine.Origin - (fC1 / fC2) • self.m_pkLine.Direction
  if (p - self.m_pkCone.Vertex).Dot self.m_pkCone.Axis > 0 then
    { self with
      m_akPoint := Function.update self.m_akPoint 0 p
      m_iIntersectionType := .IT_POINT
      m_iQuantity := 1 }
  else
    { self with
      m_akPoint := Function.update self.m_akPoint 0 p
      m_iIntersectionType := .IT_EMPTY
      m_iQuantity := 0 }

/-- Lines 143-158 of `IntrLine3Cone3::Find`: `c2 = 0`, `c1 != 0`. -/
def IntrLine3Cone3.findBoundaryDirection (self : IntrLine3Cone3 K) (fC1 fC0 : K) :
    IntrLine3Cone3 K :=
  let p := self.m_pkLine.Origin - ((1 / 2) * fC0 / fC1) • self.m_pkLine.Direction
  if (p - self.m_pkCone.Vertex).Dot self.m_pkCone.Axis > 0 then
    { self with
      m_akPoint := Function.update (Function.update self.m_akPoint 0 p) 1
        self.m_pkLine.Direction
      m_iIntersectionType := .IT_RAY
      m_iQuantity := 2 }
  else
    { self with
      m_akPoint := Function.update self.m_akPoint 0 p
      m_iIntersectionType := .IT_EMPTY
      m_iQuantity := 0 }

/-- The coefficient `c2` of the quadratic of `IntrLine3Cone3::Find` (line 58). -/
def IntrLine3Cone3.fC2 (self : IntrLine3Cone3 K) : K :=
  self.m_pkCone.Axis.Dot self.m_pkLine.Direction * self.m_pkCone.Axis.Dot self.m_pkLine.Direction
    - self.m_pkCone.CosAngle * self.m_pkCone.CosAngle

/-- The coefficient `c1` of the quadratic of `IntrLine3Cone3::Find` (line 59). -/
def IntrLine3Cone3.fC1 (self : IntrLine3Cone3 K) : K :=
  self.m_pkCone.Axis.Dot self.m_pkLine.Direction *
      self.m_pkCone.Axis.Dot (self.m_pkLine.Origin - self.m_pkCone.Vertex)
    - self.m_pkCone.CosAngle * self.m_pkCone.CosAngle *
      self.m_pkLine.Direction.Dot (self.m_pkLine.Origin - self.m_pkCone.Vertex)

/-- The coefficient `c0` of the quadratic of `IntrLine3Cone3::Find` (line 60). -/
def IntrLine3Cone3.fC0 (self : IntrLine3Cone3 K) : K :=
  self.m_pkCone.Axis.Dot (self.m_pkLine.Origin - self.m_pkCone.Vertex) *
      self.m_pkCone.Axis.Dot (self.m_pkLine.Origin - self.m_pkCone.Vertex)
    - self.m_pkCone.CosAngle * self.m_pkCone.CosAngle *
      (self.m_pkLine.Origin - self.m_pkCone.Vertex).Dot
        (self.m_pkLine.Origin - self.m_pkCone.Vertex)

/-- The object after the member function `IntrLine3Cone3::Find`, lines 52-174. -/
def IntrLine3Cone3.findState (M : MathOps K) (self : IntrLine3Cone3 K) : IntrLine3Cone3 K :=
  if abs self.fC2 ≥ M.ZERO_TOLERANCE then
    if self.fC1 * self.fC1 - self.fC0 * self.fC2 < 0 then
      { self with m_iIntersectionType := .IT_EMPTY, m_iQuantity := 0 }
    else if self.fC1 * self.fC1 - self.fC0 * self.fC2 > M.ZERO_TOLERANCE then
      self.findDistinctRoots M self.fC2 self.fC1 (self.fC1 * self.fC1 - self.fC0 * self.fC2)
    else
      self.findRepeatedRoot self.fC2 self.fC1
  else if abs self.fC1 ≥ M.ZERO_TOLERANCE then
    self.findBoundaryDirection self.fC1 self.fC0
  else if abs self.fC0 ≥ M.ZERO_TOLERANCE then
    { self with m_iIntersectionType := .IT_EMPTY, m_iQuantity := 0 }
  else
    { self with
      m_iIntersectionType := .IT_RAY
      m_iQuantity := 2
      m_akPoint := Function.update (Function.update self.m_akPoint 0 self.m_pkCone.Vertex) 1
        self.m_pkLine.Direction }

/-- The member function `IntrLine3Cone3::Find`: the object after the call and the returned
value (line 176). -/
def IntrLine3Cone3.Find (M : MathOps K) (self : IntrLine3Cone3 K) : IntrLine3Cone3 K × Bool :=
  (self.findState M, decide ((self.findState M).m_iIntersectionType ≠ .IT_EMPTY))

/-- The member function `IntrLine3Cone3::GetQuantity`. -/
def IntrLine3Cone3.GetQuantity (self : IntrLine3Cone3 K) : Int :=
  self.m_iQuantity

/-- The member function `IntrLine3Cone3::GetPoint`; `none` when the assertion
`0 <= i && i < m_iQuantity` fails. -/
def IntrLine3Cone3.GetPoint (self : IntrLine3Cone3 K) (i : Int) : Option (Vector3 K) :=
  if 0 ≤ i ∧ i < self.m_iQuantity then some (self.m_akPoint i) else none

/-- The member function `IntrSegment2Segment2::Classify`; each pointer argument is `none`
(a null pointer) or the present contents of the location it points to. -/
def IntrSegment2Segment2.Classify (M : MathOps K) (self : IntrSegment2Segment2 K)
    (afS : Option (K × K)) (pkDiff pkDiffN : Option (Vector2 K)) : ClassifyResult K :=
  let kDiff := self.m_pkSegment1.Origin - self.m_pkSegment0.Origin
  let fD0DotPerpD1 := self.m_pkSegment0.Direction.DotPerp self.m_pkSegment1.Direction
  if abs fD0DotPerpD1 > M.ZERO_TOLERANCE then
    { type := .IT_POINT
      afS := afS.map (fun _ =>
        (kDiff.DotPerp self.m_pkSegment1.Direction * (1 / fD0DotPerpD1),
          kDiff.DotPerp self.m_pkSegment0.Direction * (1 / fD0DotPerpD1)))
      pkDiff := pkDiff.map (fun _ => kDiff)
      pkDiffN := pkDiffN }
  else
    { type :=
        if abs ((kDiff.Normalize M).DotPerp self.m_pkSegment1.Direction) ≤ M.ZERO_TOLERANCE
        then .IT_SEGMENT else .IT_EMPTY
      afS := afS
      pkDiff := pkDiff.map (fun _ => kDiff)
      pkDiffN := pkDiffN.map (fun _ => kDiff.Normalize M) }

/-- The member function `IntrSegment2Segment2::Test`; `kDiff` and `afParameter` are the
contents of the two uninitialized locals. -/
def IntrSegment2Segment2.Test (M : MathOps K) (self : IntrSegment2Segment2 K)
    (kDiff : Vector2 K) (afParameter : K × K) : IntrSegment2Segment2 K × Bool :=
  let c := self.Classify M (some afParameter) (some kDiff) none
  let result : IntrSegment2Segment2 K :=
    if c.type = .IT_POINT then
      if abs (c.afS.getD afParameter).1 ≤ self.m_pkSegment0.Extent ∧
          abs (c.afS.getD afParameter).2 ≤ self.m_pkSegment1.Extent then
        { self with m_iIntersectionType := c.type, m_iQuantity := 1 }
      else
        { self with m_iIntersectionType := .IT_EMPTY, m_iQuantity := 0 }
    else if c.type = .IT_SEGMENT then
      { self with m_iIntersectionType := c.type, m_iQuantity := INT_MAX }
    else
      { self with m_iIntersectionType := c.type, m_iQuantity := 0 }
  (result, decide (result.m_iIntersectionType ≠ .IT_EMPTY))

/-- The member function `IntrSegment2Segment2::Find`; `kDiff` and `afParameter` are the
contents of the two uninitialized locals. -/
def IntrSegment2Segment2.Find (M : MathOps K) (self : IntrSegment2Segment2 K)
    (kDiff : Vector2 K) (afParameter : K × K) : IntrSegment2Segment2 K × Bool :=
  let c := self.Classify M (some afParameter) (some kDiff) none
  let result : IntrSegment2Segment2 K :=
    if c.type = .IT_POINT then
      if abs (c.afS.getD afParameter).1 ≤ self.m_pkSegment0.Extent ∧
          abs (c.afS.getD afParameter).2 ≤ self.m_pkSegment1.Extent then
        { self with
          m_iIntersectionType := c.type
          m_iQuantity := 1
          m_kPoint := self.m_pkSegment0.Origin +
            (c.afS.getD afParameter).1 • self.m_pkSegment0.Direction }
      else
        { self with m_iIntersectionType := .IT_EMPTY, m_iQuantity := 0 }
    else if c.type = .IT_SEGMENT then
      { self with m_iIntersectionType := c.type, m_iQuantity := INT_MAX }
    else
      { self with m_iIntersectionType := c.type, m_iQuantity := 0 }
  (result, decide (result.m_iIntersectionType ≠ .IT_EMPTY))

/-- The member function `IntrSegment2Segment2::GetQuantity`. -/
def IntrSegment2Segment2.GetQuantity (self : IntrSegment2Segment2 K) : Int :=
  self.m_iQuantity

/-- The member function `IntrSegment2Segment2::GetPoint`. -/
def IntrSegment2Segment2.GetPoint (self : IntrSegment2Segment2 K) : Vector2 K :=
  self.m_kPoint

end Definitions

section Examples

/-- The tolerance of `Math<double>` and the exact rational square root. -/
def exampleMath : MathOps ℚ :=
  { ZERO_TOLERANCE := 1 / 10 ^ 8, Sqrt := Rat.sqrt }

/-- The cone with vertex (0, 0, 0), axis (0, 0, 1) and cosine 3/5. -/
def exampleCone : Cone3 ℚ :=
  { Vertex := { x := 0, y := 0, z := 0 }, Axis := { x := 0, y := 0, z := 1 }, CosAngle := 3 / 5 }

/-- The line through the vertex of `exampleCone` with direction (1, 0, 0), perpendicular
to the axis. -/
def exampleLineAcross : Line3 ℚ :=
  { Origin := { x := 0, y := 0, z := 0 }, Direction := { x := 1, y := 0, z := 0 } }

/-- The line through the vertex of `exampleCone` with the unit direction (4/5, 0, -3/5),
which lies on the wall of the opposite nappe. -/
def exampleLineDown : Line3 ℚ :=
  { Origin := { x := 0, y := 0, z := 0 }, Direction := { x := 4 / 5, y := 0, z := -(3 / 5) } }

/-- An intersection query for `exampleLineAcross` and `exampleCone` before `Find`. -/
def exampleQueryAcross : IntrLine3Cone3 ℚ :=
  { m_pkLine := exampleLineAcross, m_pkCone := exampleCone
    m_iIntersectionType := .IT_EMPTY, m_iQuantity := 0
    m_akPoint := fun _ => { x := 7, y := 7, z := 7 } }

/-- An intersection query for `exampleLineDown` and `exampleCone` before `Find`. -/
def exampleQueryDown : IntrLine3Cone3 ℚ :=
  { m_pkLine := exampleLineDown, m_pkCone := exampleCone
    m_iIntersectionType := .IT_EMPTY, m_iQuantity := 0
    m_akPoint := fun _ => { x := 7, y := 7, z := 7 } }

/-- An intersection query for the segment with centre (0, 0), direction (1, 0) and extent 1
and the segment with centre (1/2, 0), direction (0, 1) and extent 1, before `Find`. -/
def exampleQueryCross : IntrSegment2Segment2 ℚ :=
  { m_pkSegment0 := { Origin := { x := 0, y := 0 }, Direction := { x := 1, y := 0 }, Extent := 1 }
    m_pkSegment1 :=
      { Origin := { x := 1 / 2, y := 0 }, Direction := { x := 0, y := 1 }, Extent := 1 }
    m_iIntersectionType := .IT_EMPTY, m_iQuantity := 0
    m_kPoint := { x := 7, y := 7 } }

/-- The exact rational square root with `ZERO_TOLERANCE` taken as 0. -/
def exampleMathExact : MathOps ℚ :=
  { ZERO_TOLERANCE := 0, Sqrt := Rat.sqrt }

/-- An intersection query for two collinear segments that are apart: centres (0, 0) and
(5, 0), both with direction (1, 0) and extent 1, before `Test`. -/
def exampleQueryApart : IntrSegment2Segment2 ℚ :=
  { m_pkSegment0 := { Origin := { x := 0, y := 0 }, Direction := { x := 1, y := 0 }, Extent := 1 }
    m_pkSegment1 := { Origin := { x := 5, y := 0 }, Direction := { x := 1, y := 0 }, Extent := 1 }
    m_iIntersectionType := .IT_EMPTY, m_iQuantity := 0
    m_kPoint := { x := 7, y := 7 } }

end Examples

end Wm4

namespace FullPivQR


section Basics

variable {K : Type} [LinearOrderedField K]

theorem mem_blockPositions (nr nc i j : Nat) :
    (i, j) ∈ blockPositions nr nc ↔ i < nr ∧ j < nc := by
  simp only [blockPositions, List.mem_flatMap, List.mem_map, List.mem_range, Prod.mk.injEq]
  constructor
  · rintro ⟨a, ha, b, hb, rfl, rfl⟩
    exact ⟨hb, ha⟩
  · rintro ⟨hi, hj⟩
    exact ⟨j, hj, i, hi, rfl, rfl⟩

theorem foldl_visitMax_spec (f : Nat → Nat → K) (l : List (Nat × Nat)) (acc : K × Nat × Nat) :
    ((l.foldl (visitMax f) acc = acc) ∨
      ∃ p ∈ l, l.foldl (visitMax f) acc = (f p.1 p.2, p.1, p.2)) ∧
    acc.1 ≤ (l.foldl (visitMax f) acc).1 ∧
    ∀ p ∈ l, f p.1 p.2 ≤ (l.foldl (visitMax f) acc).1 := by
  induction l generalizing acc with
  | nil => simp
  | cons q l ih =>
    simp only [List.foldl_cons]
    obtain ⟨h1, h2, h3⟩ := ih (visitMax f acc q)
    have hv : acc.1 ≤ (visitMax f acc q).1 ∧ f q.1 q.2 ≤ (visitMax f acc q).1 := by
      unfold visitMax
      split_ifs with h
      · exact ⟨le_of_lt h, le_refl _⟩
      · exact ⟨le_refl _, not_lt.mp h⟩
    refine ⟨?_, le_trans hv.1 h2, ?_⟩
    · rcases h1 with h1 | ⟨p, hp, h1⟩
      · rw [h1]
        unfold visitMax
        split_ifs with h
        · exact Or.inr ⟨q, List.mem_cons_self _ _, rfl⟩
        · exact Or.inl rfl
      · exact Or.inr ⟨p, List.mem_cons_of_mem _ hp, h1⟩
    · intro p hp
      rcases List.mem_cons.mp hp with rfl | hp
      · exact le_trans hv.2 h2
      · exact h3 p hp

theorem maxCoeff_spec (f : Nat → Nat → K) (nr nc : Nat) (hr : 0 < nr) (hc : 0 < nc) :
    (maxCoeff f nr nc).2.1 < nr ∧ (maxCoeff f nr nc).2.2 < nc ∧
    (maxCoeff f nr nc).1 = f (maxCoeff f nr nc).2.1 (maxCoeff f nr nc).2.2 ∧
    ∀ i j, i < nr → j < nc → f i j ≤ (maxCoeff f nr nc).1 := by
  obtain ⟨h1, _, h3⟩ := foldl_visitMax_spec f (blockPositions nr nc) (f 0 0, 0, 0)
  have h4 : ∀ i j, i < nr → j < nc → f i j ≤ (maxCoeff f nr nc).1 := fun i j hi hj =>
    h3 (i, j) ((mem_blockPositions nr nc i j).mpr ⟨hi, hj⟩)
  rcases h1 with h1 | ⟨p, hp, h1⟩
  · unfold maxCoeff at h4 ⊢
    rw [h1] at h4 ⊢
    exact ⟨hr, hc, rfl, h4⟩
  · unfold maxCoeff at h4 ⊢
    rw [h1] at h4 ⊢
    obtain ⟨pi, pj⟩ := p
    have := (mem_blockPositions nr nc pi pj).mp hp
    exact ⟨this.1, this.2, rfl, h4⟩

theorem forRange_fillStep (m k : Nat) (s : ComputeState K) :
    (forRange fillStep k m s).qr = s.qr ∧
    (forRange fillStep k m s).rank = s.rank ∧
    (forRange fillStep k m s).biggest = s.biggest ∧
    (forRange fillStep k m s).number_of_transpositions = s.number_of_transpositions ∧
    (∀ i, (forRange fillStep k m s).hCoeffs i =
      if k ≤ i ∧ i < k + m then 0 else s.hCoeffs i) ∧
    (∀ i, (forRange fillStep k m s).rows_transpositions i =
      if k ≤ i ∧ i < k + m then i else s.rows_transpositions i) ∧
    (∀ i, (forRange fillStep k m s).cols_transpositions i =
      if k ≤ i ∧ i < k + m then i else s.cols_transpositions i) := by
  induction m generalizing k s with
  | zero =>
    simp only [forRange, add_zero, true_and]
    refine ⟨?_, ?_, ?_⟩ <;> intro i <;> rw [if_neg (by omega)]
  | succ m ih =>
    simp only [forRange]
    obtain ⟨h1, h2, h3, h4, h5, h6, h7⟩ := ih (k + 1) (fillStep k s)
    refine ⟨h1, h2, h3, h4, ?_, ?_, ?_⟩
    · intro i
      rw [h5]
      by_cases hik : i = k
      · subst hik
        simp [fillStep]
      · simp only [fillStep, Function.update_noteq hik]
        by_cases h : k ≤ i ∧ i < k + (m + 1)
        · rw [if_pos h, if_pos (by omega)]
        · rw [if_neg h, if_neg (by omega)]
    · intro i
      rw [h6]
      by_cases hik : i = k
      · subst hik
        simp [fillStep]
      · simp only [fillStep, Function.update_noteq hik]
        by_cases h : k ≤ i ∧ i < k + (m + 1)
        · rw [if_pos h, if_pos (by omega)]
        · rw [if_neg h, if_neg (by omega)]
    · intro i
      rw [h7]
      by_cases hik : i = k
      · subst hik
        simp [fillStep]
      · simp only [fillStep, Function.update_noteq hik]
        by_cases h : k ≤ i ∧ i < k + (m + 1)
        · rw [if_pos h, if_pos (by omega)]
        · rw [if_neg h, if_neg (by omega)]

theorem computeLoop_succ (S : ScalarOps K) (rows cols size : Nat) (prec : K) (n k : Nat)
    (s : ComputeState K) :
    computeLoop S rows cols size prec (n + 1) k s =
      if isMuchSmallerThan (pivotOf s.qr rows cols k).1 (biggestAt s.qr rows cols k s.biggest) prec
      then forRange fillStep k (size - k)
        { s with biggest := biggestAt s.qr rows cols k s.biggest, rank := k }
      else computeLoop S rows cols size prec n (k + 1)
        (pivotStep S rows cols k ((pivotOf s.qr rows cols k).2.1 + k)
          ((pivotOf s.qr rows cols k).2.2 + k)
          { s with biggest := biggestAt s.qr rows cols k s.biggest }) := rfl

/-- Loop rule for the main loop of `compute`: `P` holds before each iteration, `Q` at
every exit (early termination or after the last iteration). -/
theorem computeLoop_rule (S : ScalarOps K) (rows cols size : Nat) (prec : K)
    (P : Nat → ComputeState K → Prop) (Q : ComputeState K → Prop)
    (hstep : ∀ k s, k < size → P k s →
      isMuchSmallerThan (pivotOf s.qr rows cols k).1 (biggestAt s.qr rows cols k s.biggest) prec
        = false →
      P (k + 1) (pivotStep S rows cols k ((pivotOf s.qr rows cols k).2.1 + k)
          ((pivotOf s.qr rows cols k).2.2 + k)
          { s with biggest := biggestAt s.qr rows cols k s.biggest }))
    (hbreak : ∀ k s, k < size → P k s →
      isMuchSmallerThan (pivotOf s.qr rows cols k).1 (biggestAt s.qr rows cols k s.biggest) prec
        = true →
      Q (forRange fillStep k (size - k)
        { s with biggest := biggestAt s.qr rows cols k s.biggest, rank := k }))
    (hend : ∀ s, P size s → Q s) :
    ∀ n k s, k + n = size → P k s → Q (computeLoop S rows cols size prec n k s) := by
  intro n
  induction n with
  | zero =>
    intro k s hk hP
    have : k = size := by omega
    subst this
    exact hend s hP
  | succ n ih =>
    intro k s hk hP
    rw [computeLoop_succ]
    by_cases hb : isMuchSmallerThan (pivotOf s.qr rows cols k).1
        (biggestAt s.qr rows cols k s.biggest) prec = true
    · rw [if_pos hb]
      exact hbreak k s (by omega) hP hb
    · rw [if_neg hb]
      exact ih (k + 1) _ (by omega) (hstep k s (by omega) hP (by simpa using hb))

end Basics

section Bounds

variable {K : Type} [LinearOrderedField K]

theorem pivotOf_spec (q : Nat → Nat → K) (rows cols k : Nat) (hr : k < rows) (hc : k < cols) :
    (pivotOf q rows cols k).2.1 + k < rows ∧ (pivotOf q rows cols k).2.2 + k < cols ∧
    (pivotOf q rows cols k).1 =
      abs (q ((pivotOf q rows cols k).2.1 + k) ((pivotOf q rows cols k).2.2 + k)) ∧
    ∀ i j, k ≤ i → i < rows → k ≤ j → j < cols → abs (q i j) ≤ (pivotOf q rows cols k).1 := by
  obtain ⟨h1, h2, h3, h4⟩ := maxCoeff_spec (fun i j => abs (q (k + i) (k + j)))
    (rows - k) (cols - k) (by omega) (by omega)
  refine ⟨by unfold pivotOf; omega, by unfold pivotOf; omega, ?_, ?_⟩
  · unfold pivotOf
    rw [h3]
    simp only [add_comm]
  · intro i j hi hi' hj hj'
    have := h4 (i - k) (j - k) (by omega) (by omega)
    simp only [] at this
    rw [show k + (i - k) = i by omega, show k + (j - k) = j by omega] at this
    exact this

theorem computeLoop_bounds (S : ScalarOps K) (rows cols size : Nat) (prec : K)
    (hsr : size ≤ rows) (hsc : size ≤ cols) (s : ComputeState K) (hs : s.rank = size) :
    (computeLoop S rows cols size prec size 0 s).rank ≤ size ∧
    TranspositionsInRange rows cols size (computeLoop S rows cols size prec size 0 s) ∧
    ∀ i, (computeLoop S rows cols size prec size 0 s).rank ≤ i → i < size →
      (computeLoop S rows cols size prec size 0 s).hCoeffs i = 0 ∧
      (computeLoop S rows cols size prec size 0 s).rows_transpositions i = i ∧
      (computeLoop S rows cols size prec size 0 s).cols_transpositions i = i := by
  refine computeLoop_rule S rows cols size prec
    (fun k s => s.rank = size ∧ TranspositionsInRange rows cols k s)
    (fun f => f.rank ≤ size ∧ TranspositionsInRange rows cols size f ∧
      ∀ i, f.rank ≤ i → i < size →
        f.hCoeffs i = 0 ∧ f.rows_transpositions i = i ∧ f.cols_transpositions i = i)
    ?_ ?_ ?_ size 0 s (by omega) ⟨hs, fun i hi => absurd hi (Nat.not_lt_zero i)⟩
  · rintro k s hk ⟨hrk, htr⟩ -
    obtain ⟨h1, h2, -, -⟩ := pivotOf_spec s.qr rows cols k (by omega) (by omega)
    refine ⟨hrk, ?_⟩
    intro i hi
    by_cases hik : i = k
    · subst hik
      simp only [pivotStep, Function.update_same]
      omega
    · simp only [pivotStep, Function.update_noteq hik]
      exact htr i (by omega)
  · rintro k s hk ⟨hrk, htr⟩ -
    obtain ⟨-, e2, -, -, e5, e6, e7⟩ := forRange_fillStep (size - k) k
      { s with biggest := biggestAt s.qr rows cols k s.biggest, rank := k }
    refine ⟨by rw [e2]; exact le_of_lt hk, ?_, ?_⟩
    · intro i hi
      rw [e6, e7]
      by_cases h : k ≤ i ∧ i < k + (size - k)
      · rw [if_pos h, if_pos h]
        omega
      · rw [if_neg h, if_neg h]
        exact htr i (by omega)
    · intro i hi hi'
      rw [e2] at hi
      have hki : k ≤ i := hi
      rw [e5, e6, e7, if_pos (by omega), if_pos (by omega), if_pos (by omega)]
      exact ⟨rfl, rfl, rfl⟩
  · rintro s ⟨hrk, htr⟩
    exact ⟨le_of_eq hrk, htr, fun i h1 h2 => by omega⟩

theorem computeFinal_bounds (S : ScalarOps K) (self : FullPivHouseholderQR K)
    (matrix : DenseMatrix K) :
    (computeFinal S self matrix).rank ≤ min matrix.rows matrix.cols ∧
    TranspositionsInRange matrix.rows matrix.cols (min matrix.rows matrix.cols)
      (computeFinal S self matrix) ∧
    ∀ i, (computeFinal S self matrix).rank ≤ i → i < min matrix.rows matrix.cols →
      (computeFinal S self matrix).hCoeffs i = 0 ∧
      (computeFinal S self matrix).rows_transpositions i = i ∧
      (computeFinal S self matrix).cols_transpositions i = i :=
  computeLoop_bounds S matrix.rows matrix.cols _ _ (Nat.min_le_left _ _) (Nat.min_le_right _ _)
    (computeInit self matrix) rfl

theorem forRange_succ_last {σ : Type} (body : Nat → σ → σ) (lo n : Nat) (s : σ) :
    forRange body lo (n + 1) s = body (lo + n) (forRange body lo n s) := by
  induction n generalizing lo s with
  | zero => rfl
  | succ n ih =>
    rw [forRange, ih (lo + 1) (body lo s), forRange]
    rw [show lo + 1 + n = lo + (n + 1) by omega]

theorem colsPermutationOf_succ (ct : Nat → Nat) (n : Nat) :
    colsPermutationOf ct (n + 1) =
      applyTranspositionOnTheRight (colsPermutationOf ct n) n (ct n) := by
  unfold colsPermutationOf
  rw [forRange_succ_last]
  simp

theorem applyTranspositionOnTheRight_self (p : Nat → Nat) (i : Nat) :
    applyTranspositionOnTheRight p i i = p := by
  funext l
  unfold applyTranspositionOnTheRight
  split_ifs with h <;> simp [h]

theorem applyTranspositionOnTheRight_bijOn (p : Nat → Nat) (c i j : Nat) (hi : i < c)
    (hj : j < c) (hp : Set.BijOn p (Set.Iio c) (Set.Iio c)) :
    Set.BijOn (applyTranspositionOnTheRight p i j) (Set.Iio c) (Set.Iio c) := by
  have hcomp : applyTranspositionOnTheRight p i j = p ∘ (Equiv.swap i j) := by
    funext l
    simp only [applyTranspositionOnTheRight, Function.comp, Equiv.swap_apply_def]
    split_ifs <;> rfl
  rw [hcomp]
  refine Set.BijOn.comp hp ?_
  refine ⟨?_, (Equiv.injective _).injOn, ?_⟩
  · intro l hl
    simp only [Set.mem_Iio, Equiv.swap_apply_def] at hl ⊢
    split_ifs <;> omega
  · intro l hl
    refine ⟨Equiv.swap i j l, ?_, by simp⟩
    simp only [Set.mem_Iio, Equiv.swap_apply_def] at hl ⊢
    split_ifs <;> omega

theorem colsPermutationOf_bijOn (ct : Nat → Nat) (c n : Nat)
    (h : ∀ i, i < n → i < c ∧ ct i < c) :
    Set.BijOn (colsPermutationOf ct n) (Set.Iio c) (Set.Iio c) := by
  induction n with
  | zero =>
    unfold colsPermutationOf
    simp only [forRange]
    exact Set.bijOn_id _
  | succ n ih =>
    rw [colsPermutationOf_succ]
    exact applyTranspositionOnTheRight_bijOn _ c n (ct n) (h n (by omega)).1 (h n (by omega)).2
      (ih (fun i hi => h i (by omega)))

/-- Transpositions `(i, i)`, recorded from step `r` on, do not change the permutation. -/
theorem colsPermutationOf_stable (ct : Nat → Nat) (r n : Nat) (hrn : r ≤ n)
    (h : ∀ i, r ≤ i → i < n → ct i = i) :
    colsPermutationOf ct n = colsPermutationOf ct r := by
  induction n with
  | zero =>
    have : r = 0 := by omega
    rw [this]
  | succ n ih =>
    by_cases hr : r = n + 1
    · rw [hr]
    · rw [colsPermutationOf_succ, h n (by omega) (by omega), applyTranspositionOnTheRight_self]
      exact ih (by omega) (fun i h1 h2 => h i h1 (by omega))

end Bounds

section RankAndPermutation

variable {K : Type} [LinearOrderedField K]

/-- C5: for every R-by-C input matrix the record produced by `compute` satisfies
`0 <= rank <= min(R,C)`, and `rank()` returns that value. -/
theorem compute_rank_bounds (S : ScalarOps K) (self : FullPivHouseholderQR K)
    (matrix : DenseMatrix K) :
    rank (compute S self matrix) = Except.ok (compute S self matrix).m_rank ∧
    0 ≤ (compute S self matrix).m_rank ∧
    (compute S self matrix).m_rank ≤ min matrix.rows matrix.cols :=
  ⟨rfl, Nat.zero_le _, (computeFinal_bounds S self matrix).1⟩

/-- C6: for every R-by-C input matrix the column permutation produced by `compute`, the
identity with the recorded column transpositions applied in order, is a bijection on
`[0, C)`. -/
theorem compute_colsPermutation_bijective (S : ScalarOps K) (self : FullPivHouseholderQR K)
    (matrix : DenseMatrix K) :
    Set.BijOn (compute S self matrix).m_cols_permutation
      (Set.Iio matrix.cols) (Set.Iio matrix.cols) := by
  obtain ⟨-, htr, -⟩ := computeFinal_bounds S self matrix
  refine colsPermutationOf_bijOn _ matrix.cols _ (fun i hi => ?_)
  have := htr i hi
  have h2 : min matrix.rows matrix.cols ≤ matrix.cols := Nat.min_le_right _ _
  exact ⟨by omega, this.2.2.2⟩

/-- C7 (as stated, refuted): on the 2-by-1 matrix (1, 0) the rank is 1 and entry 1 of
`m_rows_transpositions` is never written, so it keeps its previous value 77. -/
theorem rows_transpositions_beyond_size_unwritten :
    ¬ (∀ k, (compute exampleOps exampleFresh exampleTall).m_rank ≤ k →
        (k < min exampleTall.rows exampleTall.cols →
          (compute exampleOps exampleFresh exampleTall).m_hCoeffs k = 0) ∧
        (k < exampleTall.rows →
          (compute exampleOps exampleFresh exampleTall).m_rows_transpositions k = k)) := by
  intro h
  have h1 := (h 1 (by decide!)).2 (by decide!)
  revert h1
  decide!

/-- C7 (amended): after `compute`, for every `k` with `rank <= k < min(R,C)` the reflector
coefficient is zero and the row transposition is the identity. -/
theorem compute_identity_beyond_rank (S : ScalarOps K) (self : FullPivHouseholderQR K)
    (matrix : DenseMatrix K) (k : Nat) (h1 : (compute S self matrix).m_rank ≤ k)
    (h2 : k < min matrix.rows matrix.cols) :
    (compute S self matrix).m_hCoeffs k = 0 ∧
    (compute S self matrix).m_rows_transpositions k = k := by
  obtain ⟨-, -, h⟩ := computeFinal_bounds S self matrix
  exact ⟨(h k h1 h2).1, (h k h1 h2).2.1⟩

/-- Witness of C7 (amended): the 2-by-2 matrix with rows (0, 1), (0, 0), of rank 1, at
index 1. -/
theorem compute_identity_beyond_rank_witness :
    (compute exampleOps exampleFresh exampleShift).m_rank ≤ 1 ∧
    1 < min exampleShift.rows exampleShift.cols ∧
    (compute exampleOps exampleFresh exampleShift).m_hCoeffs 1 = 0 ∧
    (compute exampleOps exampleFresh exampleShift).m_rows_transpositions 1 = 1 :=
  ⟨by decide!, by decide!,
    compute_identity_beyond_rank exampleOps exampleFresh exampleShift 1 (by decide!) (by decide!)⟩

/-- C8 (as stated, refuted): on the 2-by-2 matrix with rows (0,1), (0,0) the rank is 1
and the column permutation is (1, 0), so its entry 1 is 0, not 1. -/
theorem colsPermutation_not_identity_beyond_rank :
    ¬ (∀ k, (compute exampleOps exampleFresh exampleShift).m_rank ≤ k → k < exampleShift.cols →
        (compute exampleOps exampleFresh exampleShift).m_cols_permutation k = k) := by
  intro h
  have h1 := h 1 (by decide!) (by decide!)
  revert h1
  decide!

/-- C8 (amended): after `compute`, for every `k` with `rank <= k < min(R,C)` the recorded
column transposition of step `k` is the identity `(k, k)`, and the column permutation is
the composition of the transpositions of the steps before `rank` only. -/
theorem compute_cols_transpositions_beyond_rank (S : ScalarOps K)
    (self : FullPivHouseholderQR K) (matrix : DenseMatrix K) (k : Nat)
    (h1 : (compute S self matrix).m_rank ≤ k) (h2 : k < min matrix.rows matrix.cols) :
    (computeFinal S self matrix).cols_transpositions k = k ∧
    (compute S self matrix).m_cols_permutation =
      colsPermutationOf (computeFinal S self matrix).cols_transpositions
        (compute S self matrix).m_rank := by
  obtain ⟨hr, -, h⟩ := computeFinal_bounds S self matrix
  refine ⟨(h k h1 h2).2.2, ?_⟩
  exact colsPermutationOf_stable _ _ _ hr (fun i hi hi' => (h i hi hi').2.2)

/-- Witness of C8 (amended): the 2-by-2 matrix with rows (0, 1), (0, 0), of rank 1, at
index 1. -/
theorem compute_cols_transpositions_beyond_rank_witness :
    (compute exampleOps exampleFresh exampleShift).m_rank ≤ 1 ∧
    1 < min exampleShift.rows exampleShift.cols ∧
    (computeFinal exampleOps exampleFresh exampleShift).cols_transpositions 1 = 1 ∧
    (compute exampleOps exampleFresh exampleShift).m_cols_permutation =
      colsPermutationOf (computeFinal exampleOps exampleFresh exampleShift).cols_transpositions
        (compute exampleOps exampleFresh exampleShift).m_rank :=
  ⟨by decide!, by decide!,
    compute_cols_transpositions_beyond_rank exampleOps exampleFresh exampleShift 1
      (by decide!) (by decide!)⟩

end RankAndPermutation

section ZeroAndEmpty

variable {K : Type} [LinearOrderedField K]

theorem pivotOf_zero (q : Nat → Nat → K) (rows cols : Nat) (hr : 0 < rows) (hc : 0 < cols)
    (hz : ∀ i j, i < rows → j < cols → q i j = 0) : (pivotOf q rows cols 0).1 = 0 := by
  obtain ⟨h1, h2, h3, -⟩ := pivotOf_spec q rows cols 0 hr hc
  rw [h3, hz _ _ h1 h2, abs_zero]

theorem computeFinal_zero (S : ScalarOps K) (self : FullPivHouseholderQR K)
    (A : DenseMatrix K) (hR : 1 ≤ A.rows) (hC : 1 ≤ A.cols)
    (hz : ∀ i j, i < A.rows → j < A.cols → A.coeff i j = 0) :
    (computeFinal S self A).rank = 0 ∧
    ∀ i, i < min A.rows A.cols →
      (computeFinal S self A).hCoeffs i = 0 ∧ (computeFinal S self A).cols_transpositions i = i := by
  obtain ⟨n, hn⟩ : ∃ n, min A.rows A.cols = n + 1 :=
    Nat.exists_eq_succ_of_ne_zero (by omega)
  have hp : (pivotOf (computeInit self A).qr A.rows A.cols 0).1 = 0 :=
    pivotOf_zero _ _ _ hR hC hz
  have hbreak : isMuchSmallerThan (pivotOf (computeInit self A).qr A.rows A.cols 0).1
      (biggestAt (computeInit self A).qr A.rows A.cols 0 (computeInit self A).biggest)
      (S.epsilon * ((n + 1 : Nat) : K)) = true := by
    simp [isMuchSmallerThan, biggestAt, hp]
  have hfin : computeFinal S self A =
      forRange fillStep 0 (n + 1 - 0)
        { computeInit self A with
          biggest := biggestAt (computeInit self A).qr A.rows A.cols 0 (computeInit self A).biggest
          rank := 0 } := by
    unfold computeFinal
    rw [hn, computeLoop_succ, if_pos hbreak]
  obtain ⟨-, e2, -, -, e5, -, e7⟩ := forRange_fillStep (n + 1 - 0) 0
    { computeInit self A with
      biggest := biggestAt (computeInit self A).qr A.rows A.cols 0 (computeInit self A).biggest
      rank := 0 }
  rw [hfin]
  refine ⟨e2, fun i hi => ?_⟩
  rw [e5, e7, if_pos (by omega), if_pos (by omega)]
  exact ⟨rfl, rfl⟩

theorem colsPermutationOf_identity (ct : Nat → Nat) (n : Nat) (h : ∀ i, i < n → ct i = i) :
    colsPermutationOf ct n = fun i => i := by
  rw [colsPermutationOf_stable ct 0 n (Nat.zero_le n) (fun i _ hi => h i hi)]
  rfl

/-- C9: for every all-zero R-by-C matrix with R, C >= 1, `compute` yields rank 0, an
identity column permutation and all-zero reflector coefficients; `solve` returns the
all-zero C-by-(rhs columns) matrix for every right-hand side with R rows; and
`isInvertible()` is false. -/
theorem compute_solve_zero_matrix (S : ScalarOps K) (self : FullPivHouseholderQR K)
    (A b dst : DenseMatrix K) (hR : 1 ≤ A.rows) (hC : 1 ≤ A.cols)
    (hz : ∀ i j, i < A.rows → j < A.cols → A.coeff i j = 0) (hb : b.rows = A.rows) :
    rank (compute S self A) = Except.ok 0 ∧
    (∀ i, i < A.cols → (compute S self A).m_cols_permutation i = i) ∧
    (∀ i, i < min A.rows A.cols → (compute S self A).m_hCoeffs i = 0) ∧
    (solve S (compute S self A) b dst).failure = none ∧
    (solve S (compute S self A) b dst).dst.rows = A.cols ∧
    (solve S (compute S self A) b dst).dst.cols = b.cols ∧
    (∀ i j, i < A.cols → j < b.cols → (solve S (compute S self A) b dst).dst.coeff i j = 0) ∧
    isInvertible (compute S self A) = Except.ok false := by
  obtain ⟨h0, hfill⟩ := computeFinal_zero S self A hR hC hz
  have hrank : (compute S self A).m_rank = 0 := h0
  have hperm : (compute S self A).m_cols_permutation = fun i => i :=
    colsPermutationOf_identity _ _ (fun i hi => (hfill i hi).2)
  have hsolve : solve S (compute S self A) b dst =
      { dst := setZero (resize dst A.cols b.cols), failure := none } := by
    have hinit : (compute S self A).m_isInitialized = true := rfl
    have hrows : (compute S self A).m_qr.rows = A.rows := rfl
    have hcols : (compute S self A).m_qr.cols = A.cols := rfl
    unfold solve evalTo
    simp only [hinit, hrows, hcols, hrank, hb, if_true, ne_eq, not_true_eq_false, if_false]
  refine ⟨?_, ?_, ?_, ?_, ?_, ?_, ?_, ?_⟩
  · show (if (compute S self A).m_isInitialized then Except.ok (compute S self A).m_rank
      else Except.error AssertFailure.notInitialized) = Except.ok 0
    rw [hrank]
    rfl
  · intro i _
    rw [hperm]
  · intro i hi
    exact (hfill i hi).1
  · rw [hsolve]
  · rw [hsolve]
    rfl
  · rw [hsolve]
    rfl
  · intro i j hi hj
    rw [hsolve]
    simp [setZero, resize, hi, hj]
  · have hinit : (compute S self A).m_isInitialized = true := rfl
    have hcols : (compute S self A).m_qr.cols = A.cols := rfl
    have hne : ¬ (0 = A.cols) := by omega
    simp [isInvertible, isInjective, isSurjective, hinit, hrank, hcols, hne, bind, Except.bind,
      pure, Except.pure]

/-- Witness of C9: the all-zero 3-by-3 matrix and the right-hand side (7, 5, 1). -/
theorem compute_solve_zero_matrix_witness :
    1 ≤ exampleZero3.rows ∧ 1 ≤ exampleZero3.cols ∧
    (∀ i j, i < exampleZero3.rows → j < exampleZero3.cols → exampleZero3.coeff i j = 0) ∧
    exampleRhs3.rows = exampleZero3.rows ∧
    rank (compute exampleOps exampleFresh exampleZero3) = Except.ok 0 ∧
    (∀ i, i < exampleZero3.cols →
      (compute exampleOps exampleFresh exampleZero3).m_cols_permutation i = i) ∧
    (∀ i, i < min exampleZero3.rows exampleZero3.cols →
      (compute exampleOps exampleFresh exampleZero3).m_hCoeffs i = 0) ∧
    (solve exampleOps (compute exampleOps exampleFresh exampleZero3) exampleRhs3
      exampleDst).failure = none ∧
    (solve exampleOps (compute exampleOps exampleFresh exampleZero3) exampleRhs3
      exampleDst).dst.rows = exampleZero3.cols ∧
    (solve exampleOps (compute exampleOps exampleFresh exampleZero3) exampleRhs3
      exampleDst).dst.cols = exampleRhs3.cols ∧
    (∀ i j, i < exampleZero3.cols → j < exampleRhs3.cols →
      (solve exampleOps (compute exampleOps exampleFresh exampleZero3) exampleRhs3
        exampleDst).dst.coeff i j = 0) ∧
    isInvertible (compute exampleOps exampleFresh exampleZero3) = Except.ok false :=
  ⟨by decide, by decide, fun _ _ _ _ => rfl, rfl,
    compute_solve_zero_matrix exampleOps exampleFresh exampleZero3 exampleRhs3 exampleDst
      (by decide) (by decide) (fun _ _ _ _ => rfl) rfl⟩

/-- C10 (as stated, refuted): on the empty 0-by-0 matrix `compute` does not fail; the
object, uninitialized before, is marked initialized and reports rank 0. -/
theorem compute_empty_matrix_initialized :
    exampleEmpty.rows = 0 ∧ exampleFresh.m_isInitialized = false ∧
    (compute exampleOps exampleFresh exampleEmpty).m_isInitialized = true ∧
    rank (compute exampleOps exampleFresh exampleEmpty) = Except.ok 0 :=
  ⟨rfl, rfl, rfl, rfl⟩

/-- C10 (amended): `compute` checks no dimension and has no failure path: for every
matrix, an empty one included, it returns a record that is marked initialized, whose rank
is at most `min(R,C)` (so 0 for an empty matrix) and whose queries no longer fail. -/
theorem compute_always_initialized (S : ScalarOps K) (self : FullPivHouseholderQR K)
    (matrix : DenseMatrix K) :
    (compute S self matrix).m_isInitialized = true ∧
    (compute S self matrix).m_qr.rows = matrix.rows ∧
    (compute S self matrix).m_qr.cols = matrix.cols ∧
    (compute S self matrix).m_rank ≤ min matrix.rows matrix.cols ∧
    rank (compute S self matrix) ≠ Except.error AssertFailure.notInitialized := by
  refine ⟨rfl, rfl, rfl, (computeFinal_bounds S self matrix).1, ?_⟩
  intro h
  have : rank (compute S self matrix) = Except.ok (compute S self matrix).m_rank := rfl
  rw [this] at h
  cases h

end ZeroAndEmpty

section SolveStatus

variable {K : Type} [LinearOrderedField K]

theorem solve_of_rank_zero (S : ScalarOps K) (dec : FullPivHouseholderQR K)
    (b dst : DenseMatrix K) (hinit : dec.m_isInitialized = true) (hb : b.rows = dec.m_qr.rows)
    (h0 : dec.m_rank = 0) :
    solve S dec b dst =
      { dst := setZero (resize dst dec.m_qr.cols b.cols), failure := none } := by
  unfold solve evalTo
  simp only [hinit, h0, hb, if_true, ne_eq, not_true_eq_false, if_false]

theorem solve_of_check_fails (S : ScalarOps K) (dec : FullPivHouseholderQR K)
    (b dst : DenseMatrix K) (hinit : dec.m_isInitialized = true) (hb : b.rows = dec.m_qr.rows)
    (h0 : dec.m_rank ≠ 0) (hfail : consistencyCheckFails S dec b) :
    solve S dec b dst = { dst := resize dst dec.m_qr.cols b.cols, failure := none } := by
  unfold consistencyCheckFails transformedRhs at hfail
  unfold solve evalTo
  simp only [hinit, h0, hb, if_true, ne_eq, not_true_eq_false, if_false]
  rw [if_pos hfail]

/-- C4 (as stated, refuted): for the all-zero 3-by-3 matrix and the right-hand side
(7, 5, 1) no solution exists, yet `solve` reports no failure and returns the all-zero
vector, the very outcome it produces for the solvable right-hand side 0. -/
theorem solve_rank_zero_conflates_inconsistent_rhs :
    (¬ ∃ x : Nat → ℚ, ∀ i, i < 3 →
      ∑ l ∈ Finset.range 3, exampleZero3.coeff i l * x l = exampleRhs3.coeff i 0) ∧
    (solve exampleOps (compute exampleOps exampleFresh exampleZero3) exampleRhs3
      exampleDst).failure = none ∧
    (∀ i, i < 3 → (solve exampleOps (compute exampleOps exampleFresh exampleZero3) exampleRhs3
      exampleDst).dst.coeff i 0 = 0) ∧
    solve exampleOps (compute exampleOps exampleFresh exampleZero3) exampleRhs3 exampleDst =
      solve exampleOps (compute exampleOps exampleFresh exampleZero3) exampleRhsZero3
        exampleDst := by
  have h0 : (compute exampleOps exampleFresh exampleZero3).m_rank = 0 := by decide!
  have e1 := solve_of_rank_zero exampleOps (compute exampleOps exampleFresh exampleZero3)
    exampleRhs3 exampleDst rfl rfl h0
  have e2 := solve_of_rank_zero exampleOps (compute exampleOps exampleFresh exampleZero3)
    exampleRhsZero3 exampleDst rfl rfl h0
  refine ⟨?_, ?_, ?_, ?_⟩
  · rintro ⟨x, hx⟩
    have := hx 0 (by decide)
    simp [exampleZero3, exampleRhs3] at this
  · rw [e1]
  · intro i hi
    rw [e1]
    simp [setZero, resize, compute, exampleZero3, exampleRhs3, hi]
  · rw [e1, e2]
    rfl

/-- C4 (amended): `solve` has no "no exact solution" outcome and reports no status. For a
right-hand side with R rows: when `rank() == 0` it returns the all-zero matrix whatever
the right-hand side is; when `rank() >= 1`, the system is not surjective and the lower
part of the transformed right-hand side is not negligible relative to its upper part, it
returns with the destination resized and otherwise unwritten. -/
theorem solve_reports_no_status (S : ScalarOps K) (dec : FullPivHouseholderQR K)
    (b dst : DenseMatrix K) (hinit : dec.m_isInitialized = true)
    (hb : b.rows = dec.m_qr.rows) :
    (solve S dec b dst).failure = none ∧
    (dec.m_rank = 0 →
      (solve S dec b dst).dst = setZero (resize dst dec.m_qr.cols b.cols)) ∧
    (dec.m_rank ≠ 0 → consistencyCheckFails S dec b →
      (solve S dec b dst).dst = resize dst dec.m_qr.cols b.cols) := by
  refine ⟨?_, ?_, ?_⟩
  · unfold solve evalTo
    simp only [hinit, hb, if_true, ne_eq, not_true_eq_false, if_false]
    split_ifs <;> rfl
  · intro h0
    rw [solve_of_rank_zero S dec b dst hinit hb h0]
  · intro h0 hfail
    rw [solve_of_check_fails S dec b dst hinit hb h0 hfail]

/-- Witness of C4 (amended): the matrix with rows (0, 1), (0, 0), of rank 1, and the
inconsistent right-hand side (0, 1); the destination comes back unwritten. -/
theorem solve_reports_no_status_witness :
    (compute exampleOps exampleFresh exampleShift).m_isInitialized = true ∧
    exampleRhs2.rows = (compute exampleOps exampleFresh exampleShift).m_qr.rows ∧
    (compute exampleOps exampleFresh exampleShift).m_rank ≠ 0 ∧
    consistencyCheckFails exampleOps (compute exampleOps exampleFresh exampleShift)
      exampleRhs2 ∧
    (solve exampleOps (compute exampleOps exampleFresh exampleShift) exampleRhs2
      exampleDst).failure = none ∧
    (solve exampleOps (compute exampleOps exampleFresh exampleShift) exampleRhs2
      exampleDst).dst = resize exampleDst 2 1 :=
  ⟨rfl, rfl, by decide!, by unfold consistencyCheckFails; decide!,
    (solve_reports_no_status exampleOps (compute exampleOps exampleFresh exampleShift)
      exampleRhs2 exampleDst rfl rfl).1,
    (solve_reports_no_status exampleOps (compute exampleOps exampleFresh exampleShift)
      exampleRhs2 exampleDst rfl rfl).2.2 (by decide!)
      (by unfold consistencyCheckFails; decide!)⟩

end SolveStatus

section Reflectors

variable {K : Type} [LinearOrderedField K]

theorem householderVector_of_lt (q : Nat → Nat → K) (rows k i : Nat) (h : i < k) :
    householderVector q rows k i = 0 := by
  unfold householderVector
  rw [if_neg (by omega), if_neg (by omega)]

theorem householderVector_of_ge (q : Nat → Nat → K) (rows k i : Nat) (hk : k < rows)
    (h : rows ≤ i) : householderVector q rows k i = 0 := by
  unfold householderVector
  rw [if_neg (by omega), if_neg (by omega)]

theorem householderVector_congr (q q' : Nat → Nat → K) (rows k : Nat)
    (h : ∀ i, k < i → i < rows → q i k = q' i k) :
    householderVector q rows k = householderVector q' rows k := by
  funext i
  unfold householderVector
  by_cases h1 : i = k
  · rw [if_pos h1, if_pos h1]
  · rw [if_neg h1, if_neg h1]
    by_cases h2 : k < i ∧ i < rows
    · rw [if_pos h2, if_pos h2, h i h2.1 h2.2]
    · rw [if_neg h2, if_neg h2]

theorem sum_householderVector (q : Nat → Nat → K) (rows k : Nat) (hk : k < rows)
    (g : Nat → K) :
    ∑ l ∈ Finset.range rows, householderVector q rows k l * g l =
      (∑ l ∈ Finset.range (rows - k - 1), q (k + 1 + l) k * g (k + 1 + l)) + g k := by
  have hsplit : ∑ l ∈ Finset.range rows, householderVector q rows k l * g l =
      (∑ l ∈ Finset.Ico 0 k, householderVector q rows k l * g l) +
        (householderVector q rows k k * g k +
          ∑ l ∈ Finset.Ico (k + 1) rows, householderVector q rows k l * g l) := by
    rw [Finset.range_eq_Ico, ← Finset.sum_Ico_consecutive _ (Nat.zero_le k) (le_of_lt hk),
      Finset.sum_eq_sum_Ico_succ_bot hk]
  have h1 : ∑ l ∈ Finset.Ico 0 k, householderVector q rows k l * g l = 0 := by
    apply Finset.sum_eq_zero
    intro l hl
    rw [Finset.mem_Ico] at hl
    rw [householderVector_of_lt q rows k l hl.2, zero_mul]
  have h2 : ∑ l ∈ Finset.Ico (k + 1) rows, householderVector q rows k l * g l =
      ∑ l ∈ Finset.range (rows - k - 1), q (k + 1 + l) k * g (k + 1 + l) := by
    rw [Finset.sum_Ico_eq_sum_range, show rows - (k + 1) = rows - k - 1 by omega]
    apply Finset.sum_congr rfl
    intro l hl
    rw [Finset.mem_range] at hl
    unfold householderVector
    rw [if_neg (by omega), if_pos (by omega)]
  have h3 : householderVector q rows k k = 1 := by
    unfold householderVector
    rw [if_pos rfl]
  rw [hsplit, h1, h2, h3]
  ring

theorem applyHouseholderOnTheLeft_eq (m q : Nat → Nat → K) (rows k c0 nc : Nat) (tau : K)
    (hk : k < rows) :
    applyHouseholderOnTheLeft m k c0 (rows - k) nc (fun l => q (k + 1 + l) k) tau =
      fun i j =>
        if c0 ≤ j ∧ j < c0 + nc then
          m i j - tau * householderVector q rows k i *
            ∑ l ∈ Finset.range rows, householderVector q rows k l * m l j
        else m i j := by
  funext i j
  unfold applyHouseholderOnTheLeft
  by_cases hj : c0 ≤ j ∧ j < c0 + nc
  · rw [if_pos hj, sum_householderVector q rows k hk (fun l => m l j)]
    by_cases hi : k ≤ i ∧ i < k + (rows - k)
    · rw [if_pos ⟨hi.1, hi.2, hj.1, hj.2⟩]
      by_cases hik : i = k
      · rw [if_pos hik]
        subst hik
        simp only [householderVector, if_true, mul_one]
      · rw [if_neg hik]
        have e1 : householderVector q rows k i = q i k := by
          unfold householderVector
          rw [if_neg hik, if_pos (by omega)]
        beta_reduce
        rw [e1, show k + 1 + (i - k - 1) = i by omega]
    · rw [if_neg (by tauto)]
      have e1 : householderVector q rows k i = 0 := by
        unfold householderVector
        rw [if_neg (by omega), if_neg (by omega)]
      rw [e1]
      ring
  · rw [if_neg hj, if_neg (by tauto)]

theorem reflect_reflect (rows cols : Nat) (v : Nat → K) (tau : K) (m : Nat → Nat → K)
    (h : tau * tau * (∑ l ∈ Finset.range rows, v l * v l) = 2 * tau) :
    reflect rows cols v tau (reflect rows cols v tau m) = m := by
  funext i j
  unfold reflect
  by_cases hj : j < cols
  · simp only [if_pos hj]
    have e : ∑ l ∈ Finset.range rows,
        v l * (m l j - tau * v l * ∑ a ∈ Finset.range rows, v a * m a j) =
        (∑ l ∈ Finset.range rows, v l * m l j) -
          tau * (∑ l ∈ Finset.range rows, v l * v l) *
            ∑ a ∈ Finset.range rows, v a * m a j := by
      have e0 : ∀ l, v l * (m l j - tau * v l * ∑ a ∈ Finset.range rows, v a * m a j) =
          v l * m l j - (tau * ∑ a ∈ Finset.range rows, v a * m a j) * (v l * v l) := by
        intro l
        ring
      simp only [e0]
      rw [Finset.sum_sub_distrib, ← Finset.mul_sum]
      ring
    rw [e]
    have : m i j - tau * v i * (∑ l ∈ Finset.range rows, v l * m l j) -
        tau * v i * ((∑ l ∈ Finset.range rows, v l * m l j) -
          tau * (∑ l ∈ Finset.range rows, v l * v l) *
            ∑ a ∈ Finset.range rows, v a * m a j) =
        m i j - v i * (∑ l ∈ Finset.range rows, v l * m l j) *
          (2 * tau - tau * tau * (∑ l ∈ Finset.range rows, v l * v l)) := by ring
    rw [this, h]
    ring
  · simp only [if_neg hj]

theorem swapRows_swapRows (m : Nat → Nat → K) (cols k r : Nat) :
    swapRows (swapRows m cols k r) cols k r = m := by
  funext i j
  unfold swapRows
  by_cases hj : j < cols
  · simp only [if_pos hj]
    by_cases h1 : i = k
    · subst h1
      simp only [if_true]
      by_cases h2 : r = i
      · simp [h2]
      · simp [h2]
    · by_cases h2 : i = r
      · subst h2
        simp [h1]
      · simp [h1, h2]
  · simp only [if_neg hj]

theorem swapRows_self (m : Nat → Nat → K) (cols k : Nat) : swapRows m cols k k = m := by
  funext i j
  unfold swapRows
  by_cases hj : j < cols
  · rw [if_pos hj]
    by_cases h1 : i = k
    · rw [if_pos h1, h1]
    · rw [if_neg h1, if_neg h1]
  · rw [if_neg hj]

theorem reflect_zero (rows cols : Nat) (v : Nat → K) (m : Nat → Nat → K) :
    reflect rows cols v 0 m = m := by
  funext i j
  unfold reflect
  split_ifs <;> ring

theorem swapRows_swapCols_comm (m : Nat → Nat → K) (rows cols k r a c : Nat) (hk : k < rows)
    (hr : r < rows) (ha : a < cols) (hc : c < cols) :
    swapRows (swapCols m rows a c) cols k r = swapCols (swapRows m cols k r) rows a c := by
  funext i j
  unfold swapRows swapCols
  by_cases hj : j < cols
  · by_cases hi : i < rows
    · simp only [if_pos hj, if_pos hi, if_pos hk, if_pos hr, if_pos ha, if_pos hc]
      split_ifs <;> rfl
    · have h1 : i ≠ k := by omega
      have h2 : i ≠ r := by omega
      simp only [if_pos hj, if_neg hi, if_neg h1, if_neg h2]
  · have h3 : j ≠ a := by omega
    have h4 : j ≠ c := by omega
    simp only [if_neg hj, if_neg h3, if_neg h4, ite_self]

theorem reflect_swapCols_comm (m : Nat → Nat → K) (rows cols k c : Nat) (v : Nat → K)
    (tau : K) (hv : ∀ i, rows ≤ i → v i = 0) (hkc : k < cols) (hc : c < cols) :
    reflect rows cols v tau (swapCols m rows k c) =
      swapCols (reflect rows cols v tau m) rows k c := by
  funext i j
  unfold reflect
  have hsum : ∀ j', (∑ l ∈ Finset.range rows, v l * swapCols m rows k c l j') =
      ∑ l ∈ Finset.range rows, v l *
        (if j' = k then m l c else if j' = c then m l k else m l j') := by
    intro j'
    apply Finset.sum_congr rfl
    intro l hl
    rw [Finset.mem_range] at hl
    unfold swapCols
    rw [if_pos hl]
  rw [hsum]
  unfold swapCols
  by_cases hi : i < rows
  · simp only [if_pos hi]
    by_cases h3 : j = k
    · subst h3
      simp only [if_true, if_pos hkc, if_pos hc]
    · by_cases h4 : j = c
      · subst h4
        simp only [if_neg h3, if_true, if_pos hkc, if_pos hc]
      · simp only [if_neg h3, if_neg h4]
  · simp only [if_neg hi, hv i (by omega), mul_zero, zero_mul, sub_zero, ite_self]

end Reflectors

section MakeHouseholder

variable {K : Type} [LinearOrderedField K]

theorem householder_denominators (c0 t β : K) (hβ : β * β = c0 * c0 + t) (ht0 : 0 ≤ t)
    (ht : t ≠ 0) : c0 - β ≠ 0 ∧ β ≠ 0 := by
  constructor
  · intro h
    have : β = c0 := by linarith
    rw [this] at hβ
    apply ht
    linarith
  · intro h
    rw [h] at hβ
    have h1 : 0 ≤ c0 * c0 := mul_self_nonneg c0
    have h2 : 0 < t := lt_of_le_of_ne ht0 (Ne.symm ht)
    linarith

theorem householder_involutive_algebra (c0 t β : K) (hβ : β * β = c0 * c0 + t)
    (hd : c0 - β ≠ 0) (hb : β ≠ 0) :
    (β - c0) / β * ((β - c0) / β) * (1 + t / ((c0 - β) * (c0 - β))) = 2 * ((β - c0) / β) := by
  have ht : t = β * β - c0 * c0 := by linarith
  rw [ht]
  field_simp
  ring

theorem householder_first_algebra (c0 t β : K) (hβ : β * β = c0 * c0 + t)
    (hd : c0 - β ≠ 0) (hb : β ≠ 0) :
    c0 - (β - c0) / β * 1 * (c0 + t / (c0 - β)) = β := by
  have ht : t = β * β - c0 * c0 := by linarith
  rw [ht]
  field_simp
  ring

theorem householder_rest_algebra (c0 t β x : K) (hβ : β * β = c0 * c0 + t)
    (hd : c0 - β ≠ 0) (hb : β ≠ 0) :
    x - (β - c0) / β * (x / (c0 - β)) * (c0 + t / (c0 - β)) = 0 := by
  have ht : t = β * β - c0 * c0 := by linarith
  rw [ht]
  field_simp
  ring

theorem sum_householderVector_Ico (q : Nat → Nat → K) (rows k : Nat) (hk : k < rows)
    (g : Nat → K) :
    ∑ l ∈ Finset.range rows, householderVector q rows k l * g l =
      g k + ∑ l ∈ Finset.Ico (k + 1) rows, q l k * g l := by
  rw [sum_householderVector q rows k hk g, Finset.sum_Ico_eq_sum_range,
    show rows - (k + 1) = rows - k - 1 by omega, add_comm]

end MakeHouseholder

section MakeHouseholderSpec

variable {K : Type} [LinearOrderedField K]

theorem tail_zero_of_sum_zero (m : Nat → Nat → K) (rows k : Nat)
    (h : ∑ i ∈ Finset.Ico (k + 1) rows, m i k * m i k = 0) (i : Nat) (h1 : k < i)
    (h2 : i < rows) : m i k = 0 := by
  have := (Finset.sum_eq_zero_iff_of_nonneg (fun l _ => mul_self_nonneg (m l k))).mp h i
    (Finset.mem_Ico.mpr ⟨by omega, h2⟩)
  exact mul_self_eq_zero.mp this

theorem makeHouseholderInPlace_spec (S : ScalarOps K)
    (hs : ∀ x, 0 ≤ x → S.sqrt x * S.sqrt x = x) (m : Nat → Nat → K) (rows k : Nat)
    (hk : k < rows) :
    (∀ i j, ¬ (j = k ∧ k < i ∧ i < rows) → (makeHouseholderInPlace S m rows k).qr i j = m i j) ∧
    ((makeHouseholderInPlace S m rows k).tau * (makeHouseholderInPlace S m rows k).tau *
      (∑ l ∈ Finset.range rows,
        householderVector (makeHouseholderInPlace S m rows k).qr rows k l *
        householderVector (makeHouseholderInPlace S m rows k).qr rows k l) =
      2 * (makeHouseholderInPlace S m rows k).tau) ∧
    (∀ i, m i k - (makeHouseholderInPlace S m rows k).tau *
        householderVector (makeHouseholderInPlace S m rows k).qr rows k i *
        (∑ l ∈ Finset.range rows,
          householderVector (makeHouseholderInPlace S m rows k).qr rows k l * m l k) =
      if i = k then (makeHouseholderInPlace S m rows k).beta
      else if k < i ∧ i < rows then 0 else m i k) ∧
    ((makeHouseholderInPlace S m rows k).beta = 0 → m k k = 0) := by
  by_cases ht : ∑ i ∈ Finset.Ico (k + 1) rows, m i k * m i k = 0
  · have e : makeHouseholderInPlace S m rows k = { qr := m, tau := 0, beta := m k k } := by
      unfold makeHouseholderInPlace
      simp only [ht, if_true]
    rw [e]
    refine ⟨fun _ _ _ => rfl, by simp, ?_, fun h => h⟩
    intro i
    simp only [zero_mul, sub_zero]
    by_cases h1 : i = k
    · rw [if_pos h1, h1]
    · rw [if_neg h1]
      by_cases h2 : k < i ∧ i < rows
      · rw [if_pos h2]
        exact tail_zero_of_sum_zero m rows k ht i h2.1 h2.2
      · rw [if_neg h2]
  · obtain ⟨β, hβdef, hββ⟩ : ∃ β : K,
        β = (if 0 ≤ m k k then
              - S.sqrt (m k k * m k k + ∑ i ∈ Finset.Ico (k + 1) rows, m i k * m i k)
            else S.sqrt (m k k * m k k + ∑ i ∈ Finset.Ico (k + 1) rows, m i k * m i k)) ∧
        β * β = m k k * m k k + ∑ i ∈ Finset.Ico (k + 1) rows, m i k * m i k := by
      refine ⟨_, rfl, ?_⟩
      have hN : 0 ≤ m k k * m k k + ∑ i ∈ Finset.Ico (k + 1) rows, m i k * m i k :=
        add_nonneg (mul_self_nonneg _) (Finset.sum_nonneg (fun l _ => mul_self_nonneg (m l k)))
      split_ifs
      · rw [neg_mul_neg]
        exact hs _ hN
      · exact hs _ hN
    have e : makeHouseholderInPlace S m rows k =
        { qr := fun i j => if j = k ∧ k < i ∧ i < rows then m i k / (m k k - β) else m i j
          tau := (β - m k k) / β
          beta := β } := by
      unfold makeHouseholderInPlace
      simp only [ht, if_false]
      rw [← hβdef]
    have ht0 : 0 ≤ ∑ i ∈ Finset.Ico (k + 1) rows, m i k * m i k :=
      Finset.sum_nonneg (fun l _ => mul_self_nonneg (m l k))
    obtain ⟨hd, hb⟩ := householder_denominators _ _ β hββ ht0 ht
    rw [e]
    simp only []
    generalize hq : (fun i j => if j = k ∧ k < i ∧ i < rows then m i k / (m k k - β) else m i j)
      = q'
    have hq1 : ∀ l, k < l → l < rows → q' l k = m l k / (m k k - β) := by
      intro l h1 h2
      rw [← hq]
      beta_reduce
      rw [if_pos ⟨rfl, h1, h2⟩]
    have hvk : householderVector q' rows k k = 1 := by
      unfold householderVector
      rw [if_pos rfl]
    have hvt : ∀ l, k < l → l < rows → householderVector q' rows k l = m l k / (m k k - β) := by
      intro l h1 h2
      unfold householderVector
      rw [if_neg (by omega), if_pos ⟨h1, h2⟩, hq1 l h1 h2]
    have hvv : (∑ l ∈ Finset.range rows,
        householderVector q' rows k l * householderVector q' rows k l)
        = 1 + (∑ i ∈ Finset.Ico (k + 1) rows, m i k * m i k) / ((m k k - β) * (m k k - β)) := by
      rw [sum_householderVector_Ico _ rows k hk, hvk, Finset.sum_div]
      congr 1
      apply Finset.sum_congr rfl
      intro l hl
      have hl' := Finset.mem_Ico.mp hl
      rw [hvt l (by omega) hl'.2, hq1 l (by omega) hl'.2]
      field_simp
    have hvx : (∑ l ∈ Finset.range rows, householderVector q' rows k l * m l k)
        = m k k + (∑ i ∈ Finset.Ico (k + 1) rows, m i k * m i k) / (m k k - β) := by
      rw [sum_householderVector_Ico _ rows k hk, Finset.sum_div]
      congr 1
      apply Finset.sum_congr rfl
      intro l hl
      have hl' := Finset.mem_Ico.mp hl
      rw [hq1 l (by omega) hl'.2]
      field_simp
    refine ⟨fun i j hij => by rw [if_neg hij], ?_, ?_, fun h => absurd h hb⟩
    · rw [hvv]
      exact householder_involutive_algebra _ _ β hββ hd hb
    · intro i
      rw [hvx]
      by_cases h1 : i = k
      · rw [if_pos h1, h1, hvk]
        exact householder_first_algebra _ _ β hββ hd hb
      · rw [if_neg h1]
        by_cases h2 : k < i ∧ i < rows
        · rw [if_pos h2, hvt i h2.1 h2.2]
          exact householder_rest_algebra _ _ β (m i k) hββ hd hb
        · rw [if_neg h2]
          have : householderVector q' rows k i = 0 := by
            unfold householderVector
            rw [if_neg h1, if_neg h2]
          rw [this]
          ring

end MakeHouseholderSpec

section PivotStep

variable {K : Type} [LinearOrderedField K]

theorem swapRowTails_self (m : Nat → Nat → K) (cols k : Nat) : swapRowTails m cols k k = m := by
  funext i j
  unfold swapRowTails
  by_cases hj : k ≤ j ∧ j < cols
  · rw [if_pos hj]
    by_cases h1 : i = k
    · rw [if_pos h1, h1]
    · rw [if_neg h1, if_neg h1]
  · rw [if_neg hj]

theorem swapCols_self (m : Nat → Nat → K) (rows k : Nat) : swapCols m rows k k = m := by
  funext i j
  unfold swapCols
  by_cases hi : i < rows
  · rw [if_pos hi]
    by_cases h1 : j = k
    · rw [if_pos h1, h1]
    · rw [if_neg h1, if_neg h1]
  · rw [if_neg hi]

theorem ite_swapRowTails (m : Nat → Nat → K) (cols k r : Nat) :
    (if k ≠ r then swapRowTails m cols k r else m) = swapRowTails m cols k r := by
  by_cases h : k = r
  · rw [if_neg (by simpa using h), ← h, swapRowTails_self]
  · rw [if_pos h]

theorem ite_swapCols (m : Nat → Nat → K) (rows k c : Nat) :
    (if k ≠ c then swapCols m rows k c else m) = swapCols m rows k c := by
  by_cases h : k = c
  · rw [if_neg (by simpa using h), ← h, swapCols_self]
  · rw [if_pos h]

theorem reducedMatrix_swapRowTails (q : Nat → Nat → K) (rows cols k r : Nat) (hk : k < rows)
    (hkr : k ≤ r) (hr : r < rows) (hkc : k < cols) :
    reducedMatrix rows k (swapRowTails q cols k r) =
      swapRows (reducedMatrix rows k q) cols k r := by
  funext i j
  unfold reducedMatrix swapRowTails swapRows
  by_cases hj : j < cols
  · by_cases hjk : j < k
    · have e1 : ¬ (k ≤ j ∧ j < cols) := by omega
      simp only [if_neg e1, if_pos hj]
      by_cases h1 : i = k
      · subst h1
        rw [if_pos rfl, if_pos ⟨hjk, hjk, hk⟩, if_pos ⟨hjk, by omega, hr⟩]
      · rw [if_neg h1]
        by_cases h2 : i = r
        · subst h2
          rw [if_pos rfl, if_pos ⟨hjk, by omega, hr⟩, if_pos ⟨hjk, hjk, hk⟩]
        · rw [if_neg h2]
    · have e1 : k ≤ j ∧ j < cols := by omega
      have e2 : ∀ a, ¬ (j < k ∧ j < a ∧ a < rows) := fun a h => hjk h.1
      simp only [if_pos e1, if_pos hj, if_neg (e2 _)]
  · have e1 : ¬ (k ≤ j ∧ j < cols) := by omega
    simp only [if_neg e1, if_neg hj]

theorem reducedMatrix_swapCols (q : Nat → Nat → K) (rows k c : Nat) (hkc : k ≤ c) :
    reducedMatrix rows k (swapCols q rows k c) =
      swapCols (reducedMatrix rows k q) rows k c := by
  funext i j
  unfold reducedMatrix swapCols
  by_cases hi : i < rows
  · simp only [if_pos hi]
    by_cases h1 : j = k
    · subst h1
      have e1 : ∀ a, ¬ (j < j ∧ j < a ∧ a < rows) := fun a h => absurd h.1 (lt_irrefl j)
      have e2 : ∀ a, ¬ (c < j ∧ c < a ∧ a < rows) := fun a h => by omega
      simp only [if_true, if_neg (e1 _), if_neg (e2 _)]
    · by_cases h2 : j = c
      · subst h2
        have e1 : ∀ a, ¬ (k < k ∧ k < a ∧ a < rows) := fun a h => absurd h.1 (lt_irrefl k)
        have e2 : ∀ a, ¬ (j < k ∧ j < a ∧ a < rows) := fun a h => by omega
        simp only [if_neg h1, if_true, if_neg (e1 _), if_neg (e2 _)]
      · simp only [if_neg h1, if_neg h2]
  · have e1 : ¬ (j < k ∧ j < i ∧ i < rows) := fun h => hi h.2.2
    simp only [if_neg hi, if_neg e1]

end PivotStep

section HouseholderUpdate

variable {K : Type} [LinearOrderedField K]

theorem pivotStep_qr (S : ScalarOps K) (rows cols k r c : Nat) (s : ComputeState K) :
    (pivotStep S rows cols k r c s).qr =
      householderUpdate S rows cols k (swapCols (swapRowTails s.qr cols k r) rows k c) ∧
    (pivotStep S rows cols k r c s).hCoeffs k =
      (makeHouseholderInPlace S (swapCols (swapRowTails s.qr cols k r) rows k c) rows k).tau := by
  constructor
  · simp only [pivotStep, ite_swapRowTails, ite_swapCols]
    rfl
  · simp only [pivotStep, ite_swapRowTails, ite_swapCols, Function.update_same]

theorem householderUpdate_eq (S : ScalarOps K) (rows cols k : Nat) (q : Nat → Nat → K)
    (hk : k < rows) (hkc : k < cols) (i j : Nat) :
    householderUpdate S rows cols k q i j =
      if k < j ∧ j < cols then
        (makeHouseholderInPlace S q rows k).qr i j -
          (makeHouseholderInPlace S q rows k).tau *
          householderVector (makeHouseholderInPlace S q rows k).qr rows k i *
          ∑ l ∈ Finset.range rows,
            householderVector (makeHouseholderInPlace S q rows k).qr rows k l *
            (makeHouseholderInPlace S q rows k).qr l j
      else if i = k ∧ j = k then (makeHouseholderInPlace S q rows k).beta
      else (makeHouseholderInPlace S q rows k).qr i j := by
  unfold householderUpdate
  rw [applyHouseholderOnTheLeft_eq _
    (setCoeff (makeHouseholderInPlace S q rows k).qr k k (makeHouseholderInPlace S q rows k).beta)
    rows k (k + 1) (cols - k - 1) _ hk]
  have hv : householderVector
      (setCoeff (makeHouseholderInPlace S q rows k).qr k k
        (makeHouseholderInPlace S q rows k).beta) rows k =
      householderVector (makeHouseholderInPlace S q rows k).qr rows k := by
    apply householderVector_congr
    intro a h1 _
    unfold setCoeff
    rw [if_neg (by omega)]
  rw [hv]
  beta_reduce
  by_cases hj : k < j ∧ j < cols
  · rw [if_pos (by omega), if_pos hj]
    have e : ∀ a, setCoeff (makeHouseholderInPlace S q rows k).qr k k
        (makeHouseholderInPlace S q rows k).beta a j =
        (makeHouseholderInPlace S q rows k).qr a j := by
      intro a
      unfold setCoeff
      rw [if_neg (by omega)]
    simp only [e]
  · rw [if_neg (by omega), if_neg hj]
    rfl

theorem householderUpdate_vector (S : ScalarOps K) (rows cols k : Nat) (q : Nat → Nat → K)
    (hk : k < rows) (hkc : k < cols) :
    householderVector (householderUpdate S rows cols k q) rows k =
      householderVector (makeHouseholderInPlace S q rows k).qr rows k := by
  apply householderVector_congr
  intro a h1 _
  rw [householderUpdate_eq S rows cols k q hk hkc, if_neg (by omega), if_neg (by omega)]

theorem reducedMatrix_householderUpdate (S : ScalarOps K)
    (hs : ∀ x, 0 ≤ x → S.sqrt x * S.sqrt x = x) (rows cols k : Nat) (q : Nat → Nat → K)
    (hk : k < rows) (hkc : k < cols) :
    reducedMatrix rows (k + 1) (householderUpdate S rows cols k q) =
      reflect rows cols (householderVector (householderUpdate S rows cols k q) rows k)
        (makeHouseholderInPlace S q rows k).tau (reducedMatrix rows k q) := by
  obtain ⟨m1, -, m3, -⟩ := makeHouseholderInPlace_spec S hs q rows k hk
  rw [householderUpdate_vector S rows cols k q hk hkc]
  funext i j
  unfold reducedMatrix reflect
  rw [householderUpdate_eq S rows cols k q hk hkc]
  by_cases hj : j < cols
  · by_cases hjk : j < k
    · -- columns before k: the reflector meets only zeros
      have hsum : ∑ l ∈ Finset.range rows,
          householderVector (makeHouseholderInPlace S q rows k).qr rows k l *
            (if j < k ∧ j < l ∧ l < rows then 0 else q l j) = 0 := by
        apply Finset.sum_eq_zero
        intro l hl
        rw [Finset.mem_range] at hl
        by_cases hlk : l < k
        · rw [householderVector_of_lt _ rows k l hlk, zero_mul]
        · rw [if_pos ⟨hjk, by omega, hl⟩, mul_zero]
      have c1 : ¬ (k < j ∧ j < cols) := by omega
      have c2 : ¬ (i = k ∧ j = k) := by omega
      simp only [hsum, mul_zero, sub_zero, if_pos hj, if_neg c1, if_neg c2, m1 i j (by omega)]
      by_cases h : j < i ∧ i < rows
      · rw [if_pos ⟨by omega, h.1, h.2⟩, if_pos ⟨hjk, h.1, h.2⟩]
      · rw [if_neg (by tauto), if_neg (by tauto)]
    · by_cases hjk' : j = k
      · subst hjk'
        have e0 : ∀ a, ¬ (j < j ∧ j < a ∧ a < rows) := fun a h => absurd h.1 (lt_irrefl j)
        have c1 : ¬ (j < j ∧ j < cols) := by omega
        simp only [if_neg (e0 _), if_pos hj, if_neg c1]
        rw [m3 i]
        by_cases h1 : i = j
        · subst h1
          simp only [lt_irrefl, false_and, and_false, if_false, and_self, if_true]
        · by_cases h2 : j < i ∧ i < rows
          · rw [if_pos ⟨Nat.lt_succ_self j, h2.1, h2.2⟩, if_neg h1, if_pos h2]
          · rw [if_neg (fun h => h2 ⟨h.2.1, h.2.2⟩), if_neg (fun h => h1 h.1), if_neg h1,
              if_neg h2]
            exact m1 i j (fun h => h2 ⟨h.2.1, h.2.2⟩)
      · have e0 : ∀ a, ¬ (j < k ∧ j < a ∧ a < rows) := fun a h => hjk h.1
        have e1 : ∀ a, ¬ (j < k + 1 ∧ j < a ∧ a < rows) := fun a h => by omega
        have c1 : k < j ∧ j < cols := by omega
        have e2 : ∀ a, (makeHouseholderInPlace S q rows k).qr a j = q a j := fun a =>
          m1 a j (by omega)
        simp only [if_neg (e0 _), if_neg (e1 _), if_pos hj, if_pos c1, e2]
  · have e1 : ¬ (j < k + 1 ∧ j < i ∧ i < rows) := by omega
    have e2 : ¬ (j < k ∧ j < i ∧ i < rows) := by omega
    have c1 : ¬ (k < j ∧ j < cols) := by omega
    have c2 : ¬ (i = k ∧ j = k) := by omega
    beta_reduce
    rw [if_neg hj, if_neg e1, if_neg e2, if_neg c1, if_neg c2, m1 i j (by omega)]

end HouseholderUpdate

section Undo

variable {K : Type} [LinearOrderedField K]

theorem undoAll_succ (rows cols : Nat) (q : Nat → Nat → K) (hc : Nat → K) (rt : Nat → Nat)
    (n : Nat) (m : Nat → Nat → K) :
    undoAll rows cols q hc rt (n + 1) m =
      undoAll rows cols q hc rt n (undoStep rows cols q hc rt n m) := rfl

theorem undoAll_congr (rows cols : Nat) (q q' : Nat → Nat → K) (hc hc' : Nat → K)
    (rt rt' : Nat → Nat) (n : Nat)
    (h : ∀ j, j < n → householderVector q rows j = householderVector q' rows j ∧
      hc j = hc' j ∧ rt j = rt' j) (m : Nat → Nat → K) :
    undoAll rows cols q hc rt n m = undoAll rows cols q' hc' rt' n m := by
  induction n generalizing m with
  | zero => rfl
  | succ n ih =>
    rw [undoAll_succ, undoAll_succ, ih (fun j hj => h j (by omega))]
    unfold undoStep
    rw [(h n (by omega)).1, (h n (by omega)).2.1, (h n (by omega)).2.2]

theorem undoStep_identity (rows cols : Nat) (q : Nat → Nat → K) (hc : Nat → K)
    (rt : Nat → Nat) (k : Nat) (h0 : hc k = 0) (h1 : rt k = k) (m : Nat → Nat → K) :
    undoStep rows cols q hc rt k m = m := by
  unfold undoStep
  rw [h0, h1, reflect_zero, swapRows_self]

theorem undoAll_stable (rows cols : Nat) (q : Nat → Nat → K) (hc : Nat → K) (rt : Nat → Nat)
    (r n : Nat) (hrn : r ≤ n) (h : ∀ i, r ≤ i → i < n → hc i = 0 ∧ rt i = i)
    (m : Nat → Nat → K) :
    undoAll rows cols q hc rt n m = undoAll rows cols q hc rt r m := by
  induction n with
  | zero =>
    have : r = 0 := by omega
    rw [this]
  | succ n ih =>
    by_cases hr : r = n + 1
    · rw [hr]
    · rw [undoAll_succ, undoStep_identity rows cols q hc rt n (h n (by omega) (by omega)).1
        (h n (by omega) (by omega)).2]
      exact ih (by omega) (fun i h1 h2 => h i h1 (by omega))

theorem undoAll_swapCols (rows cols : Nat) (q : Nat → Nat → K) (hc : Nat → K) (rt : Nat → Nat)
    (n k c : Nat) (hk : k < cols) (hcc : c < cols) (h : ∀ j, j < n → j < rows ∧ rt j < rows)
    (m : Nat → Nat → K) :
    undoAll rows cols q hc rt n (swapCols m rows k c) =
      swapCols (undoAll rows cols q hc rt n m) rows k c := by
  induction n generalizing m with
  | zero => rfl
  | succ n ih =>
    rw [undoAll_succ, undoAll_succ, ← ih (fun j hj => h j (by omega))]
    unfold undoStep
    rw [reflect_swapCols_comm m rows cols k c _ _
        (fun i hi => householderVector_of_ge q rows n i (h n (by omega)).1 hi) hk hcc,
      swapRows_swapCols_comm _ rows cols n (rt n) k c (h n (by omega)).1 (h n (by omega)).2
        hk hcc]

end Undo

section Invariant

variable {K : Type} [LinearOrderedField K]

theorem swapCols_permuteCols (a : Nat → Nat → K) (rows cols k c : Nat) (p : Nat → Nat)
    (hk : k < cols) (hc : c < cols) :
    swapCols (permuteCols a rows cols p) rows k c =
      permuteCols a rows cols (applyTranspositionOnTheRight p k c) := by
  funext i j
  unfold swapCols permuteCols applyTranspositionOnTheRight
  by_cases hi : i < rows
  · by_cases h1 : j = k
    · subst h1
      simp only [if_pos hi, if_true, hi, hc, hk, and_self]
    · by_cases h2 : j = c
      · subst h2
        simp only [if_pos hi, if_neg h1, if_true, hi, hc, hk, and_self]
      · simp only [if_pos hi, if_neg h1, if_neg h2]
  · have : ¬ (i < rows ∧ j < cols) := fun h => hi h.1
    simp only [if_neg hi, if_neg this]

theorem colsPermutationOf_congr (ct ct' : Nat → Nat) (n : Nat)
    (h : ∀ i, i < n → ct i = ct' i) : colsPermutationOf ct n = colsPermutationOf ct' n := by
  induction n with
  | zero => rfl
  | succ n ih =>
    rw [colsPermutationOf_succ, colsPermutationOf_succ, ih (fun i hi => h i (by omega)),
      h n (by omega)]

theorem makeHouseholderInPlace_qr_of_ne (S : ScalarOps K) (m : Nat → Nat → K) (rows k i j : Nat)
    (h : ¬ (j = k ∧ k < i ∧ i < rows)) : (makeHouseholderInPlace S m rows k).qr i j = m i j := by
  unfold makeHouseholderInPlace
  simp only []
  split_ifs
  · rfl
  · exact if_neg h
  · exact if_neg h

theorem pivotStep_cols_before (S : ScalarOps K) (rows cols k r c : Nat) (s : ComputeState K)
    (hk : k < rows) (hkc : k < cols) (hc : k ≤ c) (i j : Nat) (hj : j < k) :
    (pivotStep S rows cols k r c s).qr i j = s.qr i j := by
  rw [(pivotStep_qr S rows cols k r c s).1, householderUpdate_eq S rows cols k _ hk hkc,
    if_neg (by omega), if_neg (by omega), makeHouseholderInPlace_qr_of_ne S _ rows k i j (by omega)]
  unfold swapCols swapRowTails
  have e1 : ¬ (k ≤ j ∧ j < cols) := by omega
  have e2 : j ≠ k := by omega
  have e3 : j ≠ c := by omega
  simp only [if_neg e1, if_neg e2, if_neg e3, ite_self]

theorem factorInvariant_step (S : ScalarOps K) (hs : ∀ x, 0 ≤ x → S.sqrt x * S.sqrt x = x)
    (rows cols : Nat) (a : Nat → Nat → K) (k r c : Nat) (s : ComputeState K)
    (hk : k < rows) (hkc : k < cols) (hkr : k ≤ r) (hr : r < rows) (hkc' : k ≤ c)
    (hc : c < cols) (h : FactorInvariant rows cols a k s) :
    FactorInvariant rows cols a (k + 1) (pivotStep S rows cols k r c s) := by
  obtain ⟨htr, hinv, hundo⟩ := h
  have hq := (pivotStep_qr S rows cols k r c s).1
  have htau := (pivotStep_qr S rows cols k r c s).2
  have hcol := pivotStep_cols_before S rows cols k r c s hk hkc hkc'
  have hvec : ∀ j, j < k → householderVector (pivotStep S rows cols k r c s).qr rows j =
      householderVector s.qr rows j := fun j hj =>
    householderVector_congr _ _ rows j (fun i _ _ => hcol i j hj)
  have hhc : ∀ j, j ≠ k → (pivotStep S rows cols k r c s).hCoeffs j = s.hCoeffs j :=
    fun j hj => by simp only [pivotStep, Function.update_noteq hj]
  have hrt : ∀ j, j ≠ k → (pivotStep S rows cols k r c s).rows_transpositions j =
      s.rows_transpositions j := fun j hj => by simp only [pivotStep, Function.update_noteq hj]
  have hct : ∀ j, j ≠ k → (pivotStep S rows cols k r c s).cols_transpositions j =
      s.cols_transpositions j := fun j hj => by simp only [pivotStep, Function.update_noteq hj]
  have hrtk : (pivotStep S rows cols k r c s).rows_transpositions k = r := by
    simp only [pivotStep, Function.update_same]
  have hctk : (pivotStep S rows cols k r c s).cols_transpositions k = c := by
    simp only [pivotStep, Function.update_same]
  obtain ⟨-, m2, -, -⟩ := makeHouseholderInPlace_spec S hs
    (swapCols (swapRowTails s.qr cols k r) rows k c) rows k hk
  have hvk : householderVector (pivotStep S rows cols k r c s).qr rows k =
      householderVector (makeHouseholderInPlace S
        (swapCols (swapRowTails s.qr cols k r) rows k c) rows k).qr rows k := by
    rw [hq]
    exact householderUpdate_vector S rows cols k _ hk hkc
  have hinvk : ReflectorInvolutive rows (pivotStep S rows cols k r c s).qr
      (pivotStep S rows cols k r c s).hCoeffs k := by
    unfold ReflectorInvolutive
    rw [hvk, htau]
    exact m2
  refine ⟨?_, ?_, ?_⟩
  · intro i hi
    by_cases hik : i = k
    · subst hik
      rw [hrtk, hctk]
      exact ⟨hkr, hr, hkc', hc⟩
    · rw [hrt i hik, hct i hik]
      exact htr i (by omega)
  · intro j hj
    by_cases hjk : j = k
    · subst hjk
      exact hinvk
    · have := hinv j (by omega)
      unfold ReflectorInvolutive at this ⊢
      rw [hvec j (by omega), hhc j hjk]
      exact this
  · rw [undoAll_succ]
    have e1 : undoStep rows cols (pivotStep S rows cols k r c s).qr
        (pivotStep S rows cols k r c s).hCoeffs (pivotStep S rows cols k r c s).rows_transpositions k
        (reducedMatrix rows (k + 1) (pivotStep S rows cols k r c s).qr) =
        swapCols (reducedMatrix rows k s.qr) rows k c := by
      unfold undoStep
      rw [hrtk, htau]
      have e2 : reducedMatrix rows (k + 1) (pivotStep S rows cols k r c s).qr =
          reflect rows cols (householderVector (pivotStep S rows cols k r c s).qr rows k)
            (makeHouseholderInPlace S (swapCols (swapRowTails s.qr cols k r) rows k c) rows k).tau
            (reducedMatrix rows k (swapCols (swapRowTails s.qr cols k r) rows k c)) := by
        rw [hq]
        exact reducedMatrix_householderUpdate S hs rows cols k _ hk hkc
      rw [e2, reflect_reflect]
      · rw [reducedMatrix_swapCols _ rows k c hkc',
          reducedMatrix_swapRowTails _ rows cols k r hk hkr hr hkc,
          swapRows_swapCols_comm _ rows cols k r k c hk hr hkc hc, swapRows_swapRows]
      · rw [hvk]
        exact m2
    rw [e1, undoAll_congr rows cols _ s.qr _ s.hCoeffs _ s.rows_transpositions k
        (fun j hj => ⟨hvec j hj, hhc j (by omega), hrt j (by omega)⟩),
      undoAll_swapCols rows cols _ _ _ k k c hkc hc
        (fun j hj => ⟨by omega, (htr j hj).2.1⟩),
      hundo, swapCols_permuteCols a rows cols k c _ hkc hc, colsPermutationOf_succ, hctk,
      colsPermutationOf_congr _ s.cols_transpositions k (fun i hi => hct i (by omega))]

theorem factorInvariant_zero (rows cols : Nat) (a : Nat → Nat → K) (s : ComputeState K)
    (hq : s.qr = a) : FactorInvariant rows cols a 0 s := by
  refine ⟨fun i hi => absurd hi (Nat.not_lt_zero i), fun j hj => absurd hj (Nat.not_lt_zero j), ?_⟩
  rw [hq]
  funext i j
  show reducedMatrix rows 0 a i j = permuteCols a rows cols (fun i => i) i j
  unfold reducedMatrix permuteCols
  rw [if_neg (by omega), ite_self]

theorem computeLoop_factorized (S : ScalarOps K) (hs : ∀ x, 0 ≤ x → S.sqrt x * S.sqrt x = x)
    (rows cols size : Nat) (prec : K) (hsr : size ≤ rows) (hsc : size ≤ cols)
    (a : Nat → Nat → K) (s : ComputeState K) (hrank : s.rank = size) (hq : s.qr = a) :
    Factorized rows cols size a (computeLoop S rows cols size prec size 0 s) := by
  refine computeLoop_rule S rows cols size prec
    (fun k s => s.rank = size ∧ FactorInvariant rows cols a k s)
    (fun f => Factorized rows cols size a f)
    ?_ ?_ ?_ size 0 s (by omega) ⟨hrank, factorInvariant_zero rows cols a s hq⟩
  · rintro k s hk ⟨hrk, hinv⟩ -
    obtain ⟨h1, h2, -, -⟩ := pivotOf_spec s.qr rows cols k (by omega) (by omega)
    refine ⟨hrk, ?_⟩
    exact factorInvariant_step S hs rows cols a k _ _ _ (by omega) (by omega) (by omega) h1
      (by omega) h2 hinv
  · rintro k s hk ⟨hrk, htr, hinv, hundo⟩ -
    obtain ⟨e1, e2, -, -, e5, e6, e7⟩ := forRange_fillStep (size - k) k
      { s with biggest := biggestAt s.qr rows cols k s.biggest, rank := k }
    simp only [] at e1 e2 e5 e6 e7
    generalize forRange fillStep k (size - k)
      { s with biggest := biggestAt s.qr rows cols k s.biggest, rank := k } = f at e1 e2 e5 e6 e7 ⊢
    have hin : ∀ i, k ≤ i → i < size → (k ≤ i ∧ i < k + (size - k)) := fun i h1 h2 => by omega
    have hout : ∀ i, i < k → ¬ (k ≤ i ∧ i < k + (size - k)) := fun i h1 => by omega
    refine ⟨?_, ?_⟩
    · intro j hj
      unfold ReflectorInvolutive
      by_cases hjk : j < k
      · rw [e1, e5, if_neg (hout j hjk)]
        exact hinv j hjk
      · rw [e5, if_pos (hin j (by omega) hj)]
        simp
    · rw [e1, e2]
      rw [undoAll_stable rows cols s.qr f.hCoeffs f.rows_transpositions k size (le_of_lt hk)
          (fun i h1 h2 => by
            rw [e5, e6, if_pos (hin i h1 h2), if_pos (hin i h1 h2)]; exact ⟨rfl, rfl⟩),
        undoAll_congr rows cols s.qr s.qr f.hCoeffs s.hCoeffs f.rows_transpositions
          s.rows_transpositions k
          (fun j hj => by
            rw [e5, e6, if_neg (hout j hj), if_neg (hout j hj)]; exact ⟨rfl, rfl, rfl⟩),
        hundo,
        colsPermutationOf_stable f.cols_transpositions k size (le_of_lt hk)
          (fun i h1 h2 => by rw [e7, if_pos (hin i h1 h2)]),
        colsPermutationOf_congr f.cols_transpositions s.cols_transpositions k
          (fun i hi => by rw [e7, if_neg (hout i hi)])]
  · rintro s ⟨hrk, -, hinv, hundo⟩
    refine ⟨hinv, ?_⟩
    rw [hrk]
    exact hundo

theorem computeFinal_factorized (S : ScalarOps K) (hs : ∀ x, 0 ≤ x → S.sqrt x * S.sqrt x = x)
    (self : FullPivHouseholderQR K) (matrix : DenseMatrix K) :
    Factorized matrix.rows matrix.cols (min matrix.rows matrix.cols) matrix.coeff
      (computeFinal S self matrix) :=
  computeLoop_factorized S hs matrix.rows matrix.cols _ _ (Nat.min_le_left _ _)
    (Nat.min_le_right _ _) matrix.coeff (computeInit self matrix) rfl rfl

end Invariant

section Product

variable {K : Type} [LinearOrderedField K]

theorem reflect_gmul (rows n m : Nat) (fb x y : Nat → Nat → K) (v : Nat → K) (tau : K)
    (hv : ∀ i, rows ≤ i → v i = 0) :
    reflect rows m v tau (gmul rows n m fb x y) = gmul rows n m fb (reflect rows n v tau x) y := by
  funext i j
  unfold reflect gmul
  by_cases hj : j < m
  · by_cases hi : i < rows
    · simp only [if_pos hj, if_pos (And.intro hi hj)]
      have e1 : ∑ l ∈ Finset.range rows,
          v l * (if l < rows ∧ j < m then ∑ a ∈ Finset.range n, x l a * y a j else fb l j) =
          ∑ a ∈ Finset.range n, (∑ l ∈ Finset.range rows, v l * x l a) * y a j := by
        have : ∀ l ∈ Finset.range rows,
            v l * (if l < rows ∧ j < m then ∑ a ∈ Finset.range n, x l a * y a j else fb l j) =
            ∑ a ∈ Finset.range n, v l * x l a * y a j := by
          intro l hl
          rw [if_pos ⟨Finset.mem_range.mp hl, hj⟩, Finset.mul_sum]
          apply Finset.sum_congr rfl
          intro a _
          ring
        rw [Finset.sum_congr rfl this, Finset.sum_comm]
        apply Finset.sum_congr rfl
        intro a _
        rw [Finset.sum_mul]
      have e2 : ∑ a ∈ Finset.range n,
          (if a < n then x i a - tau * v i * ∑ l ∈ Finset.range rows, v l * x l a else x i a) *
            y a j =
          (∑ a ∈ Finset.range n, x i a * y a j) -
            tau * v i * ∑ a ∈ Finset.range n, (∑ l ∈ Finset.range rows, v l * x l a) * y a j := by
        rw [Finset.mul_sum, ← Finset.sum_sub_distrib]
        apply Finset.sum_congr rfl
        intro a ha
        rw [if_pos (Finset.mem_range.mp ha)]
        ring
      rw [e1, e2]
    · have : ¬ (i < rows ∧ j < m) := fun h => hi h.1
      simp only [if_pos hj, if_neg this, hv i (by omega), mul_zero, zero_mul, sub_zero]
  · have : ¬ (i < rows ∧ j < m) := fun h => hj h.2
    simp only [if_neg hj, if_neg this]

theorem swapRows_gmul (rows n m : Nat) (fb x y : Nat → Nat → K) (k r : Nat) (hk : k < rows)
    (hr : r < rows) :
    swapRows (gmul rows n m fb x y) m k r = gmul rows n m fb (swapRows x n k r) y := by
  funext i j
  unfold swapRows gmul
  by_cases hj : j < m
  · have e : ∀ i', (∑ l ∈ Finset.range n,
        (if l < n then (if i' = k then x r l else if i' = r then x k l else x i' l) else x i' l) *
          y l j) =
        ∑ l ∈ Finset.range n, (if i' = k then x r l else if i' = r then x k l else x i' l) *
          y l j := by
      intro i'
      apply Finset.sum_congr rfl
      intro l hl
      rw [if_pos (Finset.mem_range.mp hl)]
    rw [e]
    by_cases h1 : i = k
    · subst h1
      simp only [if_pos hj, if_true, hk, hr, hj, and_self]
    · by_cases h2 : i = r
      · subst h2
        simp only [if_pos hj, if_neg h1, if_true, hk, hr, hj, and_self]
      · simp only [if_pos hj, if_neg h1, if_neg h2]
  · have : ∀ i', ¬ (i' < rows ∧ j < m) := fun i' h => hj h.2
    simp only [if_neg hj, if_neg (this _)]

theorem undoAll_gmul (rows n m : Nat) (fb y : Nat → Nat → K) (q : Nat → Nat → K)
    (hc : Nat → K) (rt : Nat → Nat) (N : Nat) (h : ∀ k, k < N → k < rows ∧ rt k < rows)
    (x : Nat → Nat → K) :
    undoAll rows m q hc rt N (gmul rows n m fb x y) =
      gmul rows n m fb (undoAll rows n q hc rt N x) y := by
  induction N generalizing x with
  | zero => rfl
  | succ N ih =>
    rw [undoAll_succ, undoAll_succ, ← ih (fun k hk => h k (by omega))]
    unfold undoStep
    rw [reflect_gmul rows n m fb x y _ _
        (fun i hi => householderVector_of_ge q rows N i (h N (by omega)).1 hi),
      swapRows_gmul rows n m fb _ y N (rt N) (h N (by omega)).1 (h N (by omega)).2]

end Product

section MatrixQ

variable {K : Type} [LinearOrderedField K]

theorem matrixQStep_eq_undoStep (self : FullPivHouseholderQR K) (rows n : Nat)
    (res : Nat → Nat → K) (hn : n < rows) (hid : IdentityBefore n res) :
    matrixQStep self rows n res =
      undoStep rows rows self.m_qr.coeff self.m_hCoeffs self.m_rows_transpositions n res := by
  have e : applyHouseholderOnTheLeft res n n (rows - n) (rows - n)
      (fun l => self.m_qr.coeff (n + 1 + l) n) (self.m_hCoeffs n) =
      reflect rows rows (householderVector self.m_qr.coeff rows n) (self.m_hCoeffs n) res := by
    rw [applyHouseholderOnTheLeft_eq res self.m_qr.coeff rows n n (rows - n) _ hn]
    funext i j
    unfold reflect
    by_cases hj : j < rows
    · by_cases hjn : n ≤ j
      · rw [if_pos ⟨hjn, by omega⟩, if_pos hj]
      · have hsum : ∑ l ∈ Finset.range rows,
            householderVector self.m_qr.coeff rows n l * res l j = 0 := by
          apply Finset.sum_eq_zero
          intro l _
          by_cases hl : l < n
          · rw [householderVector_of_lt _ rows n l hl, zero_mul]
          · rw [hid l j (Or.inr (by omega)), if_neg (by omega), mul_zero]
        rw [if_neg (by omega), if_pos hj, hsum, mul_zero, sub_zero]
    · rw [if_neg (by omega), if_neg hj]
  unfold matrixQStep undoStep
  rw [e]

theorem identityBefore_undoStep (self : FullPivHouseholderQR K) (rows n : Nat)
    (res : Nat → Nat → K) (hn : n < rows) (hrt : n ≤ self.m_rows_transpositions n)
    (hid : IdentityBefore (n + 1) res) :
    IdentityBefore n
      (undoStep rows rows self.m_qr.coeff self.m_hCoeffs self.m_rows_transpositions n res) := by
  have hcol : ∀ i j, j < n →
      reflect rows rows (householderVector self.m_qr.coeff rows n) (self.m_hCoeffs n) res i j =
        if i = j then 1 else 0 := by
    intro i j hj
    unfold reflect
    have hsum : ∑ l ∈ Finset.range rows,
        householderVector self.m_qr.coeff rows n l * res l j = 0 := by
      apply Finset.sum_eq_zero
      intro l _
      by_cases hl : l < n
      · rw [householderVector_of_lt _ rows n l hl, zero_mul]
      · rw [hid l j (Or.inr (by omega)), if_neg (by omega), mul_zero]
    rw [if_pos (by omega), hsum, mul_zero, sub_zero]
    exact hid i j (Or.inr (by omega))
  have hrow : ∀ i j, i < n →
      reflect rows rows (householderVector self.m_qr.coeff rows n) (self.m_hCoeffs n) res i j =
        if i = j then 1 else 0 := by
    intro i j hi
    unfold reflect
    rw [householderVector_of_lt _ rows n i hi, mul_zero, zero_mul, sub_zero, ite_self]
    exact hid i j (Or.inl (by omega))
  intro i j hij
  unfold undoStep swapRows
  by_cases hj : j < rows
  · rw [if_pos hj]
    by_cases hjn : j < n
    · by_cases h1 : i = n
      · rw [if_pos h1, hcol _ j hjn, if_neg (by omega), if_neg (by omega)]
      · rw [if_neg h1]
        by_cases h2 : i = self.m_rows_transpositions n
        · rw [if_pos h2, hcol _ j hjn, if_neg (by omega), if_neg (by omega)]
        · rw [if_neg h2, hcol _ j hjn]
    · have hi : i < n := by omega
      rw [if_neg (by omega), if_neg (by omega), hrow i j hi]
  · have hi : i < n := by omega
    rw [if_neg hj, hrow i j hi]

theorem matrixQ_loop_eq_undoAll (self : FullPivHouseholderQR K) (rows n : Nat)
    (h : ∀ k, k < n → k < rows ∧ k ≤ self.m_rows_transpositions k) (res : Nat → Nat → K)
    (hid : IdentityBefore n res) :
    forRangeDown (matrixQStep self rows) n res =
      undoAll rows rows self.m_qr.coeff self.m_hCoeffs self.m_rows_transpositions n res := by
  induction n generalizing res with
  | zero => rfl
  | succ n ih =>
    rw [undoAll_succ]
    show forRangeDown (matrixQStep self rows) n (matrixQStep self rows n res) = _
    have hid' : IdentityBefore n res := fun i j hij => hid i j (by omega)
    rw [matrixQStep_eq_undoStep self rows n res (h n (by omega)).1 hid']
    exact ih (fun k hk => h k (by omega)) _
      (identityBefore_undoStep self rows n res (h n (by omega)).1 (h n (by omega)).2 hid)

end MatrixQ

section Reconstruction

variable {K : Type} [LinearOrderedField K]

theorem gmul_identity (rows cols : Nat) (m : Nat → Nat → K) :
    gmul rows rows cols m (fun i j => if i = j then 1 else 0) m = m := by
  funext i j
  unfold gmul
  by_cases h : i < rows ∧ j < cols
  · rw [if_pos h, Finset.sum_eq_single i]
    · beta_reduce
      rw [if_pos rfl, one_mul]
    · intro l _ hl
      beta_reduce
      rw [if_neg (Ne.symm hl), zero_mul]
    · intro hi
      exact absurd (Finset.mem_range.mpr h.1) hi
  · rw [if_neg h]

/-- The product of `matrixQ` with the reduced working matrix is the input with its
columns permuted. -/
theorem matrixQ_mul_reduced (S : ScalarOps K) (hs : ∀ x, 0 ≤ x → S.sqrt x * S.sqrt x = x)
    (self : FullPivHouseholderQR K) (A : DenseMatrix K) (i j : Nat) (hi : i < A.rows)
    (hj : j < A.cols) :
    ∑ l ∈ Finset.range A.rows,
      forRangeDown (matrixQStep (compute S self A) A.rows) (min A.rows A.cols)
        (fun i j => if i = j then 1 else 0) i l *
      reducedMatrix A.rows (compute S self A).m_rank (compute S self A).m_qr.coeff l j =
    A.coeff i ((compute S self A).m_cols_permutation j) := by
  obtain ⟨-, htr, -⟩ := computeFinal_bounds S self A
  obtain ⟨-, hundo⟩ := computeFinal_factorized S hs self A
  have hmin : min A.rows A.cols ≤ A.rows := Nat.min_le_left _ _
  have hQ := matrixQ_loop_eq_undoAll (compute S self A) A.rows (min A.rows A.cols)
    (fun k hk => ⟨by omega, (htr k hk).1⟩) (fun i j => if i = j then 1 else 0)
    (fun i j _ => rfl)
  rw [hQ]
  have hg := undoAll_gmul A.rows A.rows A.cols
    (reducedMatrix A.rows (computeFinal S self A).rank (computeFinal S self A).qr)
    (reducedMatrix A.rows (computeFinal S self A).rank (computeFinal S self A).qr)
    (computeFinal S self A).qr (computeFinal S self A).hCoeffs
    (computeFinal S self A).rows_transpositions (min A.rows A.cols)
    (fun k hk => ⟨by omega, (htr k hk).2.1⟩) (fun i j => if i = j then 1 else 0)
  rw [gmul_identity, hundo] at hg
  have := congrFun (congrFun hg i) j
  unfold gmul permuteCols at this
  rw [if_pos ⟨hi, hj⟩, if_pos ⟨hi, hj⟩] at this
  exact this.symm

/-- C1: for every square n-by-n matrix A for which `compute` reports `rank() == n`, in
exact arithmetic (the square root is exact) the product `matrixQ() * R` equals A with its
columns permuted by the column permutation: column `j` of the product is column
`columnPermutation[j]` of A, where R is the upper-triangular part, diagonal included, of
the stored working matrix. -/
theorem matrixQ_mul_R_eq_permuted_input (S : ScalarOps K)
    (hs : ∀ x, 0 ≤ x → S.sqrt x * S.sqrt x = x) (self : FullPivHouseholderQR K)
    (A : DenseMatrix K) (n : Nat) (hr : A.rows = n) (hc : A.cols = n)
    (hrank : rank (compute S self A) = Except.ok n) :
    ∃ Q : DenseMatrix K, matrixQ (compute S self A) = Except.ok Q ∧ Q.rows = n ∧ Q.cols = n ∧
      ∀ i j, i < n → j < n →
        ∑ l ∈ Finset.range n,
          Q.coeff i l * (if l ≤ j then (compute S self A).m_qr.coeff l j else 0) =
        A.coeff i ((compute S self A).m_cols_permutation j) := by
  have hrk : (compute S self A).m_rank = n := by
    have : rank (compute S self A) = Except.ok (compute S self A).m_rank := rfl
    rw [this] at hrank
    exact Except.ok.inj hrank
  subst hr
  refine ⟨_, rfl, rfl, rfl, ?_⟩
  intro i j hi hj
  have key := matrixQ_mul_reduced S hs self A i j hi (by omega)
  rw [hrk] at key
  show ∑ l ∈ Finset.range A.rows,
      forRangeDown (matrixQStep (compute S self A) A.rows) (min A.rows A.cols)
        (fun i j => if i = j then 1 else 0) i l *
      (if l ≤ j then (compute S self A).m_qr.coeff l j else 0) = _
  rw [← key]
  apply Finset.sum_congr rfl
  intro l hl
  have hl' := Finset.mem_range.mp hl
  congr 1
  unfold reducedMatrix
  by_cases h : l ≤ j
  · rw [if_pos h, if_neg (by omega)]
  · rw [if_neg h, if_pos (by omega)]

end Reconstruction

section SolvePipeline

variable {K : Type} [LinearOrderedField K]

theorem forRange_congr {σ : Type} (body body' : Nat → σ → σ) (lo n : Nat)
    (h : ∀ k, lo ≤ k → k < lo + n → body k = body' k) (s : σ) :
    forRange body lo n s = forRange body' lo n s := by
  induction n generalizing lo s with
  | zero => rfl
  | succ n ih =>
    rw [forRange, forRange, h lo (le_refl _) (by omega)]
    exact ih (lo + 1) (fun k h1 h2 => h k (by omega) (by omega)) _

theorem solveStep_eq_redoStep (dec : FullPivHouseholderQR K) (rows m k : Nat) (hk : k < rows) :
    solveStep dec rows m k =
      redoStep rows m dec.m_qr.coeff dec.m_hCoeffs dec.m_rows_transpositions k := by
  funext c
  unfold solveStep redoStep
  rw [applyHouseholderOnTheLeft_eq _ dec.m_qr.coeff rows k 0 m _ hk]
  funext i j
  unfold reflect
  by_cases hj : j < m
  · rw [if_pos ⟨Nat.zero_le j, by omega⟩, if_pos hj]
  · rw [if_neg (by omega), if_neg hj]

theorem redoStep_undoStep (rows cols : Nat) (q : Nat → Nat → K) (hc : Nat → K)
    (rt : Nat → Nat) (k : Nat) (h : ReflectorInvolutive rows q hc k) (m : Nat → Nat → K) :
    redoStep rows cols q hc rt k (undoStep rows cols q hc rt k m) = m := by
  unfold redoStep undoStep
  rw [swapRows_swapRows, reflect_reflect _ _ _ _ _ h]

theorem redoAll_undoAll (rows cols : Nat) (q : Nat → Nat → K) (hc : Nat → K) (rt : Nat → Nat)
    (n : Nat) (h : ∀ k, k < n → ReflectorInvolutive rows q hc k) (m : Nat → Nat → K) :
    forRange (redoStep rows cols q hc rt) 0 n (undoAll rows cols q hc rt n m) = m := by
  induction n generalizing m with
  | zero => rfl
  | succ n ih =>
    rw [forRange_succ_last, undoAll_succ, ih (fun k hk => h k (by omega)), Nat.zero_add,
      redoStep_undoStep rows cols q hc rt n (h n (by omega))]

theorem transformedRhs_eq (dec : FullPivHouseholderQR K) (rhs : DenseMatrix K)
    (hr : dec.m_rank ≤ dec.m_qr.rows) :
    transformedRhs dec rhs =
      forRange (redoStep dec.m_qr.rows rhs.cols dec.m_qr.coeff dec.m_hCoeffs
        dec.m_rows_transpositions) 0 dec.m_rank rhs.coeff := by
  unfold transformedRhs
  exact forRange_congr _ _ 0 dec.m_rank
    (fun k _ hk => solveStep_eq_redoStep dec dec.m_qr.rows rhs.cols k (by omega)) _

/-- Reindexing a sum over the columns by a permutation of the columns. -/
theorem sum_permuted (p : Nat → Nat) (c : Nat) (hp : Set.BijOn p (Set.Iio c) (Set.Iio c))
    (f : Nat → K) :
    ∑ l ∈ Finset.range c, f (p l) = ∑ l ∈ Finset.range c, f l := by
  apply Finset.sum_nbij p
  · intro a ha
    have := hp.mapsTo (Set.mem_Iio.mpr (Finset.mem_range.mp ha))
    exact Finset.mem_range.mpr this
  · rw [Finset.coe_range]
    exact hp.injOn
  · rw [Finset.coe_range]
    exact hp.surjOn
  · intro a _
    rfl

theorem forRangeDown_backSubstRow_untouched (u : Nat → Nat → K) (n nc i : Nat)
    (c : Nat → Nat → K) (a b : Nat) (h : i ≤ a ∨ nc ≤ b) :
    forRangeDown (backSubstRow u n nc) i c a b = c a b := by
  induction i generalizing c with
  | zero => rfl
  | succ i ih =>
    show forRangeDown (backSubstRow u n nc) i (backSubstRow u n nc i c) a b = c a b
    rw [ih _ (by omega)]
    unfold backSubstRow
    rw [if_neg (by omega)]

/-- Back-substitution solves the triangular system: the rows it has processed satisfy
their equations, the other rows are as before. -/
theorem forRangeDown_backSubstRow_solves (u : Nat → Nat → K) (n nc : Nat)
    (hu : ∀ i, i < n → u i i ≠ 0) (i : Nat) (hi : i ≤ n) (c : Nat → Nat → K) (a b : Nat)
    (ha : a < i) (hb : b < nc) :
    ∑ l ∈ Finset.Ico a n, u a l * forRangeDown (backSubstRow u n nc) i c l b = c a b := by
  induction i generalizing c with
  | zero => exact absurd ha (Nat.not_lt_zero a)
  | succ i ih =>
    show ∑ l ∈ Finset.Ico a n,
      u a l * forRangeDown (backSubstRow u n nc) i (backSubstRow u n nc i c) l b = c a b
    by_cases hai : a < i
    · rw [ih (by omega) _ hai]
      unfold backSubstRow
      rw [if_neg (by omega)]
    · have hai' : a = i := by omega
      subst hai'
      have e : ∀ l ∈ Finset.Ico a n,
          u a l * forRangeDown (backSubstRow u n nc) a (backSubstRow u n nc a c) l b =
          u a l * backSubstRow u n nc a c l b := by
        intro l hl
        rw [forRangeDown_backSubstRow_untouched u n nc a _ l b
          (Or.inl (Finset.mem_Ico.mp hl).1)]
      rw [Finset.sum_congr rfl e, Finset.sum_eq_sum_Ico_succ_bot (by omega)]
      have e2 : ∀ l ∈ Finset.Ico (a + 1) n,
          u a l * backSubstRow u n nc a c l b = u a l * c l b := by
        intro l hl
        unfold backSubstRow
        rw [if_neg (by have := (Finset.mem_Ico.mp hl).1; omega)]
      rw [Finset.sum_congr rfl e2]
      unfold backSubstRow
      rw [if_pos ⟨rfl, hb⟩]
      field_simp [hu a (by omega)]

/-- Back-substitution recovers `z` from the right-hand side `u * z`. -/
theorem forRangeDown_backSubstRow_unique (u : Nat → Nat → K) (n nc : Nat)
    (hu : ∀ i, i < n → u i i ≠ 0) (z : Nat → K) (b : Nat) (hb : b < nc) (i : Nat) (hi : i ≤ n)
    (c : Nat → Nat → K) (hsolved : ∀ a, i ≤ a → a < n → c a b = z a)
    (hrest : ∀ a, a < i → c a b = ∑ l ∈ Finset.Ico a n, u a l * z l) (a : Nat) (ha : a < n) :
    forRangeDown (backSubstRow u n nc) i c a b = z a := by
  induction i generalizing c with
  | zero => exact hsolved a (Nat.zero_le a) ha
  | succ i ih =>
    show forRangeDown (backSubstRow u n nc) i (backSubstRow u n nc i c) a b = z a
    apply ih (by omega)
    · intro a' h1 h2
      unfold backSubstRow
      by_cases h : a' = i
      · subst h
        rw [if_pos ⟨rfl, hb⟩, hrest a' (by omega), Finset.sum_eq_sum_Ico_succ_bot h2]
        have e2 : ∀ l ∈ Finset.Ico (a' + 1) n, u a' l * c l b = u a' l * z l := by
          intro l hl
          have := Finset.mem_Ico.mp hl
          rw [hsolved l (by omega) this.2]
        rw [Finset.sum_congr rfl e2]
        field_simp [hu a' h2]
      · rw [if_neg (by omega)]
        exact hsolved a' (by omega) h2
    · intro a' h1
      unfold backSubstRow
      rw [if_neg (by omega)]
      exact hrest a' (by omega)

theorem forRange_writeRow (perm : Nat → Nat) (g : Nat → Nat → K) (lo n : Nat)
    (d : DenseMatrix K)
    (hinj : ∀ i j, lo ≤ i → i < lo + n → lo ≤ j → j < lo + n → perm i = perm j → i = j) :
    (forRange (fun i d => writeRow d (perm i) (g i)) lo n d).rows = d.rows ∧
    (forRange (fun i d => writeRow d (perm i) (g i)) lo n d).cols = d.cols ∧
    (∀ l b, lo ≤ l → l < lo + n → b < d.cols →
      (forRange (fun i d => writeRow d (perm i) (g i)) lo n d).coeff (perm l) b = g l b) ∧
    (∀ a b, (∀ l, lo ≤ l → l < lo + n → perm l ≠ a) →
      (forRange (fun i d => writeRow d (perm i) (g i)) lo n d).coeff a b = d.coeff a b) := by
  induction n with
  | zero =>
    refine ⟨rfl, rfl, ?_, fun _ _ _ => rfl⟩
    intro l b h1 h2
    omega
  | succ n ih =>
    obtain ⟨h1, h2, h3, h4⟩ := ih (fun i j a b c d e => hinj i j a (by omega) c (by omega) e)
    rw [forRange_succ_last]
    refine ⟨h1, h2, ?_, ?_⟩
    · intro l b hl hl' hb
      show (if perm l = perm (lo + n) ∧ b < _ then g (lo + n) b else _) = g l b
      by_cases hln : l = lo + n
      · subst hln
        rw [if_pos ⟨rfl, by rw [h2]; exact hb⟩]
      · have hne : perm l ≠ perm (lo + n) := fun e =>
          hln (hinj l (lo + n) hl hl' (by omega) (by omega) e)
        rw [if_neg (fun h => hne h.1)]
        exact h3 l b hl (by omega) hb
    · intro a b hab
      show (if a = perm (lo + n) ∧ b < _ then g (lo + n) b else _) = d.coeff a b
      rw [if_neg (fun h => hab (lo + n) (by omega) (by omega) h.1.symm)]
      exact h4 a b (fun l hl hl' => hab l hl (by omega))

/-- The destination after the two loops of lines 382-383: row `perm l` holds row `l` of
the solved block for `l < r` and is zero for `r <= l < cols`. -/
theorem unpermute_spec (perm : Nat → Nat) (c1 : Nat → Nat → K) (r cols : Nat)
    (d : DenseMatrix K) (hr : r ≤ cols) (hinj : Set.InjOn perm (Set.Iio cols)) :
    (forRange (fun i d => setZeroRow d (perm i)) r (cols - r)
      (forRange (fun i d => assignRow d (perm i) c1 i) 0 r d)).rows = d.rows ∧
    (forRange (fun i d => setZeroRow d (perm i)) r (cols - r)
      (forRange (fun i d => assignRow d (perm i) c1 i) 0 r d)).cols = d.cols ∧
    ∀ l b, l < cols → b < d.cols →
      (forRange (fun i d => setZeroRow d (perm i)) r (cols - r)
        (forRange (fun i d => assignRow d (perm i) c1 i) 0 r d)).coeff (perm l) b =
      if l < r then c1 l b else 0 := by
  have hinj' : ∀ i j, i < cols → j < cols → perm i = perm j → i = j := fun i j hi hj e =>
    hinj (Set.mem_Iio.mpr hi) (Set.mem_Iio.mpr hj) e
  obtain ⟨a1, a2, a3, -⟩ := forRange_writeRow perm c1 0 r d
    (fun i j _ hi _ hj e => hinj' i j (by omega) (by omega) e)
  obtain ⟨z1, z2, z3, z4⟩ := forRange_writeRow perm (fun _ _ => (0 : K)) r (cols - r)
    (forRange (fun i d => writeRow d (perm i) (c1 i)) 0 r d)
    (fun i j _ hi _ hj e => hinj' i j (by omega) (by omega) e)
  refine ⟨z1.trans a1, z2.trans a2, ?_⟩
  intro l b hl hb
  by_cases hlr : l < r
  · rw [if_pos hlr]
    have := z4 (perm l) b (fun l' h1 h2 e => by
      have := hinj' l' l (by omega) hl e
      omega)
    exact this.trans (a3 l b (Nat.zero_le l) (by omega) hb)
  · rw [if_neg hlr]
    exact z3 l b (by omega) (by omega) (by rw [a2]; exact hb)

theorem pivot_moved (q : Nat → Nat → K) (rows cols k r c : Nat) (hk : k < rows) (hkc : k ≤ c)
    (hc : c < cols) : swapCols (swapRowTails q cols k r) rows k c k k = q r c := by
  unfold swapCols swapRowTails
  rw [if_pos hk, if_pos rfl, if_pos ⟨hkc, hc⟩, if_pos rfl]

theorem pivotStep_diag (S : ScalarOps K) (hs : ∀ x, 0 ≤ x → S.sqrt x * S.sqrt x = x)
    (rows cols k r c : Nat) (s : ComputeState K) (hk : k < rows) (hkc : k < cols)
    (hkc' : k ≤ c) (hc : c < cols) (hp : s.qr r c ≠ 0) :
    (pivotStep S rows cols k r c s).qr k k ≠ 0 := by
  rw [(pivotStep_qr S rows cols k r c s).1, householderUpdate_eq S rows cols k _ hk hkc,
    if_neg (by omega), if_pos ⟨rfl, rfl⟩]
  intro h
  have := (makeHouseholderInPlace_spec S hs _ rows k hk).2.2.2 h
  rw [pivot_moved s.qr rows cols k r c hk hkc' hc] at this
  exact hp this

theorem computeLoop_diag_ne_zero (S : ScalarOps K)
    (hs : ∀ x, 0 ≤ x → S.sqrt x * S.sqrt x = x) (rows cols size : Nat) (prec : K)
    (hprec : 0 ≤ prec) (hsr : size ≤ rows) (hsc : size ≤ cols) (s : ComputeState K)
    (hrank : s.rank = size) :
    ∀ j, j < (computeLoop S rows cols size prec size 0 s).rank →
      (computeLoop S rows cols size prec size 0 s).qr j j ≠ 0 := by
  refine computeLoop_rule S rows cols size prec
    (fun k s => s.rank = size ∧ (0 < k → 0 ≤ s.biggest) ∧ ∀ j, j < k → s.qr j j ≠ 0)
    (fun f => ∀ j, j < f.rank → f.qr j j ≠ 0)
    ?_ ?_ ?_ size 0 s (by omega)
    ⟨hrank, fun h => absurd h (lt_irrefl 0), fun j hj => absurd hj (Nat.not_lt_zero j)⟩
  · rintro k s hk ⟨hrk, hbig, hdiag⟩ hb
    obtain ⟨h1, h2, h3, -⟩ := pivotOf_spec s.qr rows cols k (by omega) (by omega)
    have hbig' : 0 ≤ biggestAt s.qr rows cols k s.biggest := by
      unfold biggestAt
      by_cases hk0 : k = 0
      · rw [if_pos hk0, hk0]
        rw [hk0] at h3
        rw [h3]
        exact abs_nonneg _
      · rw [if_neg hk0]
        exact hbig (by omega)
    have hpos : 0 < (pivotOf s.qr rows cols k).1 := by
      unfold isMuchSmallerThan at hb
      have hb' : ¬ ((pivotOf s.qr rows cols k).1 ≤
          prec * biggestAt s.qr rows cols k s.biggest) := by simpa using hb
      have := mul_nonneg hprec hbig'
      exact lt_of_le_of_lt this (not_le.mp hb')
    have hne : s.qr ((pivotOf s.qr rows cols k).2.1 + k) ((pivotOf s.qr rows cols k).2.2 + k)
        ≠ 0 := by
      intro h
      rw [h3, h, abs_zero] at hpos
      exact lt_irrefl _ hpos
    refine ⟨hrk, fun _ => hbig', ?_⟩
    intro j hj
    by_cases hjk : j = k
    · rw [hjk]
      exact pivotStep_diag S hs rows cols k _ _ _ (by omega) (by omega) (by omega) h2 hne
    · rw [pivotStep_cols_before S rows cols k _ _ _ (by omega) (by omega) (by omega) j j
        (by omega)]
      exact hdiag j (by omega)
  · rintro k s hk ⟨hrk, -, hdiag⟩ -
    obtain ⟨e1, e2, -⟩ := forRange_fillStep (size - k) k
      { s with biggest := biggestAt s.qr rows cols k s.biggest, rank := k }
    intro j hj
    rw [e2] at hj
    rw [e1]
    exact hdiag j hj
  · rintro s ⟨hrk, -, hdiag⟩ j hj
    exact hdiag j (by omega)

theorem computeFinal_diag_ne_zero (S : ScalarOps K)
    (hs : ∀ x, 0 ≤ x → S.sqrt x * S.sqrt x = x) (heps : 0 ≤ S.epsilon)
    (self : FullPivHouseholderQR K) (matrix : DenseMatrix K) (j : Nat)
    (hj : j < (computeFinal S self matrix).rank) : (computeFinal S self matrix).qr j j ≠ 0 :=
  computeLoop_diag_ne_zero S hs matrix.rows matrix.cols _ _
    (mul_nonneg heps (Nat.cast_nonneg _)) (Nat.min_le_left _ _) (Nat.min_le_right _ _)
    (computeInit self matrix) rfl j hj

theorem evalTo_of_check_passes (S : ScalarOps K) (dec : FullPivHouseholderQR K)
    (b dst : DenseMatrix K) (hinit : dec.m_isInitialized = true) (hb : b.rows = dec.m_qr.rows)
    (h0 : dec.m_rank ≠ 0) (hpass : ¬ consistencyCheckFails S dec b) :
    solve S dec b dst =
      { dst := forRange (fun i d => setZeroRow d (dec.m_cols_permutation i)) dec.m_rank
          (dec.m_qr.cols - dec.m_rank)
          (forRange (fun i d => assignRow d (dec.m_cols_permutation i)
              (solveInPlace dec.m_qr.coeff dec.m_rank b.cols (transformedRhs dec b)) i)
            0 dec.m_rank (resize dst dec.m_qr.cols b.cols))
        failure := none } := by
  unfold consistencyCheckFails transformedRhs at hpass
  unfold solve evalTo
  simp only [hinit, h0, hb, if_true, ne_eq, not_true_eq_false, if_false]
  rw [if_neg hpass]
  rfl

/-- A solvable right-hand side is what undoing the steps before `rank` makes of the
reduced working matrix times the permuted solution. -/
theorem rhs_eq_undoAll_product (S : ScalarOps K)
    (hs : ∀ x, 0 ≤ x → S.sqrt x * S.sqrt x = x) (self : FullPivHouseholderQR K)
    (A b : DenseMatrix K) (X : Nat → Nat → K)
    (hb : ∀ i j, i < A.rows → j < b.cols →
      b.coeff i j = ∑ l ∈ Finset.range A.cols, A.coeff i l * X l j) :
    b.coeff =
      undoAll A.rows b.cols (compute S self A).m_qr.coeff (compute S self A).m_hCoeffs
        (compute S self A).m_rows_transpositions (compute S self A).m_rank
        (gmul A.rows A.cols b.cols b.coeff
          (reducedMatrix A.rows (compute S self A).m_rank (compute S self A).m_qr.coeff)
          (fun l j => X ((compute S self A).m_cols_permutation l) j)) := by
  obtain ⟨hrk, htr, hfill⟩ := computeFinal_bounds S self A
  obtain ⟨-, hundo⟩ := computeFinal_factorized S hs self A
  have hperm : Set.BijOn (compute S self A).m_cols_permutation (Set.Iio A.cols)
      (Set.Iio A.cols) := by
    have h2 : min A.rows A.cols ≤ A.cols := Nat.min_le_right _ _
    exact colsPermutationOf_bijOn _ A.cols _ (fun i hi => ⟨by omega, (htr i hi).2.2.2⟩)
  have hmin : min A.rows A.cols ≤ A.rows := Nat.min_le_left _ _
  have e1 : b.coeff = gmul A.rows A.cols b.cols b.coeff
      (permuteCols A.coeff A.rows A.cols (compute S self A).m_cols_permutation)
      (fun l j => X ((compute S self A).m_cols_permutation l) j) := by
    funext i j
    unfold gmul
    by_cases h : i < A.rows ∧ j < b.cols
    · rw [if_pos h, hb i j h.1 h.2,
        ← sum_permuted _ A.cols hperm (fun l => A.coeff i l * X l j)]
      apply Finset.sum_congr rfl
      intro l hl
      unfold permuteCols
      rw [if_pos ⟨h.1, Finset.mem_range.mp hl⟩]
    · rw [if_neg h]
  have hp : permuteCols A.coeff A.rows A.cols (compute S self A).m_cols_permutation =
      undoAll A.rows A.cols (compute S self A).m_qr.coeff (compute S self A).m_hCoeffs
        (compute S self A).m_rows_transpositions (min A.rows A.cols)
        (reducedMatrix A.rows (compute S self A).m_rank (compute S self A).m_qr.coeff) :=
    hundo.symm
  have htr' : ∀ k, k < min A.rows A.cols →
      k < A.rows ∧ (compute S self A).m_rows_transpositions k < A.rows :=
    fun k hk => ⟨by omega, (htr k hk).2.1⟩
  have hfill' : ∀ i, (compute S self A).m_rank ≤ i → i < min A.rows A.cols →
      (compute S self A).m_hCoeffs i = 0 ∧ (compute S self A).m_rows_transpositions i = i :=
    fun i h1 h2 => ⟨(hfill i h1 h2).1, (hfill i h1 h2).2.1⟩
  conv_lhs => rw [e1]
  rw [hp, ← undoAll_gmul A.rows A.cols b.cols b.coeff
    (fun l j => X ((compute S self A).m_cols_permutation l) j)
    (compute S self A).m_qr.coeff (compute S self A).m_hCoeffs
    (compute S self A).m_rows_transpositions (min A.rows A.cols) htr']
  exact undoAll_stable A.rows b.cols (compute S self A).m_qr.coeff
    (compute S self A).m_hCoeffs (compute S self A).m_rows_transpositions
    (compute S self A).m_rank (min A.rows A.cols) hrk hfill' _

/-- The transformed right-hand side of a solvable system is the reduced working matrix
times the permuted solution. -/
theorem transformedRhs_of_solution (S : ScalarOps K)
    (hs : ∀ x, 0 ≤ x → S.sqrt x * S.sqrt x = x) (self : FullPivHouseholderQR K)
    (A b : DenseMatrix K) (X : Nat → Nat → K)
    (hb : ∀ i j, i < A.rows → j < b.cols →
      b.coeff i j = ∑ l ∈ Finset.range A.cols, A.coeff i l * X l j) :
    transformedRhs (compute S self A) b =
      gmul A.rows A.cols b.cols b.coeff
        (reducedMatrix A.rows (compute S self A).m_rank (compute S self A).m_qr.coeff)
        (fun l j => X ((compute S self A).m_cols_permutation l) j) := by
  obtain ⟨hrk, -, -⟩ := computeFinal_bounds S self A
  obtain ⟨hinv, -⟩ := computeFinal_factorized S hs self A
  have hmin : min A.rows A.cols ≤ A.rows := Nat.min_le_left _ _
  have hrows : (compute S self A).m_qr.rows = A.rows := rfl
  rw [transformedRhs_eq (compute S self A) b (by rw [hrows]; exact le_trans hrk hmin)]
  rw [hrows]
  conv_lhs => rw [rhs_eq_undoAll_product S hs self A b X hb]
  have hinv' : ∀ k, k < (compute S self A).m_rank →
      ReflectorInvolutive A.rows (compute S self A).m_qr.coeff (compute S self A).m_hCoeffs k :=
    fun k hk => hinv k (lt_of_lt_of_le hk hrk)
  exact redoAll_undoAll A.rows b.cols (compute S self A).m_qr.coeff
    (compute S self A).m_hCoeffs (compute S self A).m_rows_transpositions
    (compute S self A).m_rank hinv' _

theorem sum_reducedMatrix_row (rows cols r : Nat) (q : Nat → Nat → K) (z : Nat → K) (a : Nat)
    (ha : a < r) (har : a < rows) (hr : r ≤ cols) :
    ∑ l ∈ Finset.range cols, reducedMatrix rows r q a l * z l =
      ∑ l ∈ Finset.Ico a cols, q a l * z l := by
  rw [Finset.range_eq_Ico, ← Finset.sum_Ico_consecutive _ (Nat.zero_le a) (by omega : a ≤ cols)]
  have h1 : ∑ l ∈ Finset.Ico 0 a, reducedMatrix rows r q a l * z l = 0 := by
    apply Finset.sum_eq_zero
    intro l hl
    have := Finset.mem_Ico.mp hl
    unfold reducedMatrix
    rw [if_pos ⟨by omega, this.2, har⟩, zero_mul]
  rw [h1, zero_add]
  apply Finset.sum_congr rfl
  intro l hl
  have := Finset.mem_Ico.mp hl
  unfold reducedMatrix
  rw [if_neg (by omega)]

end SolvePipeline

section SolveCorrect

variable {K : Type} [LinearOrderedField K]

theorem isInvertible_ok_true (dec : FullPivHouseholderQR K)
    (h : isInvertible dec = Except.ok true) :
    dec.m_isInitialized = true ∧ dec.m_rank = dec.m_qr.cols ∧ dec.m_rank = dec.m_qr.rows := by
  unfold isInvertible isInjective isSurjective at h
  by_cases hi : dec.m_isInitialized = true
  · simp only [hi, if_true, bind, Except.bind, pure, Except.pure] at h
    have := Except.ok.inj h
    simp only [Bool.and_eq_true, decide_eq_true_eq] at this
    exact ⟨hi, this.1, this.2⟩
  · simp only [hi] at h
    cases h

/-- C2: for every square n-by-n matrix A for which `compute` reports `isInvertible()`
and every X with n rows, in exact arithmetic (exact square root, non-negative machine
epsilon) `solve(A * X)` returns X. -/
theorem solve_recovers_expected (S : ScalarOps K)
    (hs : ∀ x, 0 ≤ x → S.sqrt x * S.sqrt x = x) (heps : 0 ≤ S.epsilon)
    (self : FullPivHouseholderQR K) (A : DenseMatrix K) (n : Nat) (hr : A.rows = n)
    (hc : A.cols = n) (hinv : isInvertible (compute S self A) = Except.ok true)
    (X : Nat → Nat → K) (b dst : DenseMatrix K) (hbr : b.rows = n)
    (hb : ∀ i j, i < n → j < b.cols →
      b.coeff i j = ∑ l ∈ Finset.range n, A.coeff i l * X l j) :
    (solve S (compute S self A) b dst).failure = none ∧
    (solve S (compute S self A) b dst).dst.rows = n ∧
    (solve S (compute S self A) b dst).dst.cols = b.cols ∧
    ∀ i j, i < n → j < b.cols → (solve S (compute S self A) b dst).dst.coeff i j = X i j := by
  subst hr
  obtain ⟨hinit, hrc, hrr⟩ := isInvertible_ok_true _ hinv
  have hrows : (compute S self A).m_qr.rows = A.rows := rfl
  have hcols : (compute S self A).m_qr.cols = A.cols := rfl
  rw [hrows] at hrr
  obtain ⟨-, htr, -⟩ := computeFinal_bounds S self A
  have hperm : Set.BijOn (compute S self A).m_cols_permutation (Set.Iio A.cols)
      (Set.Iio A.cols) := by
    have h2 : min A.rows A.cols ≤ A.cols := Nat.min_le_right _ _
    exact colsPermutationOf_bijOn _ A.cols _ (fun i hi => ⟨by omega, (htr i hi).2.2.2⟩)
  by_cases h0 : (compute S self A).m_rank = 0
  · rw [solve_of_rank_zero S _ b dst hinit (by rw [hrows]; exact hbr) h0]
    refine ⟨rfl, ?_, rfl, ?_⟩
    · show A.cols = A.rows
      exact hc
    · intro i j hi
      omega
  · have hpass : ¬ consistencyCheckFails S (compute S self A) b := fun h => h.1 hrr
    rw [evalTo_of_check_passes S _ b dst hinit (by rw [hrows]; exact hbr) h0 hpass]
    obtain ⟨u1, u2, u3⟩ := unpermute_spec (compute S self A).m_cols_permutation
      (solveInPlace (compute S self A).m_qr.coeff (compute S self A).m_rank b.cols
        (transformedRhs (compute S self A) b))
      (compute S self A).m_rank (compute S self A).m_qr.cols
      (resize dst (compute S self A).m_qr.cols b.cols) (by rw [hrc]) hperm.injOn
    refine ⟨rfl, ?_, u2, ?_⟩
    · rw [u1]
      exact hc
    · intro i j hi hj
      obtain ⟨l, hl, rfl⟩ := hperm.surjOn (Set.mem_Iio.mpr (by omega : i < A.cols))
      have hl' : l < A.cols := hl
      rw [u3 l j hl' hj, if_pos (by rw [hrr]; omega)]
      have hc' := transformedRhs_of_solution S hs self A b X
        (fun i j hi hj => by rw [hb i j hi hj, hc])
      unfold solveInPlace
      apply forRangeDown_backSubstRow_unique (compute S self A).m_qr.coeff
        (compute S self A).m_rank b.cols
        (fun i hi => computeFinal_diag_ne_zero S hs heps self A i hi)
        (fun l => X ((compute S self A).m_cols_permutation l) j) j hj
        (compute S self A).m_rank (le_refl _)
      · intro a h1 h2
        omega
      · intro a ha
        rw [hc']
        unfold gmul
        rw [if_pos ⟨by omega, hj⟩,
          sum_reducedMatrix_row A.rows A.cols (compute S self A).m_rank _
            (fun l => X ((compute S self A).m_cols_permutation l) j) a ha (by omega)
            (by omega)]
        rw [hrr, hc]
      · rw [hrr]
        omega

end SolveCorrect

section SolveExact

variable {K : Type} [LinearOrderedField K]

theorem sum_reducedMatrix_row_zero (rows cols r : Nat) (q : Nat → Nat → K) (z : Nat → K)
    (a : Nat) (ha : r ≤ a) (har : a < rows)
    (hexact : ∀ i j, r ≤ i → i < rows → r ≤ j → j < cols → q i j = 0) :
    ∑ l ∈ Finset.range cols, reducedMatrix rows r q a l * z l = 0 := by
  apply Finset.sum_eq_zero
  intro l hl
  have := Finset.mem_range.mp hl
  unfold reducedMatrix
  by_cases h : l < r
  · rw [if_pos ⟨h, by omega, har⟩, zero_mul]
  · rw [if_neg (fun h' => h h'.1), hexact a l ha har (by omega) this, zero_mul]

theorem maxCoeff_abs_nonneg (f : Nat → Nat → K) (nr nc : Nat) :
    0 ≤ (maxCoeff (fun i j => abs (f i j)) nr nc).1 := by
  obtain ⟨-, h2, -⟩ := foldl_visitMax_spec (fun i j => abs (f i j)) (blockPositions nr nc)
    (abs (f 0 0), 0, 0)
  exact le_trans (abs_nonneg (f 0 0)) h2

theorem solve_dims (S : ScalarOps K) (dec : FullPivHouseholderQR K) (b dst : DenseMatrix K)
    (hinit : dec.m_isInitialized = true) (hb : b.rows = dec.m_qr.rows)
    (hr : dec.m_rank ≤ dec.m_qr.cols)
    (hinj : Set.InjOn dec.m_cols_permutation (Set.Iio dec.m_qr.cols)) :
    (solve S dec b dst).dst.rows = dec.m_qr.cols ∧ (solve S dec b dst).dst.cols = b.cols := by
  by_cases h0 : dec.m_rank = 0
  · rw [solve_of_rank_zero S dec b dst hinit hb h0]
    exact ⟨rfl, rfl⟩
  · by_cases hf : consistencyCheckFails S dec b
    · rw [solve_of_check_fails S dec b dst hinit hb h0 hf]
      exact ⟨rfl, rfl⟩
    · rw [evalTo_of_check_passes S dec b dst hinit hb h0 hf]
      obtain ⟨u1, u2, -⟩ := unpermute_spec dec.m_cols_permutation
        (solveInPlace dec.m_qr.coeff dec.m_rank b.cols (transformedRhs dec b))
        dec.m_rank dec.m_qr.cols (resize dst dec.m_qr.cols b.cols) hr hinj
      exact ⟨u1, u2⟩

/-- C3 (amended): for every matrix A and right-hand side b with as many rows as A such
that `A x = b` has a solution, provided that the rank decision was exact (the working
matrix is zero in the rows and columns from `rank` on, as it always is when
`rank() == min(R,C)`), `solve(b)` returns an x with `A x = b`, in exact arithmetic. -/
theorem solve_solves_when_rank_exact (S : ScalarOps K)
    (hs : ∀ x, 0 ≤ x → S.sqrt x * S.sqrt x = x) (heps : 0 ≤ S.epsilon)
    (self : FullPivHouseholderQR K) (A b dst : DenseMatrix K) (X : Nat → Nat → K)
    (hbr : b.rows = A.rows)
    (hb : ∀ i j, i < A.rows → j < b.cols →
      b.coeff i j = ∑ l ∈ Finset.range A.cols, A.coeff i l * X l j)
    (hexact : ∀ i j, (compute S self A).m_rank ≤ i → i < A.rows →
      (compute S self A).m_rank ≤ j → j < A.cols → (compute S self A).m_qr.coeff i j = 0) :
    (solve S (compute S self A) b dst).failure = none ∧
    (solve S (compute S self A) b dst).dst.rows = A.cols ∧
    (solve S (compute S self A) b dst).dst.cols = b.cols ∧
    ∀ i j, i < A.rows → j < b.cols →
      ∑ l ∈ Finset.range A.cols, A.coeff i l * (solve S (compute S self A) b dst).dst.coeff l j =
        b.coeff i j := by
  have hinit : (compute S self A).m_isInitialized = true := rfl
  have hrows : (compute S self A).m_qr.rows = A.rows := rfl
  have hcols : (compute S self A).m_qr.cols = A.cols := rfl
  obtain ⟨hrk, htr, hfill⟩ := computeFinal_bounds S self A
  have hrk' : (compute S self A).m_rank ≤ min A.rows A.cols := hrk
  have hminr : min A.rows A.cols ≤ A.rows := Nat.min_le_left _ _
  have hminc : min A.rows A.cols ≤ A.cols := Nat.min_le_right _ _
  obtain ⟨-, hundo⟩ := computeFinal_factorized S hs self A
  have hperm : Set.BijOn (compute S self A).m_cols_permutation (Set.Iio A.cols)
      (Set.Iio A.cols) :=
    colsPermutationOf_bijOn _ A.cols _ (fun i hi => ⟨by omega, (htr i hi).2.2.2⟩)
  have hc := transformedRhs_of_solution S hs self A b X hb
  have hbu := rhs_eq_undoAll_product S hs self A b X hb
  rw [← hc] at hbu
  -- the transformed right-hand side, row by row
  have hclow : ∀ i j, (compute S self A).m_rank ≤ i → i < A.rows → j < b.cols →
      transformedRhs (compute S self A) b i j = 0 := by
    intro i j h1 h2 h3
    rw [hc]
    unfold gmul
    rw [if_pos ⟨h2, h3⟩]
    exact sum_reducedMatrix_row_zero A.rows A.cols _ _
      (fun l => X ((compute S self A).m_cols_permutation l) j) i h1 h2 hexact
  have hdims := solve_dims S (compute S self A) b dst hinit (by rw [hrows]; exact hbr)
    (by rw [hcols]; omega) hperm.injOn
  refine ⟨?_, hdims.1, hdims.2, ?_⟩
  · unfold solve evalTo
    simp only [hinit, hrows, hbr, if_true, ne_eq, not_true_eq_false, if_false]
    split_ifs <;> rfl
  intro i j hi hj
  by_cases h0 : (compute S self A).m_rank = 0
  · rw [solve_of_rank_zero S _ b dst hinit (by rw [hrows]; exact hbr) h0]
    have hbz : b.coeff i j = 0 := by
      have := hclow i j (by omega) hi hj
      unfold transformedRhs at this
      rw [h0] at this
      exact this
    rw [hbz]
    apply Finset.sum_eq_zero
    intro l hl
    have hl' := Finset.mem_range.mp hl
    show A.coeff i l * (if l < A.cols ∧ j < b.cols then 0 else dst.coeff l j) = 0
    rw [if_pos ⟨hl', hj⟩, mul_zero]
  · have hpass : ¬ consistencyCheckFails S (compute S self A) b := by
      rintro ⟨hns, hfail⟩
      rw [hrows] at hns hfail
      obtain ⟨m1, m2, m3, -⟩ := maxCoeff_spec
        (fun i j => abs (transformedRhs (compute S self A) b ((compute S self A).m_rank + i) j))
        (A.rows - (compute S self A).m_rank) b.cols (by omega) (by omega)
      have hlow : (maxCoeff (fun i j =>
          abs (transformedRhs (compute S self A) b ((compute S self A).m_rank + i) j))
          (A.rows - (compute S self A).m_rank) b.cols).1 = 0 := by
        rw [m3]
        rw [hclow _ _ (by omega) (by omega) m2, abs_zero]
      rw [hlow] at hfail
      have hup := maxCoeff_abs_nonneg (transformedRhs (compute S self A) b)
        (compute S self A).m_rank b.cols
      have hprec : 0 ≤ S.epsilon * ((min A.rows A.cols : Nat) : K) :=
        mul_nonneg heps (Nat.cast_nonneg _)
      unfold isMuchSmallerThan at hfail
      rw [hcols] at hfail
      have := mul_nonneg hprec hup
      simp only [decide_eq_false_iff_not, not_le] at hfail
      exact absurd this (not_le.mpr hfail)
    rw [evalTo_of_check_passes S _ b dst hinit (by rw [hrows]; exact hbr) h0 hpass]
    obtain ⟨-, -, u3⟩ := unpermute_spec (compute S self A).m_cols_permutation
      (solveInPlace (compute S self A).m_qr.coeff (compute S self A).m_rank b.cols
        (transformedRhs (compute S self A) b))
      (compute S self A).m_rank (compute S self A).m_qr.cols
      (resize dst (compute S self A).m_qr.cols b.cols) (by rw [hcols]; omega) hperm.injOn
    simp only []
    generalize hx : (forRange (fun i d => setZeroRow d ((compute S self A).m_cols_permutation i))
      (compute S self A).m_rank ((compute S self A).m_qr.cols - (compute S self A).m_rank)
      (forRange (fun i d => assignRow d ((compute S self A).m_cols_permutation i)
        (solveInPlace (compute S self A).m_qr.coeff (compute S self A).m_rank b.cols
          (transformedRhs (compute S self A) b)) i) 0 (compute S self A).m_rank
        (resize dst (compute S self A).m_qr.cols b.cols))) = x at u3 ⊢
    generalize hc1 : solveInPlace (compute S self A).m_qr.coeff (compute S self A).m_rank
      b.cols (transformedRhs (compute S self A) b) = c1 at u3
    -- the permuted solution
    have e1 : ∑ l ∈ Finset.range A.cols, A.coeff i l * x.coeff l j =
        gmul A.rows A.cols b.cols (transformedRhs (compute S self A) b)
          (permuteCols A.coeff A.rows A.cols (compute S self A).m_cols_permutation)
          (fun l j => if l < (compute S self A).m_rank then c1 l j else 0) i j := by
      unfold gmul
      rw [if_pos ⟨hi, hj⟩, ← sum_permuted _ A.cols hperm (fun l => A.coeff i l * x.coeff l j)]
      apply Finset.sum_congr rfl
      intro l hl
      have hl' := Finset.mem_range.mp hl
      unfold permuteCols
      rw [if_pos ⟨hi, hl'⟩, u3 l j (by rw [hcols]; exact hl') hj]
    have htr' : ∀ k, k < min A.rows A.cols →
        k < A.rows ∧ (compute S self A).m_rows_transpositions k < A.rows :=
      fun k hk => ⟨by omega, (htr k hk).2.1⟩
    have hfill' : ∀ i, (compute S self A).m_rank ≤ i → i < min A.rows A.cols →
        (compute S self A).m_hCoeffs i = 0 ∧ (compute S self A).m_rows_transpositions i = i :=
      fun i h1 h2 => ⟨(hfill i h1 h2).1, (hfill i h1 h2).2.1⟩
    have hp : permuteCols A.coeff A.rows A.cols (compute S self A).m_cols_permutation =
        undoAll A.rows A.cols (compute S self A).m_qr.coeff (compute S self A).m_hCoeffs
          (compute S self A).m_rows_transpositions (min A.rows A.cols)
          (reducedMatrix A.rows (compute S self A).m_rank (compute S self A).m_qr.coeff) :=
      hundo.symm
    -- the reduced matrix times the solved block is the transformed right-hand side
    have e2 : gmul A.rows A.cols b.cols (transformedRhs (compute S self A) b)
        (reducedMatrix A.rows (compute S self A).m_rank (compute S self A).m_qr.coeff)
        (fun l j => if l < (compute S self A).m_rank then c1 l j else 0) =
        transformedRhs (compute S self A) b := by
      funext a b'
      unfold gmul
      by_cases h : a < A.rows ∧ b' < b.cols
      · rw [if_pos h]
        by_cases har : a < (compute S self A).m_rank
        · rw [sum_reducedMatrix_row A.rows A.cols (compute S self A).m_rank _
            (fun l => if l < (compute S self A).m_rank then c1 l b' else 0) a har h.1
            (by omega),
            ← Finset.sum_Ico_consecutive _ (le_of_lt har)
              (by omega : (compute S self A).m_rank ≤ A.cols)]
          have z2 : ∑ l ∈ Finset.Ico (compute S self A).m_rank A.cols,
              (compute S self A).m_qr.coeff a l *
                (if l < (compute S self A).m_rank then c1 l b' else 0) = 0 := by
            apply Finset.sum_eq_zero
            intro l hl
            have := Finset.mem_Ico.mp hl
            rw [if_neg (by omega), mul_zero]
          have z1 : ∑ l ∈ Finset.Ico a (compute S self A).m_rank,
              (compute S self A).m_qr.coeff a l *
                (if l < (compute S self A).m_rank then c1 l b' else 0) =
              ∑ l ∈ Finset.Ico a (compute S self A).m_rank,
                (compute S self A).m_qr.coeff a l * c1 l b' := by
            apply Finset.sum_congr rfl
            intro l hl
            have := Finset.mem_Ico.mp hl
            rw [if_pos this.2]
          rw [z1, z2, add_zero, ← hc1]
          unfold solveInPlace
          exact forRangeDown_backSubstRow_solves (compute S self A).m_qr.coeff
            (compute S self A).m_rank b.cols
            (fun i hi => computeFinal_diag_ne_zero S hs heps self A i hi)
            (compute S self A).m_rank (le_refl _) _ a b' har h.2
        · rw [sum_reducedMatrix_row_zero A.rows A.cols _ _ _ a (by omega) h.1 hexact,
            hclow a b' (by omega) h.1 h.2]
      · rw [if_neg h]
    rw [e1, hp, ← undoAll_gmul A.rows A.cols b.cols (transformedRhs (compute S self A) b)
      (fun l j => if l < (compute S self A).m_rank then c1 l j else 0)
      (compute S self A).m_qr.coeff (compute S self A).m_hCoeffs
      (compute S self A).m_rows_transpositions (min A.rows A.cols) htr', e2,
      undoAll_stable A.rows b.cols (compute S self A).m_qr.coeff
        (compute S self A).m_hCoeffs (compute S self A).m_rows_transpositions
        (compute S self A).m_rank (min A.rows A.cols) hrk' hfill', ← hbu]

end SolveExact

section RunsInPlace

variable {K : Type} [LinearOrderedField K]

theorem makeHouseholderInPlace_of_tail_zero (S : ScalarOps K) (q : Nat → Nat → K)
    (rows k : Nat) (htail : ∀ i, k < i → i < rows → q i k = 0) :
    makeHouseholderInPlace S q rows k = { qr := q, tau := 0, beta := q k k } := by
  have ht : ∑ i ∈ Finset.Ico (k + 1) rows, q i k * q i k = 0 := by
    apply Finset.sum_eq_zero
    intro i hi
    have := Finset.mem_Ico.mp hi
    rw [htail i (by omega) this.2, mul_zero]
  unfold makeHouseholderInPlace
  simp only [ht, if_true]

theorem pivotStep_qr_of_tail_zero (S : ScalarOps K) (rows cols k : Nat) (s : ComputeState K)
    (hk : k < rows) (hkc : k < cols) (htail : ∀ i, k < i → i < rows → s.qr i k = 0) :
    (pivotStep S rows cols k k k s).qr = s.qr := by
  rw [(pivotStep_qr S rows cols k k k s).1, swapRowTails_self, swapCols_self]
  funext i j
  rw [householderUpdate_eq S rows cols k s.qr hk hkc,
    makeHouseholderInPlace_of_tail_zero S s.qr rows k htail]
  simp only [zero_mul, sub_zero]
  split_ifs with h1 h2
  · rfl
  · rw [h2.1, h2.2]
  · rfl

/-- A run of the main loop of `compute` on a matrix whose pivots already sit on the
diagonal above zero column tails: no exchange happens, the working matrix stays as it is
and the loop stops at the first negligible pivot `r0`. -/
theorem computeLoop_of_pivots_in_place (S : ScalarOps K) (rows cols size : Nat) (prec : K)
    (hsr : size ≤ rows) (hsc : size ≤ cols) (q : Nat → Nat → K) (r0 : Nat) (hr0 : r0 ≤ size)
    (hpiv : ∀ k, k < r0 → (pivotOf q rows cols k).2 = (0, 0))
    (htail : ∀ k, k < r0 → ∀ i, k < i → i < rows → q i k = 0)
    (hkeep : ∀ k, k < r0 →
      isMuchSmallerThan (pivotOf q rows cols k).1 (pivotOf q rows cols 0).1 prec = false)
    (hstop : r0 < size →
      isMuchSmallerThan (pivotOf q rows cols r0).1 (pivotOf q rows cols 0).1 prec = true)
    (s : ComputeState K) (hrank : s.rank = size) (hq : s.qr = q) :
    (computeLoop S rows cols size prec size 0 s).rank = r0 ∧
    (computeLoop S rows cols size prec size 0 s).qr = q := by
  refine computeLoop_rule S rows cols size prec
    (fun k s => s.rank = size ∧ s.qr = q ∧ k ≤ r0 ∧
      (0 < k → s.biggest = (pivotOf q rows cols 0).1))
    (fun f => f.rank = r0 ∧ f.qr = q)
    ?_ ?_ ?_ size 0 s (by omega) ⟨hrank, hq, Nat.zero_le _, fun h => absurd h (lt_irrefl 0)⟩
  · rintro k s hk ⟨hrk, hsq, hkr, hbig⟩ hb
    have hbig' : biggestAt s.qr rows cols k s.biggest = (pivotOf q rows cols 0).1 := by
      unfold biggestAt
      by_cases hk0 : k = 0
      · rw [if_pos hk0, hsq, hk0]
      · rw [if_neg hk0]
        exact hbig (by omega)
    rw [hbig', hsq] at hb
    have hlt : k < r0 := by
      by_contra hcon
      have : k = r0 := by omega
      rw [this, hstop (by omega)] at hb
      cases hb
    have hp := hpiv k hlt
    rw [hbig', hsq]
    have e1 : (pivotOf q rows cols k).2.1 + k = k := by rw [hp]; simp
    have e2 : (pivotOf q rows cols k).2.2 + k = k := by rw [hp]; simp
    rw [e1, e2]
    refine ⟨hrk, ?_, by omega, fun _ => rfl⟩
    rw [pivotStep_qr_of_tail_zero S rows cols k _ (by omega) (by omega)
      (fun i h1 h2 => htail k hlt i h1 h2)]
  · rintro k s hk ⟨hrk, hsq, hkr, hbig⟩ hb
    have hbig' : biggestAt s.qr rows cols k s.biggest = (pivotOf q rows cols 0).1 := by
      unfold biggestAt
      by_cases hk0 : k = 0
      · rw [if_pos hk0, hsq, hk0]
      · rw [if_neg hk0]
        exact hbig (by omega)
    rw [hbig', hsq] at hb
    have hkeq : k = r0 := by
      by_contra hcon
      have hlt : k < r0 := by omega
      rw [hkeep k hlt] at hb
      cases hb
    obtain ⟨e1, e2, -⟩ := forRange_fillStep (size - k) k
      { s with biggest := biggestAt s.qr rows cols k s.biggest, rank := k }
    exact ⟨by rw [e2]; exact hkeq, by rw [e1]; exact hsq⟩
  · rintro s ⟨hrk, hsq, hkr, -⟩
    exact ⟨by omega, hsq⟩



end RunsInPlace

section Witnesses

theorem realDiag3_pivots :
    pivotOf realDiag3.coeff 3 3 0 = (3, 0, 0) ∧ pivotOf realDiag3.coeff 3 3 1 = (2, 0, 0) ∧
    pivotOf realDiag3.coeff 3 3 2 = (1, 0, 0) := by
  refine ⟨?_, ?_, ?_⟩
  · simp [pivotOf, maxCoeff, blockPositions, visitMax, List.range_succ, realDiag3]
    norm_num
  · simp [pivotOf, maxCoeff, blockPositions, visitMax, List.range_succ, realDiag3]
    norm_num
  · simp [pivotOf, maxCoeff, blockPositions, visitMax, List.range_succ, realDiag3]

theorem realDiag3_rank (eps : ℝ) (h1 : eps < 1 / 9) (log : ℝ → ℝ) :
    (compute (ScalarOps.mk eps Real.sqrt log) realFresh realDiag3).m_rank = 3 := by
  obtain ⟨p0, p1, p2⟩ := realDiag3_pivots
  have hp : ∀ k, k < 3 → (pivotOf realDiag3.coeff 3 3 k).2 = (0, 0) := by
    intro k hk
    interval_cases k
    · rw [p0]
    · rw [p1]
    · rw [p2]
  refine (computeLoop_of_pivots_in_place (ScalarOps.mk eps Real.sqrt log) 3 3 3
    (eps * ((3 : ℕ) : ℝ)) (le_refl _) (le_refl _) realDiag3.coeff 3 (le_refl _) hp ?_ ?_
    (fun h => absurd h (lt_irrefl 3)) (computeInit realFresh realDiag3) rfl rfl).1
  · intro k hk i h1 h2
    interval_cases k <;> interval_cases i <;> simp [realDiag3]
  · intro k hk
    interval_cases k
    · rw [p0]
      simp only [isMuchSmallerThan, decide_eq_false_iff_not, not_le]
      push_cast
      nlinarith
    · rw [p0, p1]
      simp only [isMuchSmallerThan, decide_eq_false_iff_not, not_le]
      push_cast
      nlinarith
    · rw [p0, p2]
      simp only [isMuchSmallerThan, decide_eq_false_iff_not, not_le]
      push_cast
      nlinarith

theorem realSingular2_run (eps : ℝ) (h0 : 0 ≤ eps) (h1 : eps < 1 / 4) (log : ℝ → ℝ) :
    (compute (ScalarOps.mk eps Real.sqrt log) realFresh realSingular2).m_rank = 1 ∧
    (compute (ScalarOps.mk eps Real.sqrt log) realFresh realSingular2).m_qr.coeff =
      realSingular2.coeff := by
  have p0 : pivotOf realSingular2.coeff 2 2 0 = (1, 0, 0) := by
    simp [pivotOf, maxCoeff, blockPositions, visitMax, List.range_succ, realSingular2]
    norm_num
  have p1 : pivotOf realSingular2.coeff 2 2 1 = (0, 0, 0) := by
    simp [pivotOf, maxCoeff, blockPositions, visitMax, List.range_succ, realSingular2]
  refine computeLoop_of_pivots_in_place (ScalarOps.mk eps Real.sqrt log) 2 2 2
    (eps * ((2 : ℕ) : ℝ)) (le_refl _) (le_refl _) realSingular2.coeff 1 (by decide) ?_ ?_ ?_ ?_
    (computeInit realFresh realSingular2) rfl rfl
  · intro k hk
    interval_cases k
    rw [p0]
  · intro k hk i h1 h2
    interval_cases k
    interval_cases i
    simp [realSingular2]
  · intro k hk
    interval_cases k
    rw [p0]
    simp only [isMuchSmallerThan, decide_eq_false_iff_not, not_le]
    push_cast
    nlinarith
  · intro _
    rw [p0, p1]
    simp only [isMuchSmallerThan, decide_eq_true_eq]
    push_cast
    nlinarith

/-- Witness of C1: the real matrix diag(3, 2, 1), for which `compute` reports rank 3. -/
theorem matrixQ_mul_R_eq_permuted_input_witness :
    (∀ x : ℝ, 0 ≤ x → Real.sqrt x * Real.sqrt x = x) ∧
    realDiag3.rows = 3 ∧ realDiag3.cols = 3 ∧
    rank (compute (ScalarOps.mk (1 / 2 ^ 52) Real.sqrt Real.log) realFresh realDiag3) =
      Except.ok 3 ∧
    ∃ Q : DenseMatrix ℝ,
      matrixQ (compute (ScalarOps.mk (1 / 2 ^ 52) Real.sqrt Real.log) realFresh realDiag3) =
        Except.ok Q ∧ Q.rows = 3 ∧ Q.cols = 3 ∧
      ∀ i j, i < 3 → j < 3 →
        ∑ l ∈ Finset.range 3,
          Q.coeff i l *
            (if l ≤ j then
              (compute (ScalarOps.mk (1 / 2 ^ 52) Real.sqrt Real.log) realFresh
                realDiag3).m_qr.coeff l j
            else 0) =
        realDiag3.coeff i
          ((compute (ScalarOps.mk (1 / 2 ^ 52) Real.sqrt Real.log) realFresh
            realDiag3).m_cols_permutation j) :=
  ⟨fun _ hx => Real.mul_self_sqrt hx, rfl, rfl,
    congrArg Except.ok (realDiag3_rank (1 / 2 ^ 52) (by norm_num) Real.log),
    matrixQ_mul_R_eq_permuted_input (ScalarOps.mk (1 / 2 ^ 52) Real.sqrt Real.log)
      (fun _ hx => Real.mul_self_sqrt hx) realFresh realDiag3 3 rfl rfl
      (congrArg Except.ok (realDiag3_rank (1 / 2 ^ 52) (by norm_num) Real.log))⟩

theorem isInvertible_of_rank {K : Type} [LinearOrderedField K]
    (dec : FullPivHouseholderQR K) (hi : dec.m_isInitialized = true)
    (hc : dec.m_rank = dec.m_qr.cols) (hr : dec.m_rank = dec.m_qr.rows) :
    isInvertible dec = Except.ok true := by
  simp [isInvertible, isInjective, isSurjective, hi, ← hc, ← hr, bind, Except.bind, pure,
    Except.pure]

theorem realDiag3_invertible :
    isInvertible (compute (ScalarOps.mk (1 / 2 ^ 52) Real.sqrt Real.log) realFresh realDiag3) =
      Except.ok true :=
  isInvertible_of_rank _ rfl (realDiag3_rank (1 / 2 ^ 52) (by norm_num) Real.log)
    (realDiag3_rank (1 / 2 ^ 52) (by norm_num) Real.log)

theorem realRhs3_eq (i j : Nat) (hi : i < 3) (_ : j < realRhs3.cols) :
    realRhs3.coeff i j =
      ∑ l ∈ Finset.range 3, realDiag3.coeff i l * (fun l _ => ((l : ℝ) + 1)) l j := by
  interval_cases i <;> simp [realRhs3, realDiag3, Finset.sum_range_succ] <;> norm_num

/-- Witness of C2: the invertible real 3-by-3 matrix diag(3, 2, 1) and x = (1, 2, 3). -/
theorem solve_recovers_expected_witness :
    (∀ x : ℝ, 0 ≤ x → Real.sqrt x * Real.sqrt x = x) ∧ (0 : ℝ) ≤ 1 / 2 ^ 52 ∧
    realDiag3.rows = 3 ∧ realDiag3.cols = 3 ∧
    isInvertible (compute (ScalarOps.mk (1 / 2 ^ 52) Real.sqrt Real.log) realFresh realDiag3) =
      Except.ok true ∧
    realRhs3.rows = 3 ∧
    (∀ i j, i < 3 → j < realRhs3.cols → realRhs3.coeff i j =
      ∑ l ∈ Finset.range 3, realDiag3.coeff i l * (fun l _ => ((l : ℝ) + 1)) l j) ∧
    (solve (ScalarOps.mk (1 / 2 ^ 52) Real.sqrt Real.log)
      (compute (ScalarOps.mk (1 / 2 ^ 52) Real.sqrt Real.log) realFresh realDiag3)
      realRhs3 realDst).failure = none ∧
    (solve (ScalarOps.mk (1 / 2 ^ 52) Real.sqrt Real.log)
      (compute (ScalarOps.mk (1 / 2 ^ 52) Real.sqrt Real.log) realFresh realDiag3)
      realRhs3 realDst).dst.rows = 3 ∧
    (solve (ScalarOps.mk (1 / 2 ^ 52) Real.sqrt Real.log)
      (compute (ScalarOps.mk (1 / 2 ^ 52) Real.sqrt Real.log) realFresh realDiag3)
      realRhs3 realDst).dst.cols = realRhs3.cols ∧
    ∀ i j, i < 3 → j < realRhs3.cols →
      (solve (ScalarOps.mk (1 / 2 ^ 52) Real.sqrt Real.log)
        (compute (ScalarOps.mk (1 / 2 ^ 52) Real.sqrt Real.log) realFresh realDiag3)
        realRhs3 realDst).dst.coeff i j = (fun l _ => ((l : ℝ) + 1)) i j :=
  ⟨fun _ hx => Real.mul_self_sqrt hx, by norm_num, rfl, rfl, realDiag3_invertible, rfl,
    realRhs3_eq,
    solve_recovers_expected (ScalarOps.mk (1 / 2 ^ 52) Real.sqrt Real.log)
      (fun _ hx => Real.mul_self_sqrt hx) (by norm_num) realFresh realDiag3 3 rfl rfl
      realDiag3_invertible (fun l _ => ((l : ℝ) + 1)) realRhs3 realDst rfl realRhs3_eq⟩

/-- C3 (as stated, refuted): for diag(1, 2^-52) and the right-hand side (1, 2^-52) the
solution (1, 1) exists, but `compute` finds rank 1 and `solve` returns (1, 0), which does
not satisfy the second equation. -/
theorem solve_drops_negligible_pivot :
    (∃ x : Nat → ℚ, ∀ i, i < 2 →
      ∑ l ∈ Finset.range 2, exampleNearSingular.coeff i l * x l = exampleNearRhs.coeff i 0) ∧
    ¬ (∀ i, i < 2 →
      ∑ l ∈ Finset.range 2, exampleNearSingular.coeff i l *
        (solve exampleOps (compute exampleOps exampleFresh exampleNearSingular) exampleNearRhs
          exampleDst).dst.coeff l 0 = exampleNearRhs.coeff i 0) := by
  constructor
  · refine ⟨fun _ => 1, ?_⟩
    decide!
  · intro h
    have h1 := h 1 (by decide)
    revert h1
    decide!

theorem realRhs2_eq (i j : Nat) (hi : i < realSingular2.rows) (_ : j < realRhs2.cols) :
    realRhs2.coeff i j =
      ∑ l ∈ Finset.range realSingular2.cols,
        realSingular2.coeff i l * (fun l _ => if l = 0 then (1 : ℝ) else 5) l j := by
  have hi' : i < 2 := hi
  show realRhs2.coeff i j = ∑ l ∈ Finset.range 2, _
  interval_cases i <;> simp [realRhs2, realSingular2, Finset.sum_range_succ]

theorem realSingular2_exact (i j : Nat)
    (h1 : (compute (ScalarOps.mk (1 / 2 ^ 52) Real.sqrt Real.log) realFresh
      realSingular2).m_rank ≤ i) (h2 : i < realSingular2.rows)
    (h3 : (compute (ScalarOps.mk (1 / 2 ^ 52) Real.sqrt Real.log) realFresh
      realSingular2).m_rank ≤ j) (h4 : j < realSingular2.cols) :
    (compute (ScalarOps.mk (1 / 2 ^ 52) Real.sqrt Real.log) realFresh
      realSingular2).m_qr.coeff i j = 0 := by
  obtain ⟨hr, hq⟩ := realSingular2_run (1 / 2 ^ 52) (by norm_num) (by norm_num) Real.log
  rw [hr] at h1 h3
  rw [hq]
  have h2' : i < 2 := h2
  have h4' : j < 2 := h4
  interval_cases i
  interval_cases j
  simp [realSingular2]

/-- Witness of C3 (amended): the singular real matrix with rows (1, 0), (0, 0), of rank
1 with an exactly zero trailing block, and the right-hand side (1, 0). -/
theorem solve_solves_when_rank_exact_witness :
    (∀ x : ℝ, 0 ≤ x → Real.sqrt x * Real.sqrt x = x) ∧ (0 : ℝ) ≤ 1 / 2 ^ 52 ∧
    realRhs2.rows = realSingular2.rows ∧
    (compute (ScalarOps.mk (1 / 2 ^ 52) Real.sqrt Real.log) realFresh realSingular2).m_rank
      = 1 ∧
    (solve (ScalarOps.mk (1 / 2 ^ 52) Real.sqrt Real.log)
      (compute (ScalarOps.mk (1 / 2 ^ 52) Real.sqrt Real.log) realFresh realSingular2)
      realRhs2 realDst).failure = none ∧
    (solve (ScalarOps.mk (1 / 2 ^ 52) Real.sqrt Real.log)
      (compute (ScalarOps.mk (1 / 2 ^ 52) Real.sqrt Real.log) realFresh realSingular2)
      realRhs2 realDst).dst.rows = realSingular2.cols ∧
    (solve (ScalarOps.mk (1 / 2 ^ 52) Real.sqrt Real.log)
      (compute (ScalarOps.mk (1 / 2 ^ 52) Real.sqrt Real.log) realFresh realSingular2)
      realRhs2 realDst).dst.cols = realRhs2.cols ∧
    ∀ i j, i < realSingular2.rows → j < realRhs2.cols →
      ∑ l ∈ Finset.range realSingular2.cols, realSingular2.coeff i l *
        (solve (ScalarOps.mk (1 / 2 ^ 52) Real.sqrt Real.log)
          (compute (ScalarOps.mk (1 / 2 ^ 52) Real.sqrt Real.log) realFresh realSingular2)
          realRhs2 realDst).dst.coeff l j = realRhs2.coeff i j :=
  ⟨fun _ hx => Real.mul_self_sqrt hx, by norm_num, rfl,
    (realSingular2_run (1 / 2 ^ 52) (by norm_num) (by norm_num) Real.log).1,
    solve_solves_when_rank_exact (ScalarOps.mk (1 / 2 ^ 52) Real.sqrt Real.log)
      (fun _ hx => Real.mul_self_sqrt hx) (by norm_num) realFresh realSingular2 realRhs2
      realDst (fun l _ => if l = 0 then (1 : ℝ) else 5) rfl realRhs2_eq realSingular2_exact⟩

/-- A run with a proper reflection, over the rationals: for the matrix with rows
(3, 0, 4), (0, 5, 0), (4, 0, -3) the rank is 3 and `matrixQ() * R` is the input with its
columns permuted. -/
theorem exampleReflected_reconstruction :
    (compute exampleOps exampleFresh exampleReflected).m_rank = 3 ∧
    ∀ i, i < 3 → ∀ j, j < 3 →
      ∑ l ∈ Finset.range 3,
        forRangeDown (matrixQStep (compute exampleOps exampleFresh exampleReflected) 3) 3
          (fun i j => if i = j then 1 else 0) i l *
        (if l ≤ j then (compute exampleOps exampleFresh exampleReflected).m_qr.coeff l j else 0) =
      exampleReflected.coeff i
        ((compute exampleOps exampleFresh exampleReflected).m_cols_permutation j) := by
  decide!

/-- The same run: `solve` recovers (1, 1, 1) from the right-hand side (7, 5, 1). -/
theorem exampleReflected_solve :
    ∀ i, i < 3 →
      (solve exampleOps (compute exampleOps exampleFresh exampleReflected) exampleRhs3
        exampleDst).dst.coeff i 0 = 1 := by
  decide!

end Witnesses

section Queries

variable {K : Type} [LinearOrderedField K]

theorem evalTo_failure (S : ScalarOps K) (dec : FullPivHouseholderQR K) (b dst : DenseMatrix K) :
    (evalTo S dec b dst).failure = none ∨
      (evalTo S dec b dst).failure = some AssertFailure.rhsRowsMismatch := by
  unfold evalTo
  simp only []
  split_ifs
  · exact Or.inr rfl
  · exact Or.inl rfl
  · exact Or.inl rfl
  · exact Or.inl rfl

theorem solve_initialized_failure (S : ScalarOps K) (dec : FullPivHouseholderQR K)
    (hi : dec.m_isInitialized = true) (b dst : DenseMatrix K) :
    (solve S dec b dst).failure ≠ some AssertFailure.notInitialized := by
  unfold solve
  rw [if_pos hi]
  rcases evalTo_failure S dec b dst with h | h <;> rw [h] <;> simp

/-- C11: on an object on which `compute` has never been called (`m_isInitialized` is
false), each of `rank`, `dimensionOfKernel`, `isInjective`, `isSurjective`, `isInvertible`,
`absDeterminant`, `logAbsDeterminant`, `matrixQ`, `solve` and `inverse` fails with the
"not initialized" assertion; after a call of `compute` (on any object, for any matrix)
none of them fails with that assertion. -/
theorem queries_fail_exactly_when_not_initialized (S : ScalarOps K)
    (fresh : FullPivHouseholderQR K) (hfresh : fresh.m_isInitialized = false)
    (self : FullPivHouseholderQR K) (matrix b dst : DenseMatrix K) :
    (rank fresh = Except.error AssertFailure.notInitialized ∧
      dimensionOfKernel fresh = Except.error AssertFailure.notInitialized ∧
      isInjective fresh = Except.error AssertFailure.notInitialized ∧
      isSurjective fresh = Except.error AssertFailure.notInitialized ∧
      isInvertible fresh = Except.error AssertFailure.notInitialized ∧
      absDeterminant fresh = Except.error AssertFailure.notInitialized ∧
      logAbsDeterminant S fresh = Except.error AssertFailure.notInitialized ∧
      matrixQ fresh = Except.error AssertFailure.notInitialized ∧
      (solve S fresh b dst).failure = some AssertFailure.notInitialized ∧
      (inverse S fresh dst).failure = some AssertFailure.notInitialized) ∧
    (rank (compute S self matrix) ≠ Except.error AssertFailure.notInitialized ∧
      dimensionOfKernel (compute S self matrix) ≠ Except.error AssertFailure.notInitialized ∧
      isInjective (compute S self matrix) ≠ Except.error AssertFailure.notInitialized ∧
      isSurjective (compute S self matrix) ≠ Except.error AssertFailure.notInitialized ∧
      isInvertible (compute S self matrix) ≠ Except.error AssertFailure.notInitialized ∧
      absDeterminant (compute S self matrix) ≠ Except.error AssertFailure.notInitialized ∧
      logAbsDeterminant S (compute S self matrix) ≠
        Except.error AssertFailure.notInitialized ∧
      matrixQ (compute S self matrix) ≠ Except.error AssertFailure.notInitialized ∧
      (solve S (compute S self matrix) b dst).failure ≠ some AssertFailure.notInitialized ∧
      (inverse S (compute S self matrix) dst).failure ≠ some AssertFailure.notInitialized) := by
  refine ⟨⟨?_, ?_, ?_, ?_, ?_, ?_, ?_, ?_, ?_, ?_⟩, ⟨?_, ?_, ?_, ?_, ?_, ?_, ?_, ?_, ?_, ?_⟩⟩
  · simp [rank, hfresh]
  · simp [dimensionOfKernel, hfresh]
  · simp [isInjective, hfresh]
  · simp [isSurjective, hfresh]
  · simp [isInvertible, hfresh]
  · simp [absDeterminant, hfresh]
  · simp [logAbsDeterminant, hfresh]
  · simp [matrixQ, hfresh]
  · simp [solve, hfresh]
  · simp [inverse, solve, hfresh]
  · simp [rank, compute]
  · simp [dimensionOfKernel, compute]
  · simp [isInjective, compute]
  · simp [isSurjective, compute]
  · simp [isInvertible, isInjective, isSurjective, compute, bind, Except.bind, pure, Except.pure]
  · unfold absDeterminant
    rw [if_pos (show (compute S self matrix).m_isInitialized = true from rfl)]
    split_ifs <;> simp
  · unfold logAbsDeterminant
    rw [if_pos (show (compute S self matrix).m_isInitialized = true from rfl)]
    split_ifs <;> simp
  · simp [matrixQ, compute]
  · exact solve_initialized_failure S _ rfl b dst
  · exact solve_initialized_failure S _ rfl _ dst

/-- Witness of C11: the default-constructed object `exampleFresh`, and `compute` called on
it for the zero 3-by-3 matrix. -/
theorem queries_fail_exactly_when_not_initialized_witness :
    exampleFresh.m_isInitialized = false ∧
    (rank exampleFresh = Except.error AssertFailure.notInitialized ∧
      dimensionOfKernel exampleFresh = Except.error AssertFailure.notInitialized ∧
      isInjective exampleFresh = Except.error AssertFailure.notInitialized ∧
      isSurjective exampleFresh = Except.error AssertFailure.notInitialized ∧
      isInvertible exampleFresh = Except.error AssertFailure.notInitialized ∧
      absDeterminant exampleFresh = Except.error AssertFailure.notInitialized ∧
      logAbsDeterminant exampleOps exampleFresh = Except.error AssertFailure.notInitialized ∧
      matrixQ exampleFresh = Except.error AssertFailure.notInitialized ∧
      (solve exampleOps exampleFresh exampleRhs3 exampleDst).failure =
        some AssertFailure.notInitialized ∧
      (inverse exampleOps exampleFresh exampleDst).failure =
        some AssertFailure.notInitialized) ∧
    (rank (compute exampleOps exampleFresh exampleZero3) ≠
        Except.error AssertFailure.notInitialized ∧
      dimensionOfKernel (compute exampleOps exampleFresh exampleZero3) ≠
        Except.error AssertFailure.notInitialized ∧
      isInjective (compute exampleOps exampleFresh exampleZero3) ≠
        Except.error AssertFailure.notInitialized ∧
      isSurjective (compute exampleOps exampleFresh exampleZero3) ≠
        Except.error AssertFailure.notInitialized ∧
      isInvertible (compute exampleOps exampleFresh exampleZero3) ≠
        Except.error AssertFailure.notInitialized ∧
      absDeterminant (compute exampleOps exampleFresh exampleZero3) ≠
        Except.error AssertFailure.notInitialized ∧
      logAbsDeterminant exampleOps (compute exampleOps exampleFresh exampleZero3) ≠
        Except.error AssertFailure.notInitialized ∧
      matrixQ (compute exampleOps exampleFresh exampleZero3) ≠
        Except.error AssertFailure.notInitialized ∧
      (solve exampleOps (compute exampleOps exampleFresh exampleZero3) exampleRhs3
        exampleDst).failure ≠ some AssertFailure.notInitialized ∧
      (inverse exampleOps (compute exampleOps exampleFresh exampleZero3) exampleDst).failure ≠
        some AssertFailure.notInitialized) :=
  ⟨rfl, queries_fail_exactly_when_not_initialized exampleOps exampleFresh rfl exampleFresh
    exampleZero3 exampleRhs3 exampleDst⟩

end Queries

section Determinants

variable {K : Type} [LinearOrderedField K]

/-- C12: after `compute` on an R-by-C matrix with R != C, `absDeterminant` and
`logAbsDeterminant` fail with the "not square" assertion and return no value; for R = C
both return a value. -/
theorem determinants_fail_exactly_when_not_square (S : ScalarOps K)
    (self : FullPivHouseholderQR K) (matrix : DenseMatrix K) :
    (matrix.rows ≠ matrix.cols →
      absDeterminant (compute S self matrix) = Except.error AssertFailure.notSquare ∧
      logAbsDeterminant S (compute S self matrix) = Except.error AssertFailure.notSquare) ∧
    (matrix.rows = matrix.cols →
      (∃ d, absDeterminant (compute S self matrix) = Except.ok d) ∧
      ∃ l, logAbsDeterminant S (compute S self matrix) = Except.ok l) := by
  have hi : (compute S self matrix).m_isInitialized = true := rfl
  have hr : (compute S self matrix).m_qr.rows = matrix.rows := rfl
  have hc : (compute S self matrix).m_qr.cols = matrix.cols := rfl
  unfold absDeterminant logAbsDeterminant
  rw [if_pos hi, if_pos hi, hr, hc]
  refine ⟨fun h => ?_, fun h => ?_⟩
  · rw [if_neg h, if_neg h]
    exact ⟨rfl, rfl⟩
  · rw [if_pos h, if_pos h]
    exact ⟨⟨_, rfl⟩, ⟨_, rfl⟩⟩

/-- Witness of C12: the 2-by-1 matrix (1, 0) is refused, the zero 3-by-3 matrix is not. -/
theorem determinants_fail_exactly_when_not_square_witness :
    exampleTall.rows ≠ exampleTall.cols ∧
    (absDeterminant (compute exampleOps exampleFresh exampleTall) =
        Except.error AssertFailure.notSquare ∧
      logAbsDeterminant exampleOps (compute exampleOps exampleFresh exampleTall) =
        Except.error AssertFailure.notSquare) ∧
    exampleZero3.rows = exampleZero3.cols ∧
    ((∃ d, absDeterminant (compute exampleOps exampleFresh exampleZero3) = Except.ok d) ∧
      ∃ l, logAbsDeterminant exampleOps (compute exampleOps exampleFresh exampleZero3) =
        Except.ok l) :=
  ⟨by decide,
    (determinants_fail_exactly_when_not_square exampleOps exampleFresh exampleTall).1 (by decide),
    rfl,
    (determinants_fail_exactly_when_not_square exampleOps exampleFresh exampleZero3).2 rfl⟩

theorem solve_of_rows_mismatch (S : ScalarOps K) (dec : FullPivHouseholderQR K)
    (hi : dec.m_isInitialized = true) (b dst : DenseMatrix K) (hb : b.rows ≠ dec.m_qr.rows) :
    solve S dec b dst =
      { dst := resize dst dec.m_qr.cols b.cols, failure := some AssertFailure.rhsRowsMismatch } := by
  unfold solve evalTo
  rw [if_pos hi]
  simp only []
  rw [if_pos hb]

/-- C13 (the code diverges): for the decomposition of the zero 3-by-3 matrix, a right-hand
side with 2 rows and an empty 0-by-0 destination, `solve` fails with the row-mismatch
assertion, but the destination has already been resized to 3-by-1: `evalTo` executes
`dst.resize` before its assertion. -/
theorem solve_resizes_destination_before_row_check :
    exampleRhs2.rows ≠ (compute exampleOps exampleFresh exampleZero3).m_qr.rows ∧
    exampleDst.rows = 0 ∧ exampleDst.cols = 0 ∧
    (solve exampleOps (compute exampleOps exampleFresh exampleZero3) exampleRhs2
      exampleDst).failure = some AssertFailure.rhsRowsMismatch ∧
    (solve exampleOps (compute exampleOps exampleFresh exampleZero3) exampleRhs2
      exampleDst).dst.rows = 3 ∧
    (solve exampleOps (compute exampleOps exampleFresh exampleZero3) exampleRhs2
      exampleDst).dst.cols = 1 := by
  have h := solve_of_rows_mismatch exampleOps (compute exampleOps exampleFresh exampleZero3) rfl
    exampleRhs2 exampleDst (by decide)
  rw [h]
  exact ⟨by decide, rfl, rfl, rfl, rfl, rfl⟩

theorem log_abs_prod (S : ScalarOps K)
    (hlog : ∀ x y, 0 < x → 0 < y → S.log (x * y) = S.log x + S.log y) (f : Nat → K) (n : Nat)
    (hf : ∀ i, i < n → f i ≠ 0) :
    S.log (abs (∏ i ∈ Finset.range n, f i)) = ∑ i ∈ Finset.range n, S.log (abs (f i)) := by
  have h1 : S.log 1 = 0 := by
    have h := hlog 1 1 one_pos one_pos
    rw [mul_one] at h
    exact self_eq_add_right.mp h
  induction n with
  | zero => simp [h1]
  | succ n ih =>
    have hp : (∏ i ∈ Finset.range n, f i) ≠ 0 :=
      Finset.prod_ne_zero_iff.mpr (fun i hi => hf i (Nat.lt_succ_of_lt (Finset.mem_range.mp hi)))
    rw [Finset.prod_range_succ, Finset.sum_range_succ, abs_mul,
      hlog _ _ (abs_pos.mpr hp) (abs_pos.mpr (hf n (Nat.lt_succ_self n))),
      ih (fun i hi => hf i (Nat.lt_succ_of_lt hi))]

/-- C15: after `compute` on a square matrix, when every stored diagonal entry is non-zero,
`logAbsDeterminant` (the sum of the logarithms of the absolute diagonal values) is the
logarithm of `absDeterminant` (the absolute value of the product of the diagonal); the
logarithm is any function that turns products of positive numbers into sums. -/
theorem logAbsDeterminant_eq_log_absDeterminant (S : ScalarOps K)
    (hlog : ∀ x y, 0 < x → 0 < y → S.log (x * y) = S.log x + S.log y)
    (self : FullPivHouseholderQR K) (matrix : DenseMatrix K)
    (hsq : matrix.rows = matrix.cols)
    (hd : ∀ i, i < matrix.rows → (compute S self matrix).m_qr.coeff i i ≠ 0) :
    ∃ d, absDeterminant (compute S self matrix) = Except.ok d ∧
      logAbsDeterminant S (compute S self matrix) = Except.ok (S.log d) := by
  have hi : (compute S self matrix).m_isInitialized = true := rfl
  have hr : (compute S self matrix).m_qr.rows = matrix.rows := rfl
  have hc : (compute S self matrix).m_qr.cols = matrix.cols := rfl
  unfold absDeterminant logAbsDeterminant
  rw [if_pos hi, if_pos hi, hr, hc, if_pos hsq, if_pos hsq]
  refine ⟨_, rfl, ?_⟩
  rw [log_abs_prod S hlog _ _ (fun i h => hd i (lt_of_lt_of_le h (min_le_left _ _)))]

end Determinants

section RankQueries

variable {K : Type} [LinearOrderedField K]

/-- C16 (as stated, refuted): for the 1-by-2 matrix (1, 0) the rank is 1 and
`dimensionOfKernel` is 1 = C - rank, but min(R, C) minus `dimensionOfKernel` is 0, not the
rank. -/
theorem rank_ne_min_minus_dimensionOfKernel :
    rank (compute exampleOps exampleFresh exampleWide) = Except.ok 1 ∧
    dimensionOfKernel (compute exampleOps exampleFresh exampleWide) = Except.ok 1 ∧
    ((1 : Nat) : Int) ≠ ((min exampleWide.rows exampleWide.cols : Nat) : Int) - 1 := by
  have hr : (compute exampleOps exampleFresh exampleWide).m_rank = 1 := by decide!
  have hi : (compute exampleOps exampleFresh exampleWide).m_isInitialized = true := rfl
  refine ⟨?_, ?_, by decide⟩
  · unfold rank
    rw [if_pos hi, hr]
  · unfold dimensionOfKernel
    rw [if_pos hi, hr]
    rfl

/-- C16 (amended): after `compute` on an R-by-C matrix, `rank` and `dimensionOfKernel`
return values r and d with d = C - r and r = C - d; when C <= R this is
r = min(R, C) - d. -/
theorem rank_and_dimensionOfKernel (S : ScalarOps K) (self : FullPivHouseholderQR K)
    (matrix : DenseMatrix K) :
    ∃ (r : Nat) (d : Int), rank (compute S self matrix) = Except.ok r ∧
      dimensionOfKernel (compute S self matrix) = Except.ok d ∧
      d = (matrix.cols : Int) - (r : Int) ∧ (r : Int) = (matrix.cols : Int) - d ∧
      0 ≤ d ∧
      (matrix.cols ≤ matrix.rows →
        (r : Int) = ((min matrix.rows matrix.cols : Nat) : Int) - d) := by
  have hb := (computeFinal_bounds S self matrix).1
  refine ⟨(computeFinal S self matrix).rank,
    (matrix.cols : Int) - ((computeFinal S self matrix).rank : Int), rfl, rfl, rfl, ?_, ?_, ?_⟩
  · omega
  · have h2 : (computeFinal S self matrix).rank ≤ matrix.cols := le_trans hb (min_le_right _ _)
    omega
  · intro h
    rw [min_eq_right h]
    omega

/-- Witness of C16 (amended): the 2-by-1 matrix (1, 0), where C <= R. -/
theorem rank_and_dimensionOfKernel_witness :
    exampleTall.cols ≤ exampleTall.rows ∧
    ∃ (r : Nat) (d : Int), rank (compute exampleOps exampleFresh exampleTall) = Except.ok r ∧
      dimensionOfKernel (compute exampleOps exampleFresh exampleTall) = Except.ok d ∧
      d = (exampleTall.cols : Int) - (r : Int) ∧ (r : Int) = (exampleTall.cols : Int) - d ∧
      0 ≤ d ∧
      (exampleTall.cols ≤ exampleTall.rows →
        (r : Int) = ((min exampleTall.rows exampleTall.cols : Nat) : Int) - d) :=
  ⟨by decide, rank_and_dimensionOfKernel exampleOps exampleFresh exampleTall⟩

/-- C17: after `compute`, `isInvertible` is the conjunction of `isInjective` and
`isSurjective`; on an R-by-C matrix with R != C these two are never both true, so
`isInvertible` is false. -/
theorem isInvertible_eq_injective_and_surjective (S : ScalarOps K)
    (self : FullPivHouseholderQR K) (matrix : DenseMatrix K) :
    ∃ inj sur : Bool, isInjective (compute S self matrix) = Except.ok inj ∧
      isSurjective (compute S self matrix) = Except.ok sur ∧
      isInvertible (compute S self matrix) = Except.ok (inj && sur) ∧
      (matrix.rows ≠ matrix.cols →
        ¬ (inj = true ∧ sur = true) ∧
        isInvertible (compute S self matrix) = Except.ok false) := by
  have hinv : isInvertible (compute S self matrix) =
      Except.ok (decide ((computeFinal S self matrix).rank = matrix.cols) &&
        decide ((computeFinal S self matrix).rank = matrix.rows)) := rfl
  refine ⟨decide ((computeFinal S self matrix).rank = matrix.cols),
    decide ((computeFinal S self matrix).rank = matrix.rows), rfl, rfl, hinv, fun hne => ?_⟩
  have hnot : ¬ (decide ((computeFinal S self matrix).rank = matrix.cols) = true ∧
      decide ((computeFinal S self matrix).rank = matrix.rows) = true) := by
    rintro ⟨h1, h2⟩
    exact hne ((of_decide_eq_true h2).symm.trans (of_decide_eq_true h1))
  refine ⟨hnot, ?_⟩
  rw [hinv]
  congr 1
  simpa using hnot

/-- Witness of C17: the 2-by-1 matrix (1, 0), where R != C. -/
theorem isInvertible_eq_injective_and_surjective_witness :
    exampleTall.rows ≠ exampleTall.cols ∧
    ∃ inj sur : Bool, isInjective (compute exampleOps exampleFresh exampleTall) = Except.ok inj ∧
      isSurjective (compute exampleOps exampleFresh exampleTall) = Except.ok sur ∧
      isInvertible (compute exampleOps exampleFresh exampleTall) = Except.ok (inj && sur) ∧
      (exampleTall.rows ≠ exampleTall.cols →
        ¬ (inj = true ∧ sur = true) ∧
        isInvertible (compute exampleOps exampleFresh exampleTall) = Except.ok false) :=
  ⟨by decide, isInvertible_eq_injective_and_surjective exampleOps exampleFresh exampleTall⟩

end RankQueries

section Replacement

variable {K : Type} [LinearOrderedField K]

theorem sameRecord_fill (I : Nat → Prop) (size k : Nat) (s1 s2 : ComputeState K)
    (h : SameRecord I k s1 s2) (b : K) (r : Nat) :
    SameRecord I size
      (forRange fillStep k (size - k) { s1 with biggest := b, rank := r })
      (forRange fillStep k (size - k) { s2 with biggest := b, rank := r }) := by
  obtain ⟨hq, -, -, hct, hnt, hi⟩ := h
  obtain ⟨a1, a2, a3, a4, a5, a6, a7⟩ :=
    forRange_fillStep (size - k) k { s1 with biggest := b, rank := r }
  obtain ⟨b1, b2, b3, b4, b5, b6, b7⟩ :=
    forRange_fillStep (size - k) k { s2 with biggest := b, rank := r }
  refine ⟨?_, ?_, ?_, ?_, ?_, ?_⟩
  · rw [a1, b1]; exact hq
  · rw [a2, b2]
  · rw [a3, b3]
  · funext i
    rw [a7, b7]
    simp only [hct]
  · rw [a4, b4]; exact hnt
  · intro i hi'
    rw [a5, b5, a6, b6]
    by_cases hc : k ≤ i ∧ i < k + (size - k)
    · rw [if_pos hc, if_pos hc, if_pos hc, if_pos hc]
      exact ⟨rfl, rfl⟩
    · rw [if_neg hc, if_neg hc, if_neg hc, if_neg hc]
      have hik : i < k ∨ I i := by
        rcases hi' with h1 | h1
        · by_cases hki : i < k
          · exact Or.inl hki
          · exact absurd ⟨by omega, by omega⟩ hc
        · exact Or.inr h1
      exact hi i hik

theorem sameRecord_pivotStep (S : ScalarOps K) (I : Nat → Prop) (rows cols k r c : Nat)
    (s1 s2 : ComputeState K) (h : SameRecord I k s1 s2) (b : K) :
    SameRecord I (k + 1) (pivotStep S rows cols k r c { s1 with biggest := b })
      (pivotStep S rows cols k r c { s2 with biggest := b }) := by
  obtain ⟨hq, hr, -, hct, hnt, hi⟩ := h
  unfold pivotStep
  simp only [hq, hr, hct, hnt]
  refine ⟨rfl, rfl, rfl, rfl, rfl, ?_⟩
  intro i hi'
  by_cases hik : i = k
  · subst hik
    simp
  · simp only [Function.update_noteq hik]
    exact hi i (hi'.imp (fun h1 => by omega) id)

theorem computeLoop_sameRecord (S : ScalarOps K) (I : Nat → Prop) (rows cols size : Nat)
    (prec : K) :
    ∀ n k s1 s2, k + n = size → SameRecord I k s1 s2 →
      SameRecord I size (computeLoop S rows cols size prec n k s1)
        (computeLoop S rows cols size prec n k s2) := by
  intro n
  induction n with
  | zero =>
    intro k s1 s2 hk h
    have hks : k = size := by omega
    subst hks
    exact h
  | succ n ih =>
    intro k s1 s2 hk h
    rw [computeLoop_succ, computeLoop_succ]
    have hp : pivotOf s1.qr rows cols k = pivotOf s2.qr rows cols k := by rw [h.1]
    have hb : biggestAt s1.qr rows cols k s1.biggest = biggestAt s2.qr rows cols k s2.biggest := by
      rw [h.1, h.2.2.1]
    rw [hp, hb]
    split_ifs
    · exact sameRecord_fill I size k s1 s2 h _ _
    · exact ih (k + 1) _ _ (by omega) (sameRecord_pivotStep S I rows cols k _ _ s1 s2 h _)

theorem computeFinal_sameRecord (S : ScalarOps K) (self1 self2 : FullPivHouseholderQR K)
    (matrix : DenseMatrix K) :
    SameRecord
      (fun i => self1.m_hCoeffs i = self2.m_hCoeffs i ∧
        self1.m_rows_transpositions i = self2.m_rows_transpositions i)
      (min matrix.rows matrix.cols) (computeFinal S self1 matrix) (computeFinal S self2 matrix) := by
  unfold computeFinal
  refine computeLoop_sameRecord S _ matrix.rows matrix.cols _ _ _ 0 _ _ (by omega) ?_
  refine ⟨rfl, rfl, rfl, rfl, rfl, ?_⟩
  intro i hi
  rcases hi with h | h
  · exact absurd h (Nat.not_lt_zero i)
  · exact h

theorem computeLoop_untouched (S : ScalarOps K) (rows cols size : Nat) (prec : K)
    (s : ComputeState K) (i : Nat) (hi : size ≤ i) :
    (computeLoop S rows cols size prec size 0 s).hCoeffs i = s.hCoeffs i ∧
    (computeLoop S rows cols size prec size 0 s).rows_transpositions i =
      s.rows_transpositions i := by
  refine computeLoop_rule S rows cols size prec
    (fun _ t => t.hCoeffs i = s.hCoeffs i ∧ t.rows_transpositions i = s.rows_transpositions i)
    (fun t => t.hCoeffs i = s.hCoeffs i ∧ t.rows_transpositions i = s.rows_transpositions i)
    ?_ ?_ (fun _ h => h) size 0 s (by omega) ⟨rfl, rfl⟩
  · intro k t hk hP _
    have hne : i ≠ k := by omega
    unfold pivotStep
    simp only [Function.update_noteq hne]
    exact hP
  · intro k t hk hP _
    obtain ⟨-, -, -, -, a5, a6, -⟩ :=
      forRange_fillStep (size - k) k
        { t with biggest := biggestAt t.qr rows cols k t.biggest, rank := k }
    rw [a5, a6]
    have hc : ¬ (k ≤ i ∧ i < k + (size - k)) := by omega
    rw [if_neg hc, if_neg hc]
    exact hP

/-- C19 (as stated, refuted): for the 2-by-1 matrix (1, 0), `compute` on a
default-constructed object and on an object that holds an earlier record leave different
values in entry 1 of the row transpositions (R = 2 entries are allocated, one is written). -/
theorem compute_keeps_stale_row_transposition :
    ¬ (∀ k, k < exampleTall.rows →
        (compute exampleOps exampleFresh exampleTall).m_rows_transpositions k =
          (compute exampleOps exampleStale exampleTall).m_rows_transpositions k) := by
  intro h
  have h1 := h 1 (by decide)
  revert h1
  decide!

/-- C19 (amended): for every matrix M and every two prior states of the object, the records
after `compute(M)` agree in the working matrix, the reflector coefficients, the first
min(R, C) row transpositions, the column permutation, the rank, the parity, the precision
and the initialization flag; the row transpositions from index min(R, C) on keep the
values of the prior state; and calling `compute` a second time with the same input on the
same object gives the identical record. -/
theorem compute_replaces_record (S : ScalarOps K) (self1 self2 : FullPivHouseholderQR K)
    (matrix : DenseMatrix K) :
    ((compute S self1 matrix).m_qr = (compute S self2 matrix).m_qr ∧
      (∀ k, k < min matrix.rows matrix.cols →
        (compute S self1 matrix).m_hCoeffs k = (compute S self2 matrix).m_hCoeffs k) ∧
      (∀ k, k < min matrix.rows matrix.cols →
        (compute S self1 matrix).m_rows_transpositions k =
          (compute S self2 matrix).m_rows_transpositions k) ∧
      (compute S self1 matrix).m_cols_permutation = (compute S self2 matrix).m_cols_permutation ∧
      (compute S self1 matrix).m_rank = (compute S self2 matrix).m_rank ∧
      (compute S self1 matrix).m_det_pq = (compute S self2 matrix).m_det_pq ∧
      (compute S self1 matrix).m_precision = (compute S self2 matrix).m_precision ∧
      (compute S self1 matrix).m_isInitialized = (compute S self2 matrix).m_isInitialized) ∧
    (∀ k, min matrix.rows matrix.cols ≤ k →
      (compute S self1 matrix).m_rows_transpositions k = self1.m_rows_transpositions k) ∧
    compute S (compute S self1 matrix) matrix = compute S self1 matrix := by
  refine ⟨?_, fun k hk => (computeLoop_untouched S matrix.rows matrix.cols
    (min matrix.rows matrix.cols) _ (computeInit self1 matrix) k hk).2, ?_⟩
  · obtain ⟨hq, hr, -, hct, hnt, hi⟩ := computeFinal_sameRecord S self1 self2 matrix
    refine ⟨?_, fun k hk => (hi k (Or.inl hk)).1, fun k hk => (hi k (Or.inl hk)).2, ?_, hr, ?_,
      rfl, rfl⟩
    · unfold compute
      simp only [hq]
    · unfold compute
      simp only [hct]
    · unfold compute
      simp only [hnt]
  · obtain ⟨hq, hr, -, hct, hnt, hi⟩ :=
      computeFinal_sameRecord S (compute S self1 matrix) self1 matrix
    have hall : ∀ i, (computeFinal S (compute S self1 matrix) matrix).hCoeffs i =
          (computeFinal S self1 matrix).hCoeffs i ∧
        (computeFinal S (compute S self1 matrix) matrix).rows_transpositions i =
          (computeFinal S self1 matrix).rows_transpositions i := by
      intro i
      by_cases h : i < min matrix.rows matrix.cols
      · exact hi i (Or.inl h)
      · exact hi i (Or.inr (computeLoop_untouched S matrix.rows matrix.cols
          (min matrix.rows matrix.cols) _ (computeInit self1 matrix) i (not_lt.mp h)))
    have hh : (computeFinal S (compute S self1 matrix) matrix).hCoeffs =
        (computeFinal S self1 matrix).hCoeffs := funext fun i => (hall i).1
    have hrt : (computeFinal S (compute S self1 matrix) matrix).rows_transpositions =
        (computeFinal S self1 matrix).rows_transpositions := funext fun i => (hall i).2
    unfold compute at hq hr hct hnt hh hrt ⊢
    simp only [hq, hr, hct, hnt, hh, hrt]

end Replacement

section DeterminantWitnesses

theorem realDiag3_diag_ne_zero (i : Nat) (hi : i < realDiag3.rows) :
    (compute (ScalarOps.mk (1 / 2 ^ 52) Real.sqrt Real.log) realFresh realDiag3).m_qr.coeff i i
      ≠ 0 :=
  computeFinal_diag_ne_zero (ScalarOps.mk (1 / 2 ^ 52) Real.sqrt Real.log)
    (fun _ hx => Real.mul_self_sqrt hx) (by norm_num) realFresh realDiag3 i
    (lt_of_lt_of_eq hi (realDiag3_rank (1 / 2 ^ 52) (by norm_num) Real.log).symm)

/-- Witness of C15: the real matrix diag(3, 2, 1) with the natural logarithm. -/
theorem logAbsDeterminant_eq_log_absDeterminant_witness :
    (∀ x y : ℝ, 0 < x → 0 < y → Real.log (x * y) = Real.log x + Real.log y) ∧
    realDiag3.rows = realDiag3.cols ∧
    (∀ i, i < realDiag3.rows →
      (compute (ScalarOps.mk (1 / 2 ^ 52) Real.sqrt Real.log) realFresh realDiag3).m_qr.coeff i i
        ≠ 0) ∧
    ∃ d, absDeterminant (compute (ScalarOps.mk (1 / 2 ^ 52) Real.sqrt Real.log) realFresh
        realDiag3) = Except.ok d ∧
      logAbsDeterminant (ScalarOps.mk (1 / 2 ^ 52) Real.sqrt Real.log)
        (compute (ScalarOps.mk (1 / 2 ^ 52) Real.sqrt Real.log) realFresh realDiag3) =
        Except.ok (Real.log d) :=
  ⟨fun _ _ hx hy => Real.log_mul (ne_of_gt hx) (ne_of_gt hy), rfl, realDiag3_diag_ne_zero,
    logAbsDeterminant_eq_log_absDeterminant (ScalarOps.mk (1 / 2 ^ 52) Real.sqrt Real.log)
      (fun _ _ hx hy => Real.log_mul (ne_of_gt hx) (ne_of_gt hy)) realFresh realDiag3 rfl
      realDiag3_diag_ne_zero⟩

end DeterminantWitnesses

section Orthogonality

variable {K : Type} [LinearOrderedField K]

theorem sum_transposed (n k r : Nat) (hk : k < n) (hr : r < n) (f : Nat → K) :
    ∑ l ∈ Finset.range n, f (if l = k then r else if l = r then k else l) =
      ∑ l ∈ Finset.range n, f l := by
  have hb : Set.BijOn (applyTranspositionOnTheRight (fun i => i) k r) (Set.Iio n) (Set.Iio n) :=
    applyTranspositionOnTheRight_bijOn (fun i => i) n k r hk hr
      ⟨fun _ h => h, fun _ _ _ _ h => h, fun x h => ⟨x, h, rfl⟩⟩
  exact sum_permuted (applyTranspositionOnTheRight (fun i => i) k r) n hb f

theorem gram_swapRows (rows cols k r : Nat) (hk : k < rows) (hr : r < rows)
    (x : Nat → Nat → K) (i j : Nat) (hi : i < cols) (hj : j < cols) :
    ∑ l ∈ Finset.range rows, swapRows x cols k r l i * swapRows x cols k r l j =
      ∑ l ∈ Finset.range rows, x l i * x l j := by
  rw [← sum_transposed rows k r hk hr (fun l => x l i * x l j)]
  refine Finset.sum_congr rfl fun l _ => ?_
  unfold swapRows
  rw [if_pos hi, if_pos hj]
  split_ifs <;> rfl

theorem gram_reflect (rows cols : Nat) (v : Nat → K) (tau : K)
    (h : tau * tau * (∑ l ∈ Finset.range rows, v l * v l) = 2 * tau)
    (x : Nat → Nat → K) (i j : Nat) (hi : i < cols) (hj : j < cols) :
    ∑ l ∈ Finset.range rows, reflect rows cols v tau x l i * reflect rows cols v tau x l j =
      ∑ l ∈ Finset.range rows, x l i * x l j := by
  unfold reflect
  simp only [if_pos hi, if_pos hj]
  generalize hwi : ∑ l ∈ Finset.range rows, v l * x l i = wi
  generalize hwj : ∑ l ∈ Finset.range rows, v l * x l j = wj
  have e : ∀ l, (x l i - tau * v l * wi) * (x l j - tau * v l * wj) =
      x l i * x l j - tau * wi * (v l * x l j) - tau * wj * (v l * x l i) +
        tau * tau * wi * wj * (v l * v l) := fun l => by ring
  simp only [e]
  rw [Finset.sum_add_distrib, Finset.sum_sub_distrib, Finset.sum_sub_distrib,
    ← Finset.mul_sum, ← Finset.mul_sum, ← Finset.mul_sum, hwi, hwj]
  linear_combination (wi * wj) * h

theorem gram_undoAll (rows cols : Nat) (q : Nat → Nat → K) (hc : Nat → K) (rt : Nat → Nat)
    (n : Nat) (hin : ∀ k, k < n → k < rows ∧ rt k < rows)
    (hrefl : ∀ k, k < n → ReflectorInvolutive rows q hc k) (x : Nat → Nat → K) (i j : Nat)
    (hi : i < cols) (hj : j < cols) :
    ∑ l ∈ Finset.range rows,
        undoAll rows cols q hc rt n x l i * undoAll rows cols q hc rt n x l j =
      ∑ l ∈ Finset.range rows, x l i * x l j := by
  induction n generalizing x with
  | zero => rfl
  | succ n ih =>
    rw [undoAll_succ, ih (fun k hk => hin k (Nat.lt_succ_of_lt hk))
      (fun k hk => hrefl k (Nat.lt_succ_of_lt hk))]
    unfold undoStep
    rw [gram_swapRows rows cols n (rt n) (hin n (Nat.lt_succ_self n)).1
      (hin n (Nat.lt_succ_self n)).2 _ i j hi hj]
    exact gram_reflect rows cols _ _ (hrefl n (Nat.lt_succ_self n)) x i j hi hj

theorem matrixQ_coeff_eq_undoAll (S : ScalarOps K) (self : FullPivHouseholderQR K)
    (matrix : DenseMatrix K) :
    forRangeDown (matrixQStep (compute S self matrix) matrix.rows)
        (min matrix.rows matrix.cols) (fun i j => if i = j then 1 else 0) =
      undoAll matrix.rows matrix.rows (computeFinal S self matrix).qr
        (computeFinal S self matrix).hCoeffs (computeFinal S self matrix).rows_transpositions
        (min matrix.rows matrix.cols) (fun i j => if i = j then 1 else 0) := by
  have hT := (computeFinal_bounds S self matrix).2.1
  exact matrixQ_loop_eq_undoAll (compute S self matrix) matrix.rows (min matrix.rows matrix.cols)
    (fun k hk => ⟨lt_of_lt_of_le hk (min_le_left _ _), (hT k hk).1⟩) _
    (fun _ _ _ => rfl)

/-- C20: after `compute` on an R-by-C matrix, `matrixQ` returns an R-by-R matrix Q with
Q^T * Q equal to the identity, in exact arithmetic (the square root is exact). -/
theorem matrixQ_orthogonal (S : ScalarOps K) (hs : ∀ x, 0 ≤ x → S.sqrt x * S.sqrt x = x)
    (self : FullPivHouseholderQR K) (matrix : DenseMatrix K) :
    ∃ Q : DenseMatrix K, matrixQ (compute S self matrix) = Except.ok Q ∧
      Q.rows = matrix.rows ∧ Q.cols = matrix.rows ∧
      ∀ i j, i < matrix.rows → j < matrix.rows →
        ∑ l ∈ Finset.range matrix.rows, Q.coeff l i * Q.coeff l j = if i = j then 1 else 0 := by
  refine ⟨_, rfl, rfl, rfl, ?_⟩
  intro i j hi hj
  have hT := (computeFinal_bounds S self matrix).2.1
  have hF := (computeFinal_factorized S hs self matrix).1
  have e := matrixQ_coeff_eq_undoAll S self matrix
  show ∑ l ∈ Finset.range matrix.rows,
      forRangeDown (matrixQStep (compute S self matrix) matrix.rows)
        (min matrix.rows matrix.cols) (fun i j => if i = j then 1 else 0) l i *
      forRangeDown (matrixQStep (compute S self matrix) matrix.rows)
        (min matrix.rows matrix.cols) (fun i j => if i = j then 1 else 0) l j = _
  rw [e, gram_undoAll matrix.rows matrix.rows _ _ _ _
    (fun k hk => ⟨lt_of_lt_of_le hk (min_le_left _ _), (hT k hk).2.1⟩) hF _ i j hi hj]
  rw [Finset.sum_eq_single i]
  · simp
  · intro l _ hl
    simp [hl]
  · intro h
    exact absurd (Finset.mem_range.mpr hi) h

end Orthogonality

section OrthogonalityWitness

/-- Witness of C20: the real matrix diag(3, 2, 1) with the real square root. -/
theorem matrixQ_orthogonal_witness :
    (∀ x : ℝ, 0 ≤ x → Real.sqrt x * Real.sqrt x = x) ∧
    ∃ Q : DenseMatrix ℝ,
      matrixQ (compute (ScalarOps.mk (1 / 2 ^ 52) Real.sqrt Real.log) realFresh realDiag3) =
        Except.ok Q ∧
      Q.rows = realDiag3.rows ∧ Q.cols = realDiag3.rows ∧
      ∀ i j, i < realDiag3.rows → j < realDiag3.rows →
        ∑ l ∈ Finset.range realDiag3.rows, Q.coeff l i * Q.coeff l j =
          if i = j then 1 else 0 :=
  ⟨fun _ hx => Real.mul_self_sqrt hx,
    matrixQ_orthogonal (ScalarOps.mk (1 / 2 ^ 52) Real.sqrt Real.log)
      (fun _ hx => Real.mul_self_sqrt hx) realFresh realDiag3⟩

end OrthogonalityWitness

section Determinant

variable {K : Type} [LinearOrderedField K]

theorem determinant_congr (n : Nat) (a b : Nat → Nat → K)
    (h : ∀ i j, i < n → j < n → a i j = b i j) : determinant n a = determinant n b := by
  unfold determinant
  congr 1
  ext i j
  exact h i j i.2 j.2

theorem determinant_mul (n : Nat) (x y z : Nat → Nat → K)
    (h : ∀ i j, i < n → j < n → ∑ l ∈ Finset.range n, x i l * y l j = z i j) :
    determinant n x * determinant n y = determinant n z := by
  unfold determinant
  rw [← Matrix.det_mul]
  congr 1
  ext i j
  rw [Matrix.mul_apply]
  simp only [Matrix.of_apply]
  rw [Fin.sum_univ_eq_sum_range (fun l => x i l * y l j) n]
  exact h i j i.2 j.2

theorem determinant_upper_triangular (n : Nat) (t : Nat → Nat → K)
    (h : ∀ i j, j < i → i < n → t i j = 0) :
    determinant n t = ∏ i ∈ Finset.range n, t i i := by
  unfold determinant
  rw [Matrix.det_of_upperTriangular]
  · simp only [Matrix.of_apply]
    exact Fin.prod_univ_eq_prod_range (fun i => t i i) n
  · intro i j hij
    exact h i j hij i.2

theorem determinant_orthogonal (n : Nat) (q : Nat → Nat → K)
    (h : ∀ i j, i < n → j < n →
      ∑ l ∈ Finset.range n, q l i * q l j = if i = j then 1 else 0) :
    abs (determinant n q) = 1 := by
  have h1 : determinant n (fun i j => q j i) * determinant n q =
      determinant n (fun i j => if i = j then 1 else 0) :=
    determinant_mul n _ _ _ h
  have h2 : determinant n (fun i j => q j i) = determinant n q := by
    unfold determinant
    rw [← Matrix.det_transpose (Matrix.of fun i j : Fin n => q i j)]
    rfl
  have h3 : determinant n (fun i j => if i = j then (1 : K) else 0) = 1 := by
    have e1 : Matrix.det (1 : Matrix (Fin n) (Fin n) K) = 1 := Matrix.det_one
    unfold determinant
    rw [← e1]
    congr 1
    ext i j
    simp [Matrix.one_apply, Fin.ext_iff]
  rw [h2, h3] at h1
  have h4 : abs (determinant n q) * abs (determinant n q) = 1 := by
    rw [abs_mul_abs_self, h1]
  rcases mul_self_eq_one_iff.mp h4 with h5 | h5
  · exact h5
  · exact absurd (abs_nonneg (determinant n q)) (by rw [h5]; norm_num)

theorem determinant_permuted (n : Nat) (a : Nat → Nat → K) (p : Nat → Nat)
    (hp : Set.BijOn p (Set.Iio n) (Set.Iio n)) :
    abs (determinant n (fun i j => a i (p j))) = abs (determinant n a) := by
  have hinj : Function.Injective (fun j : Fin n => (⟨p j, hp.mapsTo j.2⟩ : Fin n)) := by
    intro x y hxy
    exact Fin.ext (hp.injOn x.2 y.2 (Fin.mk.inj hxy))
  have hbij : Function.Bijective (fun j : Fin n => (⟨p j, hp.mapsTo j.2⟩ : Fin n)) :=
    ⟨hinj, Finite.injective_iff_surjective.mp hinj⟩
  have e : (Matrix.of fun i j : Fin n => a i (p j)) =
      (Matrix.of fun i j : Fin n => a i j).submatrix id (Equiv.ofBijective _ hbij) := by
    ext i j
    rfl
  unfold determinant
  rw [e, Matrix.det_permute', abs_mul]
  rcases Int.units_eq_one_or (Equiv.Perm.sign (Equiv.ofBijective _ hbij)) with h | h <;>
    rw [h] <;> simp

theorem absDeterminant_exact (S : ScalarOps K) (hs : ∀ x, 0 ≤ x → S.sqrt x * S.sqrt x = x)
    (self : FullPivHouseholderQR K) (A : DenseMatrix K) (hsq : A.rows = A.cols)
    (hexact : ∀ i j, (compute S self A).m_rank ≤ i → i < A.rows →
      (compute S self A).m_rank ≤ j → j < A.cols → (compute S self A).m_qr.coeff i j = 0) :
    abs (∏ i ∈ Finset.range A.rows, (compute S self A).m_qr.coeff i i) =
      abs (determinant A.rows A.coeff) := by
  have hT : determinant A.rows
      (reducedMatrix A.rows (compute S self A).m_rank (compute S self A).m_qr.coeff) =
      ∏ i ∈ Finset.range A.rows, (compute S self A).m_qr.coeff i i := by
    rw [determinant_upper_triangular]
    · refine Finset.prod_congr rfl fun i _ => ?_
      unfold reducedMatrix
      rw [if_neg (fun h => absurd h.2.1 (lt_irrefl i))]
    · intro i j hji hi
      unfold reducedMatrix
      by_cases hj : j < (compute S self A).m_rank
      · rw [if_pos ⟨hj, hji, hi⟩]
      · rw [if_neg (fun h => hj h.1)]
        exact hexact i j (le_trans (not_lt.mp hj) (le_of_lt hji)) hi (not_lt.mp hj)
          (hsq ▸ lt_trans hji hi)
  have hQ : abs (determinant A.rows
      (forRangeDown (matrixQStep (compute S self A) A.rows) (min A.rows A.cols)
        (fun i j => if i = j then 1 else 0))) = 1 := by
    refine determinant_orthogonal A.rows _ ?_
    intro i j hi hj
    have hB := (computeFinal_bounds S self A).2.1
    have hF := (computeFinal_factorized S hs self A).1
    rw [matrixQ_coeff_eq_undoAll, gram_undoAll A.rows A.rows _ _ _ _
      (fun k hk => ⟨lt_of_lt_of_le hk (min_le_left _ _), (hB k hk).2.1⟩) hF _ i j hi hj]
    rw [Finset.sum_eq_single i]
    · simp
    · intro l _ hl
      simp [hl]
    · intro h
      exact absurd (Finset.mem_range.mpr hi) h
  have hprod := determinant_mul A.rows
    (forRangeDown (matrixQStep (compute S self A) A.rows) (min A.rows A.cols)
      (fun i j => if i = j then 1 else 0))
    (reducedMatrix A.rows (compute S self A).m_rank (compute S self A).m_qr.coeff)
    (fun i j => A.coeff i ((compute S self A).m_cols_permutation j))
    (fun i j hi hj => matrixQ_mul_reduced S hs self A i j hi (hsq ▸ hj))
  have hperm : Set.BijOn (compute S self A).m_cols_permutation (Set.Iio A.rows)
      (Set.Iio A.rows) := by
    have hB := (computeFinal_bounds S self A).2.1
    rw [hsq]
    exact colsPermutationOf_bijOn _ A.cols _
      (fun i hi => ⟨lt_of_lt_of_le hi (min_le_right _ _), (hB i hi).2.2.2⟩)
  rw [← hT, ← one_mul (abs (determinant A.rows (reducedMatrix _ _ _))), ← hQ, ← abs_mul, hprod]
  exact determinant_permuted A.rows A.coeff _ hperm

/-- C14 (amended): for every square matrix A for which the rank decision of `compute` was
exact (every entry of the working matrix in a row and a column at or beyond the rank is
zero, as is always the case when the rank is the dimension), `absDeterminant` after
`compute(A)` is the absolute value of the determinant of A, in exact arithmetic. -/
theorem absDeterminant_eq_abs_det_when_rank_exact (S : ScalarOps K)
    (hs : ∀ x, 0 ≤ x → S.sqrt x * S.sqrt x = x) (self : FullPivHouseholderQR K)
    (A : DenseMatrix K) (hsq : A.rows = A.cols)
    (hexact : ∀ i j, (compute S self A).m_rank ≤ i → i < A.rows →
      (compute S self A).m_rank ≤ j → j < A.cols → (compute S self A).m_qr.coeff i j = 0) :
    absDeterminant (compute S self A) = Except.ok (abs (determinant A.rows A.coeff)) := by
  have hi : (compute S self A).m_isInitialized = true := rfl
  have hr : (compute S self A).m_qr.rows = A.rows := rfl
  have hc : (compute S self A).m_qr.cols = A.cols := rfl
  unfold absDeterminant
  rw [if_pos hi, if_pos (hr.trans (hsq.trans hc.symm)), hr, hc, ← hsq, min_self,
    absDeterminant_exact S hs self A hsq hexact]

end Determinant

section DeterminantExamples

/-- C14 (as stated, refuted): the matrix with rows (1, 0, 0), (0, 0, 2^-52), (0, 2^-52, 0)
has determinant -2^-104, but `compute` stops after the first step (the remaining block is
negligible relative to the first pivot), leaves the block unreduced with a zero diagonal,
and `absDeterminant` returns 0. No square root is taken on this input. -/
theorem absDeterminant_ignores_unreduced_block :
    exampleHiddenBlock.rows = 3 ∧ exampleHiddenBlock.cols = 3 ∧
    rank (compute exampleOps exampleFresh exampleHiddenBlock) = Except.ok 1 ∧
    absDeterminant (compute exampleOps exampleFresh exampleHiddenBlock) = Except.ok 0 ∧
    abs (determinant 3 exampleHiddenBlock.coeff) = 1 / 2 ^ 104 ∧
    abs (determinant 3 exampleHiddenBlock.coeff) ≠ 0 := by
  have hi : (compute exampleOps exampleFresh exampleHiddenBlock).m_isInitialized = true := rfl
  have hr : (compute exampleOps exampleFresh exampleHiddenBlock).m_rank = 1 := by decide!
  have hp : ∏ i ∈ Finset.range (min (compute exampleOps exampleFresh exampleHiddenBlock).m_qr.rows
      (compute exampleOps exampleFresh exampleHiddenBlock).m_qr.cols),
      (compute exampleOps exampleFresh exampleHiddenBlock).m_qr.coeff i i = 0 := by
    refine Finset.prod_eq_zero (Finset.mem_range.mpr (show 1 < 3 by decide)) ?_
    decide!
  have hd : abs (determinant 3 exampleHiddenBlock.coeff) = 1 / 2 ^ 104 := by
    unfold determinant
    rw [Matrix.det_fin_three]
    simp [exampleHiddenBlock]
    norm_num [abs_of_pos]
  refine ⟨rfl, rfl, ?_, ?_, hd, ?_⟩
  · unfold rank
    rw [if_pos hi, hr]
  · unfold absDeterminant
    rw [if_pos hi, if_pos (show (compute exampleOps exampleFresh exampleHiddenBlock).m_qr.rows =
      (compute exampleOps exampleFresh exampleHiddenBlock).m_qr.cols from rfl), hp, abs_zero]
  · rw [hd]
    norm_num

/-- The example of the specification: for the matrix with rows (2, 0), (0, 3) the
determinant is 6 and `absDeterminant` returns 6. -/
theorem absDeterminant_exampleDiag2 :
    absDeterminant (compute exampleOps exampleFresh exampleDiag2) = Except.ok 6 ∧
    abs (determinant 2 exampleDiag2.coeff) = 6 := by
  have hi : (compute exampleOps exampleFresh exampleDiag2).m_isInitialized = true := rfl
  constructor
  · unfold absDeterminant
    rw [if_pos hi, if_pos (show (compute exampleOps exampleFresh exampleDiag2).m_qr.rows =
      (compute exampleOps exampleFresh exampleDiag2).m_qr.cols from rfl)]
    congr 1
    decide!
  · unfold determinant
    rw [Matrix.det_fin_two]
    simp [exampleDiag2]
    norm_num

/-- Witness of C14 (amended): the real matrix diag(3, 2, 1), of rank 3. -/
theorem absDeterminant_eq_abs_det_when_rank_exact_witness :
    (∀ x : ℝ, 0 ≤ x → Real.sqrt x * Real.sqrt x = x) ∧ realDiag3.rows = realDiag3.cols ∧
    (∀ i j,
      (compute (ScalarOps.mk (1 / 2 ^ 52) Real.sqrt Real.log) realFresh realDiag3).m_rank ≤ i →
      i < realDiag3.rows →
      (compute (ScalarOps.mk (1 / 2 ^ 52) Real.sqrt Real.log) realFresh realDiag3).m_rank ≤ j →
      j < realDiag3.cols →
      (compute (ScalarOps.mk (1 / 2 ^ 52) Real.sqrt Real.log) realFresh realDiag3).m_qr.coeff i j
        = 0) ∧
    absDeterminant (compute (ScalarOps.mk (1 / 2 ^ 52) Real.sqrt Real.log) realFresh realDiag3) =
      Except.ok (abs (determinant realDiag3.rows realDiag3.coeff)) :=
  ⟨fun _ hx => Real.mul_self_sqrt hx, rfl,
    fun i _ h1 h2 _ _ => absurd h2 (not_lt.mpr
      (le_of_eq_of_le (realDiag3_rank (1 / 2 ^ 52) (by norm_num) Real.log).symm h1)),
    absDeterminant_eq_abs_det_when_rank_exact (ScalarOps.mk (1 / 2 ^ 52) Real.sqrt Real.log)
      (fun _ hx => Real.mul_self_sqrt hx) realFresh realDiag3 rfl
      (fun i _ h1 h2 _ _ => absurd h2 (not_lt.mpr
        (le_of_eq_of_le (realDiag3_rank (1 / 2 ^ 52) (by norm_num) Real.log).symm h1)))⟩

end DeterminantExamples

section Injectivity

variable {K : Type} [LinearOrderedField K]

theorem undoAll_zero (rows cols : Nat) (q : Nat → Nat → K) (hc : Nat → K) (rt : Nat → Nat)
    (n : Nat) : undoAll rows cols q hc rt n (fun _ _ => 0) = fun _ _ => 0 := by
  induction n with
  | zero => rfl
  | succ n ih =>
    rw [undoAll_succ]
    have e : undoStep rows cols q hc rt n (fun _ _ => (0 : K)) = fun _ _ => 0 := by
      funext i j
      unfold undoStep swapRows reflect
      simp
    rw [e, ih]

theorem kernel_vector_of_triangular (rows cols r : Nat) (q : Nat → Nat → K) (hr : r < cols)
    (hd : ∀ i, i < r → q i i ≠ 0)
    (hexact : ∀ i j, r ≤ i → i < rows → r ≤ j → j < cols → q i j = 0) :
    ∃ z : Nat → K, z r = 1 ∧
      ∀ i, i < rows → ∑ l ∈ Finset.range cols, reducedMatrix rows r q i l * z l = 0 := by
  refine ⟨fun l => if l < r then
      forRangeDown (backSubstRow q r 1) r (fun a _ => - q a r) l 0
    else if l = r then 1 else 0, ?_, ?_⟩
  · simp
  · intro i hi
    by_cases hir : i < r
    · rw [sum_reducedMatrix_row rows cols r q _ i hir hi (le_of_lt hr),
        ← Finset.sum_Ico_consecutive _ (le_of_lt hir) (le_of_lt hr)]
      have h1 : ∑ l ∈ Finset.Ico i r, q i l *
          (if l < r then forRangeDown (backSubstRow q r 1) r (fun a _ => - q a r) l 0
            else if l = r then 1 else 0) = - q i r := by
        rw [← forRangeDown_backSubstRow_solves q r 1 hd r (le_refl r) (fun a _ => - q a r) i 0
          hir Nat.one_pos]
        refine Finset.sum_congr rfl fun l hl => ?_
        rw [if_pos (Finset.mem_Ico.mp hl).2]
      have h2 : ∑ l ∈ Finset.Ico r cols, q i l *
          (if l < r then forRangeDown (backSubstRow q r 1) r (fun a _ => - q a r) l 0
            else if l = r then 1 else 0) = q i r := by
        rw [Finset.sum_eq_single r]
        · simp
        · intro l hl hne
          rw [if_neg (not_lt.mpr (Finset.mem_Ico.mp hl).1), if_neg hne, mul_zero]
        · intro h
          exact absurd (Finset.mem_Ico.mpr ⟨le_refl r, hr⟩) h
      rw [h1, h2]
      ring
    · exact sum_reducedMatrix_row_zero rows cols r q _ i (not_lt.mp hir) hi hexact

theorem permuted_kernel_vector (S : ScalarOps K) (hs : ∀ x, 0 ≤ x → S.sqrt x * S.sqrt x = x)
    (self : FullPivHouseholderQR K) (A : DenseMatrix K) (z : Nat → K)
    (hz : ∀ i, i < A.rows → ∑ l ∈ Finset.range A.cols,
      reducedMatrix A.rows (compute S self A).m_rank (compute S self A).m_qr.coeff i l * z l = 0)
    (i : Nat) (hi : i < A.rows) :
    ∑ l ∈ Finset.range A.cols, A.coeff i ((compute S self A).m_cols_permutation l) * z l = 0 := by
  have hF := (computeFinal_factorized S hs self A).2
  have hB := (computeFinal_bounds S self A).2.1
  have hg := undoAll_gmul A.rows A.cols 1 (fun _ _ => 0) (fun l _ => z l)
    (computeFinal S self A).qr (computeFinal S self A).hCoeffs
    (computeFinal S self A).rows_transpositions (min A.rows A.cols)
    (fun k hk => ⟨lt_of_lt_of_le hk (min_le_left _ _), (hB k hk).2.1⟩)
    (reducedMatrix A.rows (computeFinal S self A).rank (computeFinal S self A).qr)
  have hzero : gmul A.rows A.cols 1 (fun _ _ => (0 : K))
      (reducedMatrix A.rows (computeFinal S self A).rank (computeFinal S self A).qr)
      (fun l _ => z l) = fun _ _ => 0 := by
    funext a b
    unfold gmul
    split_ifs with h
    · exact hz a h.1
    · rfl
  rw [hzero, undoAll_zero, hF] at hg
  have h := congrFun (congrFun hg i) 0
  unfold gmul at h
  rw [if_pos ⟨hi, Nat.one_pos⟩] at h
  refine Eq.trans (Finset.sum_congr rfl fun l hl => ?_) h.symm
  unfold permuteCols
  rw [if_pos ⟨hi, Finset.mem_range.mp hl⟩]
  rfl

theorem rank_eq_cols_of_independent (S : ScalarOps K)
    (hs : ∀ x, 0 ≤ x → S.sqrt x * S.sqrt x = x) (heps : 0 ≤ S.epsilon)
    (self : FullPivHouseholderQR K) (A : DenseMatrix K)
    (hind : ∀ x : Nat → K,
      (∀ i, i < A.rows → ∑ l ∈ Finset.range A.cols, A.coeff i l * x l = 0) →
      ∀ l, l < A.cols → x l = 0)
    (hexact : ∀ i j, (compute S self A).m_rank ≤ i → i < A.rows →
      (compute S self A).m_rank ≤ j → j < A.cols → (compute S self A).m_qr.coeff i j = 0) :
    (compute S self A).m_rank = A.cols := by
  have hle : (compute S self A).m_rank ≤ min A.rows A.cols := (computeFinal_bounds S self A).1
  by_contra hne
  have hlt : (compute S self A).m_rank < A.cols :=
    lt_of_le_of_ne (le_trans hle (min_le_right _ _)) hne
  obtain ⟨z, hz1, hz⟩ := kernel_vector_of_triangular A.rows A.cols (compute S self A).m_rank
    (compute S self A).m_qr.coeff hlt
    (fun i hi => computeFinal_diag_ne_zero S hs heps self A i hi) hexact
  have hperm : Set.BijOn (compute S self A).m_cols_permutation (Set.Iio A.cols)
      (Set.Iio A.cols) := by
    have hB := (computeFinal_bounds S self A).2.1
    exact colsPermutationOf_bijOn _ A.cols _
      (fun i hi => ⟨lt_of_lt_of_le hi (min_le_right _ _), (hB i hi).2.2.2⟩)
  have hinv : ∀ l, l < A.cols →
      Function.invFunOn (compute S self A).m_cols_permutation (Set.Iio A.cols)
        ((compute S self A).m_cols_permutation l) = l :=
    fun l hl => hperm.injOn.leftInvOn_invFunOn hl
  have hx := hind
    (fun m => z (Function.invFunOn (compute S self A).m_cols_permutation (Set.Iio A.cols) m))
    (fun i hi => by
      rw [← sum_permuted (compute S self A).m_cols_permutation A.cols hperm
        (fun m => A.coeff i m *
          z (Function.invFunOn (compute S self A).m_cols_permutation (Set.Iio A.cols) m)),
        ← permuted_kernel_vector S hs self A z hz i hi]
      refine Finset.sum_congr rfl fun l hl => ?_
      beta_reduce
      rw [hinv l (Finset.mem_range.mp hl)])
    ((compute S self A).m_cols_permutation (compute S self A).m_rank) (hperm.mapsTo hlt)
  beta_reduce at hx
  rw [hinv _ hlt, hz1] at hx
  exact one_ne_zero hx

/-- C18 (amended): for every R-by-C matrix with R > C whose columns are linearly
independent and for which the rank decision of `compute` was exact (every entry of the
working matrix in a row and a column at or beyond the rank is zero), after `compute`:
`isInjective` is true, `isSurjective` is false and `dimensionOfKernel` is 0 (exact
arithmetic, machine epsilon >= 0). -/
theorem full_column_rank_is_injective (S : ScalarOps K)
    (hs : ∀ x, 0 ≤ x → S.sqrt x * S.sqrt x = x) (heps : 0 ≤ S.epsilon)
    (self : FullPivHouseholderQR K) (A : DenseMatrix K) (hRC : A.cols < A.rows)
    (hind : ∀ x : Nat → K,
      (∀ i, i < A.rows → ∑ l ∈ Finset.range A.cols, A.coeff i l * x l = 0) →
      ∀ l, l < A.cols → x l = 0)
    (hexact : ∀ i j, (compute S self A).m_rank ≤ i → i < A.rows →
      (compute S self A).m_rank ≤ j → j < A.cols → (compute S self A).m_qr.coeff i j = 0) :
    isInjective (compute S self A) = Except.ok true ∧
    isSurjective (compute S self A) = Except.ok false ∧
    dimensionOfKernel (compute S self A) = Except.ok 0 := by
  have hrank := rank_eq_cols_of_independent S hs heps self A hind hexact
  have hi : (compute S self A).m_isInitialized = true := rfl
  have hr : (compute S self A).m_qr.rows = A.rows := rfl
  have hc : (compute S self A).m_qr.cols = A.cols := rfl
  unfold isInjective isSurjective dimensionOfKernel
  rw [if_pos hi, if_pos hi, if_pos hi, hr, hc, hrank]
  refine ⟨?_, ?_, ?_⟩
  · rw [decide_eq_true rfl]
  · rw [decide_eq_false (ne_of_lt hRC)]
  · rw [sub_self]

end Injectivity

section InjectivityExamples

/-- C18 (as stated, refuted): the columns of the 3-by-2 matrix with rows (1, 0),
(0, 2^-52), (0, 0) are linearly independent, but the second pivot is negligible relative
to the first, `compute` finds rank 1, and `isInjective` is false with a kernel of
dimension 1. -/
theorem isInjective_false_for_independent_columns :
    exampleNearTall.cols < exampleNearTall.rows ∧
    (∀ x : Nat → ℚ,
      (∀ i, i < exampleNearTall.rows →
        ∑ l ∈ Finset.range exampleNearTall.cols, exampleNearTall.coeff i l * x l = 0) →
      ∀ l, l < exampleNearTall.cols → x l = 0) ∧
    isInjective (compute exampleOps exampleFresh exampleNearTall) = Except.ok false ∧
    dimensionOfKernel (compute exampleOps exampleFresh exampleNearTall) = Except.ok 1 := by
  have hi : (compute exampleOps exampleFresh exampleNearTall).m_isInitialized = true := rfl
  have hr : (compute exampleOps exampleFresh exampleNearTall).m_rank = 1 := by decide!
  refine ⟨by decide, ?_, ?_, ?_⟩
  · intro x h l hl
    have h0 := h 0 (by decide)
    have h1 := h 1 (by decide)
    simp [exampleNearTall, Finset.sum_range_succ] at h0 h1 hl
    interval_cases l
    · exact h0
    · exact h1
  · unfold isInjective
    rw [if_pos hi, hr]
    rfl
  · unfold dimensionOfKernel
    rw [if_pos hi, hr]
    rfl

theorem realTall_rank (eps : ℝ) (h1 : eps < 1 / 4) (log : ℝ → ℝ) :
    (compute (ScalarOps.mk eps Real.sqrt log) realFresh realTall).m_rank = 2 := by
  have p0 : pivotOf realTall.coeff 3 2 0 = (2, 0, 0) := by
    simp [pivotOf, maxCoeff, blockPositions, visitMax, List.range_succ, realTall]
    norm_num
  have p1 : pivotOf realTall.coeff 3 2 1 = (1, 0, 0) := by
    simp [pivotOf, maxCoeff, blockPositions, visitMax, List.range_succ, realTall]
  have hp : ∀ k, k < 2 → (pivotOf realTall.coeff 3 2 k).2 = (0, 0) := by
    intro k hk
    interval_cases k
    · rw [p0]
    · rw [p1]
  refine (computeLoop_of_pivots_in_place (ScalarOps.mk eps Real.sqrt log) 3 2 2
    (eps * ((2 : ℕ) : ℝ)) (by decide) (le_refl _) realTall.coeff 2 (le_refl _) hp ?_ ?_
    (fun h => absurd h (lt_irrefl 2)) (computeInit realFresh realTall) rfl rfl).1
  · intro k hk i h1 h2
    interval_cases k <;> interval_cases i <;> simp [realTall]
  · intro k hk
    interval_cases k
    · rw [p0]
      simp only [isMuchSmallerThan, decide_eq_false_iff_not, not_le]
      push_cast
      nlinarith
    · rw [p0, p1]
      simp only [isMuchSmallerThan, decide_eq_false_iff_not, not_le]
      push_cast
      nlinarith

theorem realTall_independent (x : Nat → ℝ)
    (h : ∀ i, i < realTall.rows →
      ∑ l ∈ Finset.range realTall.cols, realTall.coeff i l * x l = 0) (l : Nat)
    (hl : l < realTall.cols) : x l = 0 := by
  have h0 := h 0 (by decide)
  have h1 := h 1 (by decide)
  simp [realTall, Finset.sum_range_succ] at h0 h1 hl
  interval_cases l
  · exact h0
  · exact h1

theorem realTall_exact (i j : Nat)
    (_ : (compute (ScalarOps.mk (1 / 2 ^ 52) Real.sqrt Real.log) realFresh realTall).m_rank ≤ i)
    (_ : i < realTall.rows)
    (h3 : (compute (ScalarOps.mk (1 / 2 ^ 52) Real.sqrt Real.log) realFresh realTall).m_rank ≤ j)
    (h4 : j < realTall.cols) :
    (compute (ScalarOps.mk (1 / 2 ^ 52) Real.sqrt Real.log) realFresh realTall).m_qr.coeff i j
      = 0 :=
  absurd h4 (not_lt.mpr
    (le_of_eq_of_le (realTall_rank (1 / 2 ^ 52) (by norm_num) Real.log).symm h3))

/-- Witness of C18 (amended): the real 3-by-2 matrix with rows (2, 0), (0, 1), (0, 0). -/
theorem full_column_rank_is_injective_witness :
    (∀ x : ℝ, 0 ≤ x → Real.sqrt x * Real.sqrt x = x) ∧ (0 : ℝ) ≤ 1 / 2 ^ 52 ∧
    realTall.cols < realTall.rows ∧
    (∀ x : Nat → ℝ,
      (∀ i, i < realTall.rows →
        ∑ l ∈ Finset.range realTall.cols, realTall.coeff i l * x l = 0) →
      ∀ l, l < realTall.cols → x l = 0) ∧
    (∀ i j,
      (compute (ScalarOps.mk (1 / 2 ^ 52) Real.sqrt Real.log) realFresh realTall).m_rank ≤ i →
      i < realTall.rows →
      (compute (ScalarOps.mk (1 / 2 ^ 52) Real.sqrt Real.log) realFresh realTall).m_rank ≤ j →
      j < realTall.cols →
      (compute (ScalarOps.mk (1 / 2 ^ 52) Real.sqrt Real.log) realFresh realTall).m_qr.coeff i j
        = 0) ∧
    isInjective (compute (ScalarOps.mk (1 / 2 ^ 52) Real.sqrt Real.log) realFresh realTall) =
      Except.ok true ∧
    isSurjective (compute (ScalarOps.mk (1 / 2 ^ 52) Real.sqrt Real.log) realFresh realTall) =
      Except.ok false ∧
    dimensionOfKernel (compute (ScalarOps.mk (1 / 2 ^ 52) Real.sqrt Real.log) realFresh
      realTall) = Except.ok 0 :=
  ⟨fun _ hx => Real.mul_self_sqrt hx, by norm_num, by decide, realTall_independent,
    realTall_exact,
    full_column_rank_is_injective (ScalarOps.mk (1 / 2 ^ 52) Real.sqrt Real.log)
      (fun _ hx => Real.mul_self_sqrt hx) (by norm_num) realFresh realTall (by decide)
      realTall_independent realTall_exact⟩

end InjectivityExamples

section Trace

variable {K : Type} [LinearOrderedField K]

theorem workingStateAt_succ (S : ScalarOps K) (rows cols : Nat) (s0 : ComputeState K) (k : Nat) :
    workingStateAt S rows cols s0 (k + 1) =
      pivotStep S rows cols k
        ((pivotOf (workingStateAt S rows cols s0 k).qr rows cols k).2.1 + k)
        ((pivotOf (workingStateAt S rows cols s0 k).qr rows cols k).2.2 + k)
        { workingStateAt S rows cols s0 k with
          biggest := biggestAt (workingStateAt S rows cols s0 k).qr rows cols k
            (workingStateAt S rows cols s0 k).biggest } := rfl

theorem computeLoop_trace (S : ScalarOps K) (rows cols size : Nat) (prec : K)
    (s0 : ComputeState K) :
    ∀ n k, k + n = size →
      ∃ r, k ≤ r ∧ r ≤ size ∧
        (∀ j, k ≤ j → j < r → rankTestAt S rows cols prec s0 j = false) ∧
        ((r = size ∧
            computeLoop S rows cols size prec n k (workingStateAt S rows cols s0 k) =
              workingStateAt S rows cols s0 size) ∨
          (r < size ∧ rankTestAt S rows cols prec s0 r = true ∧
            computeLoop S rows cols size prec n k (workingStateAt S rows cols s0 k) =
              forRange fillStep r (size - r)
                { workingStateAt S rows cols s0 r with
                  biggest := biggestAt (workingStateAt S rows cols s0 r).qr rows cols r
                    (workingStateAt S rows cols s0 r).biggest
                  rank := r })) := by
  intro n
  induction n with
  | zero =>
    intro k hk
    have hks : k = size := by omega
    subst hks
    exact ⟨k, le_refl k, le_refl k, fun j h1 h2 => absurd h2 (not_lt.mpr h1), Or.inl ⟨rfl, rfl⟩⟩
  | succ n ih =>
    intro k hk
    rw [computeLoop_succ]
    by_cases ht : rankTestAt S rows cols prec s0 k = true
    · refine ⟨k, le_refl k, by omega, fun j h1 h2 => absurd h2 (not_lt.mpr h1),
        Or.inr ⟨by omega, ht, ?_⟩⟩
      unfold rankTestAt at ht
      rw [if_pos ht]
    · have ht' : rankTestAt S rows cols prec s0 k = false := by simpa using ht
      obtain ⟨r, h1, h2, h3, h4⟩ := ih (k + 1) (by omega)
      refine ⟨r, by omega, h2, ?_, ?_⟩
      · intro j hj1 hj2
        by_cases hjk : j = k
        · rw [hjk]; exact ht'
        · exact h3 j (by omega) hj2
      · unfold rankTestAt at ht
        rw [if_neg ht, ← workingStateAt_succ]
        exact h4

theorem workingStateAt_rank (S : ScalarOps K) (rows cols : Nat) (s0 : ComputeState K) (k : Nat) :
    (workingStateAt S rows cols s0 k).rank = s0.rank := by
  induction k with
  | zero => rfl
  | succ k ih => rw [workingStateAt_succ]; exact ih

theorem workingStateAt_biggest (S : ScalarOps K) (rows cols : Nat) (s0 : ComputeState K)
    (k : Nat) :
    biggestAt (workingStateAt S rows cols s0 k).qr rows cols k
      (workingStateAt S rows cols s0 k).biggest = (pivotOf s0.qr rows cols 0).1 := by
  induction k with
  | zero => rfl
  | succ k ih =>
    unfold biggestAt
    rw [if_neg (Nat.succ_ne_zero k), workingStateAt_succ]
    exact ih

theorem workingStateAt_recorded (S : ScalarOps K) (rows cols : Nat) (s0 : ComputeState K)
    (r j : Nat) (hj : j < r) :
    (workingStateAt S rows cols s0 r).rows_transpositions j =
        (pivotOf (workingStateAt S rows cols s0 j).qr rows cols j).2.1 + j ∧
    (workingStateAt S rows cols s0 r).cols_transpositions j =
        (pivotOf (workingStateAt S rows cols s0 j).qr rows cols j).2.2 + j := by
  induction r with
  | zero => exact absurd hj (Nat.not_lt_zero j)
  | succ r ih =>
    rw [workingStateAt_succ]
    unfold pivotStep
    by_cases hjr : j = r
    · subst hjr
      simp
    · simp only [Function.update_noteq hjr]
      exact ih (by omega)

theorem computeFinal_trace (S : ScalarOps K) (self : FullPivHouseholderQR K)
    (matrix : DenseMatrix K) :
    (computeFinal S self matrix).rank ≤ min matrix.rows matrix.cols ∧
    (∀ j, j < (computeFinal S self matrix).rank →
      rankTestAt S matrix.rows matrix.cols (S.epsilon * ((min matrix.rows matrix.cols : Nat) : K))
        (computeInit self matrix) j = false) ∧
    ((computeFinal S self matrix).rank < min matrix.rows matrix.cols →
      rankTestAt S matrix.rows matrix.cols (S.epsilon * ((min matrix.rows matrix.cols : Nat) : K))
        (computeInit self matrix) (computeFinal S self matrix).rank = true) ∧
    (computeFinal S self matrix).qr =
      (workingStateAt S matrix.rows matrix.cols (computeInit self matrix)
        (computeFinal S self matrix).rank).qr ∧
    (computeFinal S self matrix).number_of_transpositions =
      (workingStateAt S matrix.rows matrix.cols (computeInit self matrix)
        (computeFinal S self matrix).rank).number_of_transpositions ∧
    ∀ j, j < (computeFinal S self matrix).rank →
      (computeFinal S self matrix).rows_transpositions j =
        (workingStateAt S matrix.rows matrix.cols (computeInit self matrix)
          (computeFinal S self matrix).rank).rows_transpositions j ∧
      (computeFinal S self matrix).cols_transpositions j =
        (workingStateAt S matrix.rows matrix.cols (computeInit self matrix)
          (computeFinal S self matrix).rank).cols_transpositions j := by
  obtain ⟨r, -, h2, h3, h4⟩ := computeLoop_trace S matrix.rows matrix.cols
    (min matrix.rows matrix.cols) (S.epsilon * ((min matrix.rows matrix.cols : Nat) : K))
    (computeInit self matrix) (min matrix.rows matrix.cols) 0 (by omega)
  have e0 : workingStateAt S matrix.rows matrix.cols (computeInit self matrix) 0 =
      computeInit self matrix := rfl
  rw [e0] at h4
  rcases h4 with ⟨hr, hf⟩ | ⟨hr, ht, hf⟩
  · have hfin : computeFinal S self matrix =
        workingStateAt S matrix.rows matrix.cols (computeInit self matrix)
          (min matrix.rows matrix.cols) := hf
    have hrank : (computeFinal S self matrix).rank = min matrix.rows matrix.cols := by
      rw [hfin, workingStateAt_rank]
      rfl
    rw [hrank]
    refine ⟨le_refl _, fun j hj => h3 j (Nat.zero_le j) (hr ▸ hj),
      fun h => absurd h (lt_irrefl _), ?_, ?_, ?_⟩
    · rw [hfin]
    · rw [hfin]
    · intro j _
      rw [hfin]
      exact ⟨rfl, rfl⟩
  · have hfin : computeFinal S self matrix =
        forRange fillStep r (min matrix.rows matrix.cols - r)
          { workingStateAt S matrix.rows matrix.cols (computeInit self matrix) r with
            biggest := biggestAt
              (workingStateAt S matrix.rows matrix.cols (computeInit self matrix) r).qr
              matrix.rows matrix.cols r
              (workingStateAt S matrix.rows matrix.cols (computeInit self matrix) r).biggest
            rank := r } := hf
    obtain ⟨a1, a2, -, a4, -, a6, a7⟩ := forRange_fillStep (min matrix.rows matrix.cols - r) r
      { workingStateAt S matrix.rows matrix.cols (computeInit self matrix) r with
        biggest := biggestAt
          (workingStateAt S matrix.rows matrix.cols (computeInit self matrix) r).qr
          matrix.rows matrix.cols r
          (workingStateAt S matrix.rows matrix.cols (computeInit self matrix) r).biggest
        rank := r }
    have hrank : (computeFinal S self matrix).rank = r := by
      rw [hfin, a2]
    rw [hrank]
    refine ⟨h2, fun j hj => h3 j (Nat.zero_le j) hj, fun _ => ht, ?_, ?_, ?_⟩
    · rw [hfin, a1]
    · rw [hfin, a4]
    · intro j hj
      rw [hfin, a6, a7, if_neg (fun h => absurd hj (not_lt.mpr h.1)),
        if_neg (fun h => absurd hj (not_lt.mpr h.1))]
      exact ⟨rfl, rfl⟩

end Trace

section RankDecision

variable {K : Type} [LinearOrderedField K]

theorem rankTestAt_iff (S : ScalarOps K) (rows cols : Nat) (prec : K) (s0 : ComputeState K)
    (k : Nat) :
    rankTestAt S rows cols prec s0 k = true ↔
      (pivotOf (workingStateAt S rows cols s0 k).qr rows cols k).1 ≤
        prec * (pivotOf s0.qr rows cols 0).1 := by
  unfold rankTestAt
  rw [workingStateAt_biggest]
  unfold isMuchSmallerThan
  exact decide_eq_true_iff

/-- C21: after `compute` on an R-by-C matrix, with W k the working matrix at the start of
step k, `biggest` the largest absolute value of the input and the precision
epsilon * min(R, C): the largest absolute value of the trailing block of W k exceeds
precision * biggest at every step k before the rank, and is at most precision * biggest at
step k = rank when the rank is below min(R, C); so the rank is the least such step, and
min(R, C) when there is none. The working matrix of the record is W rank. -/
theorem rank_is_first_negligible_step (S : ScalarOps K) (self : FullPivHouseholderQR K)
    (matrix : DenseMatrix K) :
    (compute S self matrix).m_rank ≤ min matrix.rows matrix.cols ∧
    (compute S self matrix).m_precision = S.epsilon * ((min matrix.rows matrix.cols : Nat) : K) ∧
    (∀ k, k < (compute S self matrix).m_rank →
      ¬ ((pivotOf (workingStateAt S matrix.rows matrix.cols (computeInit self matrix) k).qr
            matrix.rows matrix.cols k).1 ≤
          (compute S self matrix).m_precision * (pivotOf matrix.coeff matrix.rows matrix.cols 0).1)) ∧
    ((compute S self matrix).m_rank < min matrix.rows matrix.cols →
      (pivotOf (workingStateAt S matrix.rows matrix.cols (computeInit self matrix)
            (compute S self matrix).m_rank).qr matrix.rows matrix.cols
          (compute S self matrix).m_rank).1 ≤
        (compute S self matrix).m_precision * (pivotOf matrix.coeff matrix.rows matrix.cols 0).1) ∧
    (∀ k, k < min matrix.rows matrix.cols →
      (∀ i j, k ≤ i → i < matrix.rows → k ≤ j → j < matrix.cols →
        abs ((workingStateAt S matrix.rows matrix.cols (computeInit self matrix) k).qr i j) ≤
          (pivotOf (workingStateAt S matrix.rows matrix.cols (computeInit self matrix) k).qr
            matrix.rows matrix.cols k).1) ∧
      ∃ i j, k ≤ i ∧ i < matrix.rows ∧ k ≤ j ∧ j < matrix.cols ∧
        (pivotOf (workingStateAt S matrix.rows matrix.cols (computeInit self matrix) k).qr
            matrix.rows matrix.cols k).1 =
          abs ((workingStateAt S matrix.rows matrix.cols (computeInit self matrix) k).qr i j)) ∧
    (workingStateAt S matrix.rows matrix.cols (computeInit self matrix) 0).qr = matrix.coeff ∧
    (compute S self matrix).m_qr.coeff =
      (workingStateAt S matrix.rows matrix.cols (computeInit self matrix)
        (compute S self matrix).m_rank).qr := by
  obtain ⟨h1, h2, h3, h4, -, -⟩ := computeFinal_trace S self matrix
  refine ⟨h1, rfl, ?_, ?_, ?_, rfl, h4⟩
  · intro k hk hle
    have ht := (rankTestAt_iff S matrix.rows matrix.cols _ (computeInit self matrix) k).mpr hle
    exact Bool.false_ne_true ((h2 k hk).symm.trans ht)
  · intro hlt
    exact (rankTestAt_iff S matrix.rows matrix.cols _ (computeInit self matrix) _).mp (h3 hlt)
  · intro k hk
    obtain ⟨p1, p2, p3, p4⟩ := pivotOf_spec
      (workingStateAt S matrix.rows matrix.cols (computeInit self matrix) k).qr matrix.rows
      matrix.cols k (lt_of_lt_of_le hk (min_le_left _ _)) (lt_of_lt_of_le hk (min_le_right _ _))
    exact ⟨p4, _, _, Nat.le_add_left _ _, p1, Nat.le_add_left _ _, p2, p3⟩

theorem pivotOf_zero_iff (q : Nat → Nat → K) (rows cols : Nat) (hr : 0 < rows) (hc : 0 < cols) :
    (pivotOf q rows cols 0).1 = 0 ↔ ∀ i j, i < rows → j < cols → q i j = 0 := by
  obtain ⟨-, -, p3, p4⟩ := pivotOf_spec q rows cols 0 hr hc
  constructor
  · intro h i j hi hj
    have := p4 i j (Nat.zero_le i) hi (Nat.zero_le j) hj
    rw [h] at this
    exact abs_nonpos_iff.mp this
  · intro h
    exact pivotOf_zero q rows cols hr hc h

/-- C28: for every R-by-C input with R, C >= 1 and epsilon * min(R, C) < 1 (in particular
when 0 < epsilon * min(R, C) < 1), `rank` returns 0 if and only if every entry of the input
matrix is zero. -/
theorem rank_zero_iff_zero_matrix (S : ScalarOps K) (self : FullPivHouseholderQR K)
    (matrix : DenseMatrix K) (hR : 1 ≤ matrix.rows) (hC : 1 ≤ matrix.cols)
    (hp1 : S.epsilon * ((min matrix.rows matrix.cols : Nat) : K) < 1) :
    rank (compute S self matrix) = Except.ok 0 ↔
      ∀ i j, i < matrix.rows → j < matrix.cols → matrix.coeff i j = 0 := by
  obtain ⟨-, h2, h3, -, -, -⟩ := computeFinal_trace S self matrix
  have hi : (compute S self matrix).m_isInitialized = true := rfl
  have hrk : (compute S self matrix).m_rank = (computeFinal S self matrix).rank := rfl
  have hsize : 0 < min matrix.rows matrix.cols := lt_min hR hC
  have hpiv : 0 ≤ (pivotOf matrix.coeff matrix.rows matrix.cols 0).1 := by
    obtain ⟨-, -, p3, -⟩ := pivotOf_spec matrix.coeff matrix.rows matrix.cols 0 hR hC
    rw [p3]
    exact abs_nonneg _
  have htest : rankTestAt S matrix.rows matrix.cols
      (S.epsilon * ((min matrix.rows matrix.cols : Nat) : K)) (computeInit self matrix) 0 = true ↔
      (pivotOf matrix.coeff matrix.rows matrix.cols 0).1 = 0 := by
    rw [rankTestAt_iff]
    constructor
    · intro h
      have h' : (pivotOf matrix.coeff matrix.rows matrix.cols 0).1 ≤
          S.epsilon * ((min matrix.rows matrix.cols : Nat) : K) *
            (pivotOf matrix.coeff matrix.rows matrix.cols 0).1 := h
      nlinarith
    · intro h
      have h' : (pivotOf matrix.coeff matrix.rows matrix.cols 0).1 = 0 := h
      show (pivotOf matrix.coeff matrix.rows matrix.cols 0).1 ≤
        S.epsilon * ((min matrix.rows matrix.cols : Nat) : K) *
          (pivotOf matrix.coeff matrix.rows matrix.cols 0).1
      rw [h', mul_zero]
  rw [← pivotOf_zero_iff matrix.coeff matrix.rows matrix.cols hR hC, ← htest]
  unfold rank
  rw [if_pos hi, hrk]
  constructor
  · intro h
    have h0 : (computeFinal S self matrix).rank = 0 := Except.ok.inj h
    have := h3 (h0 ▸ hsize)
    rw [h0] at this
    exact this
  · intro h
    by_contra hne
    have hpos : 0 < (computeFinal S self matrix).rank := by
      rcases Nat.eq_zero_or_pos (computeFinal S self matrix).rank with h0 | h0
      · exact absurd (by rw [h0]) hne
      · exact h0
    rw [h2 0 hpos] at h
    exact Bool.false_ne_true h

/-- Witness of C28: the zero 3-by-3 matrix with epsilon = 2^-52. -/
theorem rank_zero_iff_zero_matrix_witness :
    1 ≤ exampleZero3.rows ∧ 1 ≤ exampleZero3.cols ∧
    exampleOps.epsilon * ((min exampleZero3.rows exampleZero3.cols : Nat) : ℚ) < 1 ∧
    (rank (compute exampleOps exampleFresh exampleZero3) = Except.ok 0 ↔
      ∀ i j, i < exampleZero3.rows → j < exampleZero3.cols → exampleZero3.coeff i j = 0) :=
  ⟨by decide, by decide, by decide!,
    rank_zero_iff_zero_matrix exampleOps exampleFresh exampleZero3 (by decide) (by decide)
      (by decide!)⟩

/-- C29: after `compute` on an R-by-C matrix, for every step k < min(R, C) the recorded
pivot indices are in range and do not point backwards: k <= rowPermutation[k] < R and
k <= colTransposition[k] < C; for the steps before the rank they are the position of the
pivot found at that step, and the rank is at most min(R, C), so the row exchanges replayed by
`matrixQ` (k < min(R, C)) and by `solve` (k < rank) use these indices. -/
theorem pivot_indices_in_range (S : ScalarOps K) (self : FullPivHouseholderQR K)
    (matrix : DenseMatrix K) :
    (compute S self matrix).m_rank ≤ min matrix.rows matrix.cols ∧
    (∀ k, k < min matrix.rows matrix.cols →
      k ≤ (compute S self matrix).m_rows_transpositions k ∧
      (compute S self matrix).m_rows_transpositions k < matrix.rows ∧
      k ≤ (computeFinal S self matrix).cols_transpositions k ∧
      (computeFinal S self matrix).cols_transpositions k < matrix.cols) ∧
    (∀ k, k < (compute S self matrix).m_rank →
      (compute S self matrix).m_rows_transpositions k =
        (pivotOf (workingStateAt S matrix.rows matrix.cols (computeInit self matrix) k).qr
          matrix.rows matrix.cols k).2.1 + k ∧
      (computeFinal S self matrix).cols_transpositions k =
        (pivotOf (workingStateAt S matrix.rows matrix.cols (computeInit self matrix) k).qr
          matrix.rows matrix.cols k).2.2 + k) := by
  obtain ⟨h1, hT, -⟩ := computeFinal_bounds S self matrix
  obtain ⟨-, -, -, -, -, h6⟩ := computeFinal_trace S self matrix
  refine ⟨h1, fun k hk => hT k hk, fun k hk => ?_⟩
  have hw := workingStateAt_recorded S matrix.rows matrix.cols (computeInit self matrix)
    (computeFinal S self matrix).rank k hk
  have hf := h6 k hk
  exact ⟨hf.1.trans hw.1, hf.2.trans hw.2⟩

end RankDecision

section Parity

variable {K : Type} [LinearOrderedField K]

theorem workingStateAt_transpositions (S : ScalarOps K) (rows cols : Nat)
    (s0 : ComputeState K) (h0 : s0.number_of_transpositions = 0) (r : Nat) :
    (workingStateAt S rows cols s0 r).number_of_transpositions =
      ∑ j ∈ Finset.range r,
        ((if j ≠ (pivotOf (workingStateAt S rows cols s0 j).qr rows cols j).2.1 + j then 1 else 0) +
          (if j ≠ (pivotOf (workingStateAt S rows cols s0 j).qr rows cols j).2.2 + j then 1
            else 0)) := by
  induction r with
  | zero => simpa using h0
  | succ r ih =>
    rw [Finset.sum_range_succ, ← ih, workingStateAt_succ]
    unfold pivotStep
    simp only []
    ring

theorem neg_one_pow_eq_ite (n : Nat) : (-1 : Int) ^ n = if n % 2 = 1 then -1 else 1 := by
  rcases Nat.even_or_odd n with h | h
  · rw [h.neg_one_pow, if_neg (by rw [Nat.even_iff.mp h]; decide)]
  · rw [h.neg_one_pow, if_pos (Nat.odd_iff.mp h)]

theorem permSign_composedPerm (n : Nat) (t : Nat → Nat) (m : Nat)
    (h : ∀ j, j < m → j < n ∧ t j < n) :
    permSign (composedPerm n t m) =
      (-1 : Int) ^ ((Finset.range m).filter (fun j => t j ≠ j)).card := by
  induction m with
  | zero => simp [permSign, composedPerm]
  | succ m ih =>
    have hm := h m (Nat.lt_succ_self m)
    have ih' := ih (fun j hj => h j (Nat.lt_succ_of_lt hj))
    unfold permSign at ih' ⊢
    unfold composedPerm swapPerm
    rw [dif_pos hm, Equiv.Perm.sign_mul, Units.val_mul, ih', Equiv.Perm.sign_swap',
      Finset.range_succ, Finset.filter_insert]
    by_cases hk : t m = m
    · rw [if_neg (not_not.mpr hk), if_pos (Fin.ext hk.symm)]
      simp
    · rw [if_pos hk, if_neg (fun e => hk (Fin.mk.inj e).symm),
        Finset.card_insert_of_not_mem (by simp), pow_succ]
      simp

theorem colsPermutationOf_eq_composedPerm (n : Nat) (t : Nat → Nat) (m : Nat)
    (h : ∀ j, j < m → j < n ∧ t j < n) (i : Fin n) :
    colsPermutationOf t m i.val = (composedPerm n t m i).val := by
  induction m generalizing i with
  | zero => rfl
  | succ m ih =>
    have hm := h m (Nat.lt_succ_self m)
    have ih' := ih (fun j hj => h j (Nat.lt_succ_of_lt hj))
    rw [colsPermutationOf_succ]
    unfold applyTranspositionOnTheRight composedPerm swapPerm
    rw [dif_pos hm, Equiv.Perm.mul_apply, Equiv.swap_apply_def]
    have e1 : i = ⟨m, hm.1⟩ ↔ i.val = m := Fin.ext_iff
    have e2 : i = ⟨t m, hm.2⟩ ↔ i.val = t m := Fin.ext_iff
    by_cases h1 : i.val = m
    · rw [if_pos h1, if_pos (e1.mpr h1)]
      exact ih' ⟨t m, hm.2⟩
    · rw [if_neg h1, if_neg (fun e => h1 (e1.mp e))]
      by_cases h2 : i.val = t m
      · rw [if_pos h2, if_pos (e2.mpr h2)]
        exact ih' ⟨m, hm.1⟩
      · rw [if_neg h2, if_neg (fun e => h2 (e2.mp e))]
        exact ih' i

theorem card_filter_stable (t : Nat → Nat) (r n : Nat) (hrn : r ≤ n)
    (h : ∀ j, r ≤ j → j < n → t j = j) :
    ((Finset.range n).filter (fun j => t j ≠ j)).card =
      ((Finset.range r).filter (fun j => t j ≠ j)).card := by
  congr 1
  ext j
  simp only [Finset.mem_filter, Finset.mem_range]
  constructor
  · rintro ⟨h1, h2⟩
    refine ⟨?_, h2⟩
    by_contra hlt
    exact h2 (h j (not_lt.mp hlt) h1)
  · rintro ⟨h1, h2⟩
    exact ⟨lt_of_lt_of_le h1 hrn, h2⟩

/-- C22: after `compute`, the transposition parity `m_det_pq` is -1 exactly when the number
of steps k < rank with rowPermutation[k] != k plus the number of steps k < rank whose
column transposition target is not k is odd, and +1 otherwise; the column permutation is the
composition of the transpositions (k, colTransposition[k]), k < min(R, C), and the parity
is the sign of the column permutation times the sign of the row permutation composed of
the transpositions (k, rowPermutation[k]), k < min(R, C). -/
theorem transpositionParity_counts_swaps (S : ScalarOps K) (self : FullPivHouseholderQR K)
    (matrix : DenseMatrix K) :
    (compute S self matrix).m_det_pq =
      (if (((Finset.range (compute S self matrix).m_rank).filter
              (fun k => (compute S self matrix).m_rows_transpositions k ≠ k)).card +
            ((Finset.range (compute S self matrix).m_rank).filter
              (fun k => (computeFinal S self matrix).cols_transpositions k ≠ k)).card) % 2 = 1
        then -1 else 1) ∧
    (∀ i : Fin matrix.cols,
      (compute S self matrix).m_cols_permutation i.val =
        (composedPerm matrix.cols (computeFinal S self matrix).cols_transpositions
          (min matrix.rows matrix.cols) i).val) ∧
    (compute S self matrix).m_det_pq =
      permSign (composedPerm matrix.cols (computeFinal S self matrix).cols_transpositions
          (min matrix.rows matrix.cols)) *
        permSign (composedPerm matrix.rows (compute S self matrix).m_rows_transpositions
          (min matrix.rows matrix.cols)) := by
  obtain ⟨hle, hT, hfill⟩ := computeFinal_bounds S self matrix
  obtain ⟨-, -, -, -, h5, h6⟩ := computeFinal_trace S self matrix
  have hrec : ∀ j, j < (computeFinal S self matrix).rank →
      (computeFinal S self matrix).rows_transpositions j =
        (pivotOf (workingStateAt S matrix.rows matrix.cols (computeInit self matrix) j).qr
          matrix.rows matrix.cols j).2.1 + j ∧
      (computeFinal S self matrix).cols_transpositions j =
        (pivotOf (workingStateAt S matrix.rows matrix.cols (computeInit self matrix) j).qr
          matrix.rows matrix.cols j).2.2 + j := by
    intro j hj
    have hw := workingStateAt_recorded S matrix.rows matrix.cols (computeInit self matrix)
      (computeFinal S self matrix).rank j hj
    exact ⟨(h6 j hj).1.trans hw.1, (h6 j hj).2.trans hw.2⟩
  have hnt : (computeFinal S self matrix).number_of_transpositions =
      ((Finset.range (computeFinal S self matrix).rank).filter
          (fun k => (computeFinal S self matrix).rows_transpositions k ≠ k)).card +
        ((Finset.range (computeFinal S self matrix).rank).filter
          (fun k => (computeFinal S self matrix).cols_transpositions k ≠ k)).card := by
    rw [h5, workingStateAt_transpositions S matrix.rows matrix.cols (computeInit self matrix) rfl,
      Finset.sum_add_distrib, Finset.card_filter, Finset.card_filter]
    congr 1
    · refine Finset.sum_congr rfl fun j hj => ?_
      rw [(hrec j (Finset.mem_range.mp hj)).1]
      by_cases e : j = (pivotOf (workingStateAt S matrix.rows matrix.cols
          (computeInit self matrix) j).qr matrix.rows matrix.cols j).2.1 + j
      · rw [if_neg (not_not.mpr e), if_neg (not_not.mpr e.symm)]
      · rw [if_pos e, if_pos (fun h => e h.symm)]
    · refine Finset.sum_congr rfl fun j hj => ?_
      rw [(hrec j (Finset.mem_range.mp hj)).2]
      by_cases e : j = (pivotOf (workingStateAt S matrix.rows matrix.cols
          (computeInit self matrix) j).qr matrix.rows matrix.cols j).2.2 + j
      · rw [if_neg (not_not.mpr e), if_neg (not_not.mpr e.symm)]
      · rw [if_pos e, if_pos (fun h => e h.symm)]
  have hpq : (compute S self matrix).m_det_pq =
      if (computeFinal S self matrix).number_of_transpositions % 2 = 1 then -1 else 1 := rfl
  have hsc := permSign_composedPerm matrix.cols (computeFinal S self matrix).cols_transpositions
    (min matrix.rows matrix.cols)
    (fun j hj => ⟨lt_of_lt_of_le hj (min_le_right _ _), (hT j hj).2.2.2⟩)
  have hsr := permSign_composedPerm matrix.rows (computeFinal S self matrix).rows_transpositions
    (min matrix.rows matrix.cols)
    (fun j hj => ⟨lt_of_lt_of_le hj (min_le_left _ _), (hT j hj).2.1⟩)
  rw [card_filter_stable _ _ _ hle (fun j h1 h2 => (hfill j h1 h2).2.2)] at hsc
  rw [card_filter_stable _ _ _ hle (fun j h1 h2 => (hfill j h1 h2).2.1)] at hsr
  refine ⟨?_, ?_, ?_⟩
  · rw [hpq, hnt]
    rfl
  · intro i
    exact colsPermutationOf_eq_composedPerm matrix.cols _ _
      (fun j hj => ⟨lt_of_lt_of_le hj (min_le_right _ _), (hT j hj).2.2.2⟩) i
  · show _ = permSign (composedPerm matrix.cols (computeFinal S self matrix).cols_transpositions
        (min matrix.rows matrix.cols)) *
      permSign (composedPerm matrix.rows (computeFinal S self matrix).rows_transpositions
        (min matrix.rows matrix.cols))
    rw [hsc, hsr, ← pow_add, neg_one_pow_eq_ite, hpq, hnt, Nat.add_comm]

/-- An instance of C22: for the matrix with rows (0, 1), (0, 0) the only pivot is found in
column 1, one column exchange is made, and the parity is -1. -/
theorem transpositionParity_exampleShift :
    (compute exampleOps exampleFresh exampleShift).m_det_pq = -1 := by
  decide!

end Parity

section Unpermutation

variable {K : Type} [LinearOrderedField K]

theorem compute_colsPermutation_bijOn (S : ScalarOps K) (self : FullPivHouseholderQR K)
    (A : DenseMatrix K) :
    Set.BijOn (compute S self A).m_cols_permutation (Set.Iio A.cols) (Set.Iio A.cols) := by
  have hB := (computeFinal_bounds S self A).2.1
  exact colsPermutationOf_bijOn _ A.cols _
    (fun i hi => ⟨lt_of_lt_of_le hi (min_le_right _ _), (hB i hi).2.2.2⟩)

/-- C23: for every solve that reaches the back-substitution (the right-hand side has R
rows, the rank is at least 1 and the consistency check does not end the call), each of the
C output rows is assigned once: output row columnPermutation[i] holds row i of the solved
block for i < rank and is zero for rank <= i < C; every output row is columnPermutation[i]
for exactly one i < C, and the zero-filled rows are C - rank in number. -/
theorem solve_assigns_every_output_row (S : ScalarOps K) (self : FullPivHouseholderQR K)
    (A b dst : DenseMatrix K) (hb : b.rows = A.rows) (h0 : (compute S self A).m_rank ≠ 0)
    (hpass : ¬ consistencyCheckFails S (compute S self A) b) :
    (solve S (compute S self A) b dst).failure = none ∧
    (solve S (compute S self A) b dst).dst.rows = A.cols ∧
    (solve S (compute S self A) b dst).dst.cols = b.cols ∧
    (∀ i j, i < A.cols → j < b.cols →
      (solve S (compute S self A) b dst).dst.coeff ((compute S self A).m_cols_permutation i) j =
        if i < (compute S self A).m_rank then
          solveInPlace (compute S self A).m_qr.coeff (compute S self A).m_rank b.cols
            (transformedRhs (compute S self A) b) i j
        else 0) ∧
    (∀ p, p < A.cols → ∃! i, i < A.cols ∧ (compute S self A).m_cols_permutation i = p) ∧
    ((Finset.Ico (compute S self A).m_rank A.cols).image
      (compute S self A).m_cols_permutation).card = A.cols - (compute S self A).m_rank := by
  have hperm := compute_colsPermutation_bijOn S self A
  have hle : (compute S self A).m_rank ≤ A.cols :=
    le_trans (computeFinal_bounds S self A).1 (min_le_right _ _)
  have hsolve := evalTo_of_check_passes S (compute S self A) b dst rfl hb h0 hpass
  obtain ⟨u1, u2, u3⟩ := unpermute_spec (compute S self A).m_cols_permutation
    (solveInPlace (compute S self A).m_qr.coeff (compute S self A).m_rank b.cols
      (transformedRhs (compute S self A) b))
    (compute S self A).m_rank A.cols (resize dst A.cols b.cols) hle hperm.injOn
  rw [hsolve]
  refine ⟨rfl, u1, u2, fun i j hi hj => u3 i j hi hj, ?_, ?_⟩
  · intro p hp
    obtain ⟨i, hi, hip⟩ := hperm.surjOn hp
    refine ⟨i, ⟨hi, hip⟩, ?_⟩
    rintro y ⟨hy, hyp⟩
    exact hperm.injOn hy hi (hyp.trans hip.symm)
  · rw [Finset.card_image_of_injOn, Nat.card_Ico]
    intro x hx y hy hxy
    exact hperm.injOn (Finset.mem_Ico.mp hx).2 (Finset.mem_Ico.mp hy).2 hxy

end Unpermutation

section TransformedRhs

variable {K : Type} [LinearOrderedField K]

theorem undoStep_redoStep (rows cols : Nat) (q : Nat → Nat → K) (hc : Nat → K)
    (rt : Nat → Nat) (k : Nat) (h : ReflectorInvolutive rows q hc k) (m : Nat → Nat → K) :
    undoStep rows cols q hc rt k (redoStep rows cols q hc rt k m) = m := by
  unfold undoStep redoStep
  rw [reflect_reflect rows cols _ _ _ h, swapRows_swapRows]

theorem undoAll_redoAll (rows cols : Nat) (q : Nat → Nat → K) (hc : Nat → K) (rt : Nat → Nat)
    (n : Nat) (h : ∀ k, k < n → ReflectorInvolutive rows q hc k) (m : Nat → Nat → K) :
    undoAll rows cols q hc rt n (forRange (redoStep rows cols q hc rt) 0 n m) = m := by
  induction n with
  | zero => rfl
  | succ n ih =>
    rw [forRange_succ_last, undoAll_succ, Nat.zero_add,
      undoStep_redoStep rows cols q hc rt n (h n (Nat.lt_succ_self n))]
    exact ih (fun k hk => h k (Nat.lt_succ_of_lt hk))

theorem rhs_eq_matrixQ_mul_transformed (S : ScalarOps K)
    (hs : ∀ x, 0 ≤ x → S.sqrt x * S.sqrt x = x) (self : FullPivHouseholderQR K)
    (A b : DenseMatrix K) (i j : Nat) (hi : i < A.rows) (hj : j < b.cols) :
    b.coeff i j =
      ∑ l ∈ Finset.range A.rows,
        forRangeDown (matrixQStep (compute S self A) A.rows) (min A.rows A.cols)
          (fun i j => if i = j then 1 else 0) i l *
        transformedRhs (compute S self A) b l j := by
  obtain ⟨hle, hT, hfill⟩ := computeFinal_bounds S self A
  have hF := (computeFinal_factorized S hs self A).1
  have hc := transformedRhs_eq (compute S self A) b (le_trans hle (min_le_left _ _))
  have h1 : undoAll A.rows b.cols (computeFinal S self A).qr (computeFinal S self A).hCoeffs
      (computeFinal S self A).rows_transpositions (computeFinal S self A).rank
      (transformedRhs (compute S self A) b) = b.coeff := by
    rw [hc]
    exact undoAll_redoAll A.rows b.cols _ _ _ _ (fun k hk => hF k (lt_of_lt_of_le hk hle)) b.coeff
  rw [← undoAll_stable A.rows b.cols _ _ _ _ (min A.rows A.cols) hle
    (fun k h1 h2 => ⟨(hfill k h1 h2).1, (hfill k h1 h2).2.1⟩)] at h1
  have h2 := undoAll_gmul A.rows A.rows b.cols (transformedRhs (compute S self A) b)
    (transformedRhs (compute S self A) b) (computeFinal S self A).qr
    (computeFinal S self A).hCoeffs (computeFinal S self A).rows_transpositions
    (min A.rows A.cols)
    (fun k hk => ⟨lt_of_lt_of_le hk (min_le_left _ _), (hT k hk).2.1⟩)
    (fun i j => if i = j then 1 else 0)
  rw [gmul_identity, h1] at h2
  rw [matrixQ_coeff_eq_undoAll]
  have h3 := congrFun (congrFun h2 i) j
  unfold gmul at h3
  rw [if_pos ⟨hi, hj⟩] at h3
  exact h3

/-- C24: after `compute`, the copy of a right-hand side after the loop of `evalTo` over the
steps k < rank (exchange row k with rowPermutation[k], then apply the reflector of step k)
is matrixQ()^T * rhs, in exact arithmetic. -/
theorem transformedRhs_eq_matrixQ_transpose_mul (S : ScalarOps K)
    (hs : ∀ x, 0 ≤ x → S.sqrt x * S.sqrt x = x) (self : FullPivHouseholderQR K)
    (A b : DenseMatrix K) :
    ∃ Q : DenseMatrix K, matrixQ (compute S self A) = Except.ok Q ∧
      Q.rows = A.rows ∧ Q.cols = A.rows ∧
      ∀ i j, i < A.rows → j < b.cols →
        transformedRhs (compute S self A) b i j =
          ∑ l ∈ Finset.range A.rows, Q.coeff l i * b.coeff l j := by
  refine ⟨_, rfl, rfl, rfl, ?_⟩
  intro i j hi hj
  have hT := (computeFinal_bounds S self A).2.1
  have hF := (computeFinal_factorized S hs self A).1
  show _ = ∑ l ∈ Finset.range A.rows,
    forRangeDown (matrixQStep (compute S self A) A.rows) (min A.rows A.cols)
      (fun i j => if i = j then 1 else 0) l i * b.coeff l j
  have e : ∀ l, l ∈ Finset.range A.rows →
      forRangeDown (matrixQStep (compute S self A) A.rows) (min A.rows A.cols)
        (fun i j => if i = j then 1 else 0) l i * b.coeff l j =
      ∑ m ∈ Finset.range A.rows,
        forRangeDown (matrixQStep (compute S self A) A.rows) (min A.rows A.cols)
          (fun i j => if i = j then 1 else 0) l i *
        forRangeDown (matrixQStep (compute S self A) A.rows) (min A.rows A.cols)
          (fun i j => if i = j then 1 else 0) l m *
        transformedRhs (compute S self A) b m j := by
    intro l hl
    rw [rhs_eq_matrixQ_mul_transformed S hs self A b l j (Finset.mem_range.mp hl) hj,
      Finset.mul_sum]
    exact Finset.sum_congr rfl fun m _ => (mul_assoc _ _ _).symm
  rw [Finset.sum_congr rfl e, Finset.sum_comm]
  simp only [← Finset.sum_mul]
  have g : ∀ m, m ∈ Finset.range A.rows →
      (∑ l ∈ Finset.range A.rows,
        forRangeDown (matrixQStep (compute S self A) A.rows) (min A.rows A.cols)
          (fun i j => if i = j then 1 else 0) l i *
        forRangeDown (matrixQStep (compute S self A) A.rows) (min A.rows A.cols)
          (fun i j => if i = j then 1 else 0) l m) * transformedRhs (compute S self A) b m j =
      if m = i then transformedRhs (compute S self A) b i j else 0 := by
    intro m hm
    rw [matrixQ_coeff_eq_undoAll, gram_undoAll A.rows A.rows _ _ _ _
      (fun k hk => ⟨lt_of_lt_of_le hk (min_le_left _ _), (hT k hk).2.1⟩) hF _ i m hi
      (Finset.mem_range.mp hm)]
    rw [Finset.sum_eq_single i]
    · by_cases hmi : m = i
      · subst hmi
        simp
      · rw [if_neg hmi]
        simp [show ¬ i = m from fun h => hmi h.symm]
    · intro l _ hl
      simp [hl]
    · intro h
      exact absurd (Finset.mem_range.mpr hi) h
  rw [Finset.sum_congr rfl g, Finset.sum_ite_eq' (Finset.range A.rows) i,
    if_pos (Finset.mem_range.mpr hi)]

end TransformedRhs

section TransformedRhsWitness

/-- Witness of C24: the real matrix diag(3, 2, 1) and the right-hand side (3, 4, 3). -/
theorem transformedRhs_eq_matrixQ_transpose_mul_witness :
    (∀ x : ℝ, 0 ≤ x → Real.sqrt x * Real.sqrt x = x) ∧
    ∃ Q : DenseMatrix ℝ,
      matrixQ (compute (ScalarOps.mk (1 / 2 ^ 52) Real.sqrt Real.log) realFresh realDiag3) =
        Except.ok Q ∧
      Q.rows = realDiag3.rows ∧ Q.cols = realDiag3.rows ∧
      ∀ i j, i < realDiag3.rows → j < realRhs3.cols →
        transformedRhs
            (compute (ScalarOps.mk (1 / 2 ^ 52) Real.sqrt Real.log) realFresh realDiag3)
            realRhs3 i j =
          ∑ l ∈ Finset.range realDiag3.rows, Q.coeff l i * realRhs3.coeff l j :=
  ⟨fun _ hx => Real.mul_self_sqrt hx,
    transformedRhs_eq_matrixQ_transpose_mul (ScalarOps.mk (1 / 2 ^ 52) Real.sqrt Real.log)
      (fun _ hx => Real.mul_self_sqrt hx) realFresh realDiag3 realRhs3⟩

end TransformedRhsWitness

section UnpermutationWitness

/-- Witness of C23: the matrix with rows (0, 1), (0, 0), of rank 1 with the column
permutation (1, 0), and the right-hand side (1, 0): output row 1 holds the solved row 0 and
output row 0 is zero-filled. -/
theorem solve_assigns_every_output_row_witness :
    exampleRhsUnit.rows = exampleShift.rows ∧
    (compute exampleOps exampleFresh exampleShift).m_rank ≠ 0 ∧
    ¬ consistencyCheckFails exampleOps (compute exampleOps exampleFresh exampleShift)
      exampleRhsUnit ∧
    (solve exampleOps (compute exampleOps exampleFresh exampleShift) exampleRhsUnit
      exampleDst).failure = none ∧
    (solve exampleOps (compute exampleOps exampleFresh exampleShift) exampleRhsUnit
      exampleDst).dst.rows = exampleShift.cols ∧
    (solve exampleOps (compute exampleOps exampleFresh exampleShift) exampleRhsUnit
      exampleDst).dst.cols = exampleRhsUnit.cols ∧
    (∀ i j, i < exampleShift.cols → j < exampleRhsUnit.cols →
      (solve exampleOps (compute exampleOps exampleFresh exampleShift) exampleRhsUnit
        exampleDst).dst.coeff ((compute exampleOps exampleFresh exampleShift).m_cols_permutation i)
          j =
        if i < (compute exampleOps exampleFresh exampleShift).m_rank then
          solveInPlace (compute exampleOps exampleFresh exampleShift).m_qr.coeff
            (compute exampleOps exampleFresh exampleShift).m_rank exampleRhsUnit.cols
            (transformedRhs (compute exampleOps exampleFresh exampleShift) exampleRhsUnit) i j
        else 0) ∧
    (∀ p, p < exampleShift.cols →
      ∃! i, i < exampleShift.cols ∧
        (compute exampleOps exampleFresh exampleShift).m_cols_permutation i = p) ∧
    ((Finset.Ico (compute exampleOps exampleFresh exampleShift).m_rank exampleShift.cols).image
      (compute exampleOps exampleFresh exampleShift).m_cols_permutation).card =
      exampleShift.cols - (compute exampleOps exampleFresh exampleShift).m_rank :=
  ⟨rfl, by decide!, by unfold consistencyCheckFails; decide!,
    solve_assigns_every_output_row exampleOps exampleFresh exampleShift exampleRhsUnit exampleDst
      rfl (by decide!) (by unfold consistencyCheckFails; decide!)⟩

/-- The solution of the witness of C23: x = (0, 1). -/
theorem solve_exampleShift_unit :
    (solve exampleOps (compute exampleOps exampleFresh exampleShift) exampleRhsUnit
      exampleDst).dst.coeff 0 0 = 0 ∧
    (solve exampleOps (compute exampleOps exampleFresh exampleShift) exampleRhsUnit
      exampleDst).dst.coeff 1 0 = 1 := by
  decide!

end UnpermutationWitness

end FullPivQR

namespace Wm4

section LineCone

variable {K : Type} [LinearOrderedField K]

theorem keepRoot_quantity (self : IntrLine3Cone3 K) (fT : K) :
    (self.keepRoot fT).m_iQuantity = self.m_iQuantity ∨
      (self.keepRoot fT).m_iQuantity = self.m_iQuantity + 1 := by
  unfold IntrLine3Cone3.keepRoot
  simp only []
  split_ifs
  · exact Or.inr rfl
  · exact Or.inl rfl

/-- The pairs of type and quantity that `Find` can leave behind. -/
theorem findState_cases (M : MathOps K) (self : IntrLine3Cone3 K) :
    ((self.findState M).m_iIntersectionType = .IT_EMPTY ∧ (self.findState M).m_iQuantity = 0) ∨
    ((self.findState M).m_iIntersectionType = .IT_POINT ∧ (self.findState M).m_iQuantity = 1) ∨
    ((self.findState M).m_iIntersectionType = .IT_SEGMENT ∧ (self.findState M).m_iQuantity = 2) ∨
    ((self.findState M).m_iIntersectionType = .IT_RAY ∧ (self.findState M).m_iQuantity = 2) := by
  unfold IntrLine3Cone3.findState
  split_ifs
  · exact Or.inl ⟨rfl, rfl⟩
  · unfold IntrLine3Cone3.findDistinctRoots
    simp only []
    split_ifs with h2 h1
    · exact Or.inr (Or.inr (Or.inl ⟨rfl, h2⟩))
    · refine Or.inr (Or.inr (Or.inr ⟨rfl, ?_⟩))
      show _ + 1 = (2 : Int)
      rw [h1]
      rfl
    · refine Or.inl ⟨rfl, ?_⟩
      rcases keepRoot_quantity ({ self with m_iQuantity := 0 } : IntrLine3Cone3 K)
          ((-self.fC1 - M.Sqrt (self.fC1 * self.fC1 - self.fC0 * self.fC2)) * (1 / self.fC2))
        with a | a <;>
      rcases keepRoot_quantity
          (IntrLine3Cone3.keepRoot ({ self with m_iQuantity := 0 } : IntrLine3Cone3 K)
            ((-self.fC1 - M.Sqrt (self.fC1 * self.fC1 - self.fC0 * self.fC2)) * (1 / self.fC2)))
          ((-self.fC1 + M.Sqrt (self.fC1 * self.fC1 - self.fC0 * self.fC2)) * (1 / self.fC2))
        with b | b
      · rw [b, a]
      · exact absurd (by rw [b, a]; rfl) h1
      · exact absurd (by rw [b, a]; rfl) h1
      · exact absurd (by rw [b, a]; rfl) h2
  · unfold IntrLine3Cone3.findRepeatedRoot
    simp only []
    split_ifs
    · exact Or.inr (Or.inl ⟨rfl, rfl⟩)
    · exact Or.inl ⟨rfl, rfl⟩
  · unfold IntrLine3Cone3.findBoundaryDirection
    simp only []
    split_ifs
    · exact Or.inr (Or.inr (Or.inr ⟨rfl, rfl⟩))
    · exact Or.inl ⟨rfl, rfl⟩
  · exact Or.inl ⟨rfl, rfl⟩
  · exact Or.inr (Or.inr (Or.inr ⟨rfl, rfl⟩))

/-- C30: after `IntrLine3Cone3::Find`, for every line and cone: `GetQuantity()` is 0, 1 or
2; `Find` returns false iff the type is IT_EMPTY iff the quantity is 0; the type is
IT_POINT iff the quantity is 1; the type is IT_SEGMENT or IT_RAY iff the quantity is 2; and
the assertion of `GetPoint(i)` holds exactly for 0 <= i < GetQuantity(). -/
theorem find_type_matches_quantity (M : MathOps K) (self : IntrLine3Cone3 K) :
    ((self.Find M).1.GetQuantity = 0 ∨ (self.Find M).1.GetQuantity = 1 ∨
      (self.Find M).1.GetQuantity = 2) ∧
    ((self.Find M).2 = false ↔ (self.Find M).1.m_iIntersectionType = .IT_EMPTY) ∧
    ((self.Find M).1.m_iIntersectionType = .IT_EMPTY ↔ (self.Find M).1.GetQuantity = 0) ∧
    ((self.Find M).1.m_iIntersectionType = .IT_POINT ↔ (self.Find M).1.GetQuantity = 1) ∧
    (((self.Find M).1.m_iIntersectionType = .IT_SEGMENT ∨
        (self.Find M).1.m_iIntersectionType = .IT_RAY) ↔ (self.Find M).1.GetQuantity = 2) ∧
    ∀ i : Int, ((self.Find M).1.GetPoint i).isSome = true ↔
      (0 ≤ i ∧ i < (self.Find M).1.GetQuantity) := by
  have hp : ∀ i : Int, ((self.Find M).1.GetPoint i).isSome = true ↔
      (0 ≤ i ∧ i < (self.Find M).1.GetQuantity) := by
    intro i
    unfold IntrLine3Cone3.GetPoint IntrLine3Cone3.GetQuantity
    split_ifs with h
    · simp [h]
    · simp only [Option.isSome_none, Bool.false_eq_true, false_iff]
      exact h
  have hr : (self.Find M).2 = false ↔ (self.Find M).1.m_iIntersectionType = .IT_EMPTY := by
    unfold IntrLine3Cone3.Find
    simp
  refine ⟨?_, hr, ?_, ?_, ?_, hp⟩ <;>
  · unfold IntrLine3Cone3.Find IntrLine3Cone3.GetQuantity
    simp only []
    rcases findState_cases M self with ⟨h1, h2⟩ | ⟨h1, h2⟩ | ⟨h1, h2⟩ | ⟨h1, h2⟩ <;>
      simp [h1, h2]

end LineCone

section LineConeExamples

/-- C25 (the code diverges): the line through the vertex of the cone (vertex (0,0,0), axis
(0,0,1), cosine 3/5) with direction (1,0,0) meets the cone only at the vertex: t = 0 is a
root of the quadratic and Dot(A, L(0) - V) = 0 >= 0, but `Find` tests `> 0`, discards the
root and reports no intersection. -/
theorem find_discards_root_at_vertex :
    exampleQueryAcross.fC2 * 0 ^ 2 + 2 * exampleQueryAcross.fC1 * 0 + exampleQueryAcross.fC0 = 0 ∧
    exampleLineAcross.Origin + (0 : ℚ) • exampleLineAcross.Direction = exampleCone.Vertex ∧
    0 ≤ exampleCone.Axis.Dot
      ((exampleLineAcross.Origin + (0 : ℚ) • exampleLineAcross.Direction) - exampleCone.Vertex) ∧
    (exampleQueryAcross.Find exampleMath).2 = false ∧
    (exampleQueryAcross.Find exampleMath).1.m_iIntersectionType = .IT_EMPTY ∧
    (exampleQueryAcross.Find exampleMath).1.GetQuantity = 0 := by
  decide!

/-- C26 (the code diverges): for the line through the vertex of the cone (vertex (0,0,0),
axis (0,0,1), cosine 3/5) with the unit direction D = (4/5, 0, -3/5) the coefficients c2,
c1, c0 are all zero and `Find` reports IT_RAY with the points V and D, but no point
V + t*D with t > 0 is in the single-sided cone: Dot(A, t*D) is negative, so it is below
g * n for every candidate n >= 0 of the length of t*D. -/
theorem find_reports_ray_outside_cone :
    exampleQueryDown.fC2 = 0 ∧ exampleQueryDown.fC1 = 0 ∧ exampleQueryDown.fC0 = 0 ∧
    exampleLineDown.Direction.Dot exampleLineDown.Direction = 1 ∧
    exampleCone.Axis.Dot exampleCone.Axis = 1 ∧
    (exampleQueryDown.Find exampleMath).2 = true ∧
    (exampleQueryDown.Find exampleMath).1.m_iIntersectionType = .IT_RAY ∧
    (exampleQueryDown.Find exampleMath).1.GetQuantity = 2 ∧
    (exampleQueryDown.Find exampleMath).1.GetPoint 0 = some exampleCone.Vertex ∧
    (exampleQueryDown.Find exampleMath).1.GetPoint 1 = some exampleLineDown.Direction ∧
    ∀ t n : ℚ, 0 < t → 0 ≤ n →
      ¬ (exampleCone.Axis.Dot (t • exampleLineDown.Direction) ≥ exampleCone.CosAngle * n) := by
  refine ⟨by decide!, by decide!, by decide!, by decide!, by decide!, by decide!, by decide!,
    by decide!, by decide!, by decide!, ?_⟩
  intro t n ht hn h
  have e : exampleCone.Axis.Dot (t • exampleLineDown.Direction) = -(3 / 5) * t := by
    show (0 : ℚ) * (t * (4 / 5)) + 0 * (t * 0) + 1 * (t * -(3 / 5)) = -(3 / 5) * t
    ring
  have g : exampleCone.CosAngle = 3 / 5 := rfl
  rw [e, g] at h
  nlinarith

end LineConeExamples

section SegmentSegment

variable {K : Type} [LinearOrderedField K]

theorem classify_of_not_parallel (M : MathOps K) (self : IntrSegment2Segment2 K)
    (kDiff : Vector2 K) (afParameter : K × K)
    (h : abs (self.m_pkSegment0.Direction.DotPerp self.m_pkSegment1.Direction) >
      M.ZERO_TOLERANCE) :
    self.Classify M (some afParameter) (some kDiff) none =
      { type := .IT_POINT
        afS := some
          ((self.m_pkSegment1.Origin - self.m_pkSegment0.Origin).DotPerp
              self.m_pkSegment1.Direction *
            (1 / self.m_pkSegment0.Direction.DotPerp self.m_pkSegment1.Direction),
           (self.m_pkSegment1.Origin - self.m_pkSegment0.Origin).DotPerp
              self.m_pkSegment0.Direction *
            (1 / self.m_pkSegment0.Direction.DotPerp self.m_pkSegment1.Direction))
        pkDiff := some (self.m_pkSegment1.Origin - self.m_pkSegment0.Origin)
        pkDiffN := none } := by
  unfold IntrSegment2Segment2.Classify
  simp only []
  rw [if_pos h]
  rfl

theorem lines_meet_at_parameters (P0 D0 P1 D1 : Vector2 K) (h : D0.DotPerp D1 ≠ 0) :
    P0 + ((P1 - P0).DotPerp D1 * (1 / D0.DotPerp D1)) • D0 =
      P1 + ((P1 - P0).DotPerp D0 * (1 / D0.DotPerp D1)) • D1 := by
  have hd : D0.x * D1.y - D0.y * D1.x ≠ 0 := h
  ext
  · show P0.x + ((P1.x - P0.x) * D1.y - (P1.y - P0.y) * D1.x) * (1 / (D0.x * D1.y - D0.y * D1.x)) *
        D0.x =
      P1.x + ((P1.x - P0.x) * D0.y - (P1.y - P0.y) * D0.x) * (1 / (D0.x * D1.y - D0.y * D1.x)) *
        D1.x
    field_simp
    ring
  · show P0.y + ((P1.x - P0.x) * D1.y - (P1.y - P0.y) * D1.x) * (1 / (D0.x * D1.y - D0.y * D1.x)) *
        D0.y =
      P1.y + ((P1.x - P0.x) * D0.y - (P1.y - P0.y) * D0.x) * (1 / (D0.x * D1.y - D0.y * D1.x)) *
        D1.y
    field_simp
    ring

/-- C27: for every pair of segments with |D0.DotPerp(D1)| > ZERO_TOLERANCE (the tolerance
is not negative), `Classify` returns IT_POINT with parameters s0, s1 such that
P0 + s0*D0 = P1 + s1*D1; when |s0| <= Extent0 and |s1| <= Extent1, `Find` returns true with
type IT_POINT, quantity 1 and the point P0 + s0*D0, which lies on both segments; otherwise
`Find` returns false with type IT_EMPTY and quantity 0 and does not write the point. -/
theorem find_point_on_both_segments (M : MathOps K) (htol : 0 ≤ M.ZERO_TOLERANCE)
    (self : IntrSegment2Segment2 K) (kDiff : Vector2 K) (afParameter : K × K)
    (h : abs (self.m_pkSegment0.Direction.DotPerp self.m_pkSegment1.Direction) >
      M.ZERO_TOLERANCE) :
    ∃ s0 s1 : K,
      (self.Classify M (some afParameter) (some kDiff) none).type = .IT_POINT ∧
      (self.Classify M (some afParameter) (some kDiff) none).afS = some (s0, s1) ∧
      self.m_pkSegment0.Origin + s0 • self.m_pkSegment0.Direction =
        self.m_pkSegment1.Origin + s1 • self.m_pkSegment1.Direction ∧
      ((abs s0 ≤ self.m_pkSegment0.Extent ∧ abs s1 ≤ self.m_pkSegment1.Extent) →
        (self.Find M kDiff afParameter).2 = true ∧
        (self.Find M kDiff afParameter).1.m_iIntersectionType = .IT_POINT ∧
        (self.Find M kDiff afParameter).1.GetQuantity = 1 ∧
        (self.Find M kDiff afParameter).1.GetPoint =
          self.m_pkSegment0.Origin + s0 • self.m_pkSegment0.Direction ∧
        (self.Find M kDiff afParameter).1.GetPoint =
          self.m_pkSegment1.Origin + s1 • self.m_pkSegment1.Direction) ∧
      (¬ (abs s0 ≤ self.m_pkSegment0.Extent ∧ abs s1 ≤ self.m_pkSegment1.Extent) →
        (self.Find M kDiff afParameter).2 = false ∧
        (self.Find M kDiff afParameter).1.m_iIntersectionType = .IT_EMPTY ∧
        (self.Find M kDiff afParameter).1.GetQuantity = 0 ∧
        (self.Find M kDiff afParameter).1.GetPoint = self.m_kPoint) := by
  have hc := classify_of_not_parallel M self kDiff afParameter h
  have hne : self.m_pkSegment0.Direction.DotPerp self.m_pkSegment1.Direction ≠ 0 := by
    intro h0
    rw [h0, abs_zero] at h
    exact absurd h (not_lt.mpr htol)
  have hmeet := lines_meet_at_parameters self.m_pkSegment0.Origin self.m_pkSegment0.Direction
    self.m_pkSegment1.Origin self.m_pkSegment1.Direction hne
  refine ⟨_, _, by rw [hc], by rw [hc], hmeet, ?_, ?_⟩
  · intro hin
    unfold IntrSegment2Segment2.Find IntrSegment2Segment2.GetQuantity
      IntrSegment2Segment2.GetPoint
    simp only [hc, Option.getD_some, if_true, if_pos hin]
    exact ⟨by decide, trivial, trivial, trivial, hmeet⟩
  · intro hout
    unfold IntrSegment2Segment2.Find IntrSegment2Segment2.GetQuantity
      IntrSegment2Segment2.GetPoint
    simp only [hc, Option.getD_some, if_true, if_neg hout]
    exact ⟨by decide, trivial, trivial, trivial⟩

end SegmentSegment

section SegmentSegmentWitness

/-- Witness of C27: the segments with centres (0, 0) and (1/2, 0), directions (1, 0) and
(0, 1) and extents 1, which cross at (1/2, 0). -/
theorem find_point_on_both_segments_witness :
    (0 : ℚ) ≤ exampleMath.ZERO_TOLERANCE ∧
    abs (exampleQueryCross.m_pkSegment0.Direction.DotPerp
      exampleQueryCross.m_pkSegment1.Direction) > exampleMath.ZERO_TOLERANCE ∧
    (exampleQueryCross.Find exampleMath { x := 9, y := 9 } (9, 9)).1.GetPoint =
      { x := 1 / 2, y := 0 } ∧
    ∃ s0 s1 : ℚ,
      (exampleQueryCross.Classify exampleMath (some (9, 9)) (some { x := 9, y := 9 })
        none).type = .IT_POINT ∧
      (exampleQueryCross.Classify exampleMath (some (9, 9)) (some { x := 9, y := 9 })
        none).afS = some (s0, s1) ∧
      exampleQueryCross.m_pkSegment0.Origin + s0 • exampleQueryCross.m_pkSegment0.Direction =
        exampleQueryCross.m_pkSegment1.Origin + s1 • exampleQueryCross.m_pkSegment1.Direction ∧
      ((abs s0 ≤ exampleQueryCross.m_pkSegment0.Extent ∧
          abs s1 ≤ exampleQueryCross.m_pkSegment1.Extent) →
        (exampleQueryCross.Find exampleMath { x := 9, y := 9 } (9, 9)).2 = true ∧
        (exampleQueryCross.Find exampleMath { x := 9, y := 9 } (9, 9)).1.m_iIntersectionType =
          .IT_POINT ∧
        (exampleQueryCross.Find exampleMath { x := 9, y := 9 } (9, 9)).1.GetQuantity = 1 ∧
        (exampleQueryCross.Find exampleMath { x := 9, y := 9 } (9, 9)).1.GetPoint =
          exampleQueryCross.m_pkSegment0.Origin +
            s0 • exampleQueryCross.m_pkSegment0.Direction ∧
        (exampleQueryCross.Find exampleMath { x := 9, y := 9 } (9, 9)).1.GetPoint =
          exampleQueryCross.m_pkSegment1.Origin +
            s1 • exampleQueryCross.m_pkSegment1.Direction) ∧
      (¬ (abs s0 ≤ exampleQueryCross.m_pkSegment0.Extent ∧
          abs s1 ≤ exampleQueryCross.m_pkSegment1.Extent) →
        (exampleQueryCross.Find exampleMath { x := 9, y := 9 } (9, 9)).2 = false ∧
        (exampleQueryCross.Find exampleMath { x := 9, y := 9 } (9, 9)).1.m_iIntersectionType =
          .IT_EMPTY ∧
        (exampleQueryCross.Find exampleMath { x := 9, y := 9 } (9, 9)).1.GetQuantity = 0 ∧
        (exampleQueryCross.Find exampleMath { x := 9, y := 9 } (9, 9)).1.GetPoint =
          exampleQueryCross.m_kPoint) :=
  ⟨by decide!, by decide!, by decide!,
    find_point_on_both_segments exampleMath (by decide!) exampleQueryCross { x := 9, y := 9 }
      (9, 9) (by decide!)⟩

end SegmentSegmentWitness

section TestAndFind

variable {K : Type} [LinearOrderedField K]

theorem classify_type_independent (M : MathOps K) (self : IntrSegment2Segment2 K)
    (afS afS' : Option (K × K)) (pkDiff pkDiff' pkDiffN pkDiffN' : Option (Vector2 K)) :
    (self.Classify M afS pkDiff pkDiffN).type = (self.Classify M afS' pkDiff' pkDiffN').type := by
  unfold IntrSegment2Segment2.Classify
  simp only []
  split_ifs <;> rfl

theorem classify_parameters_independent (M : MathOps K) (self : IntrSegment2Segment2 K)
    (kDiff kDiff' : Vector2 K) (afParameter afParameter' : K × K)
    (h : (self.Classify M (some afParameter) (some kDiff) none).type = .IT_POINT) :
    (self.Classify M (some afParameter) (some kDiff) none).afS.getD afParameter =
      (self.Classify M (some afParameter') (some kDiff') none).afS.getD afParameter' := by
  unfold IntrSegment2Segment2.Classify at h ⊢
  simp only [] at h ⊢
  split_ifs at h ⊢
  rfl

/-- C31: for every pair of segments (and whatever the uninitialized locals of the two
calls hold), `Test` and `Find` return the same boolean and leave the same intersection type
and the same quantity, which is 1 for IT_POINT, INT_MAX for IT_SEGMENT and 0 for IT_EMPTY;
`Test` leaves the intersection point as it was, and the object after `Find` is the object
after `Test` with the intersection point of `Find`. -/
theorem test_agrees_with_find (M : MathOps K) (self : IntrSegment2Segment2 K)
    (kDiff kDiff' : Vector2 K) (afParameter afParameter' : K × K) :
    (self.Test M kDiff afParameter).2 = (self.Find M kDiff' afParameter').2 ∧
    (self.Test M kDiff afParameter).1.m_iIntersectionType =
      (self.Find M kDiff' afParameter').1.m_iIntersectionType ∧
    (self.Test M kDiff afParameter).1.GetQuantity =
      (self.Find M kDiff' afParameter').1.GetQuantity ∧
    (((self.Find M kDiff' afParameter').1.m_iIntersectionType = .IT_POINT ∧
        (self.Find M kDiff' afParameter').1.GetQuantity = 1) ∨
      ((self.Find M kDiff' afParameter').1.m_iIntersectionType = .IT_SEGMENT ∧
        (self.Find M kDiff' afParameter').1.GetQuantity = INT_MAX) ∨
      ((self.Find M kDiff' afParameter').1.m_iIntersectionType = .IT_EMPTY ∧
        (self.Find M kDiff' afParameter').1.GetQuantity = 0)) ∧
    (self.Test M kDiff afParameter).1.GetPoint = self.GetPoint ∧
    (self.Find M kDiff' afParameter').1 =
      { (self.Test M kDiff afParameter).1 with
        m_kPoint := (self.Find M kDiff' afParameter').1.m_kPoint } := by
  have ht := classify_type_independent M self (some afParameter) (some afParameter')
    (some kDiff) (some kDiff') none none
  by_cases hp : (self.Classify M (some afParameter') (some kDiff') none).type = .IT_POINT
  · have hp' : (self.Classify M (some afParameter) (some kDiff) none).type = .IT_POINT :=
      ht.trans hp
    have hs := classify_parameters_independent M self kDiff kDiff' afParameter afParameter' hp'
    unfold IntrSegment2Segment2.Test IntrSegment2Segment2.Find IntrSegment2Segment2.GetQuantity
      IntrSegment2Segment2.GetPoint
    simp only [hp, hp', hs, if_true]
    split_ifs <;> simp
  · have hp' : ¬ (self.Classify M (some afParameter) (some kDiff) none).type = .IT_POINT :=
      fun h => hp (ht.symm.trans h)
    unfold IntrSegment2Segment2.Test IntrSegment2Segment2.Find IntrSegment2Segment2.GetQuantity
      IntrSegment2Segment2.GetPoint
    simp only [ht, if_neg hp]
    by_cases hseg : (self.Classify M (some afParameter') (some kDiff') none).type = .IT_SEGMENT
    · simp [hseg]
    · simp only [if_neg hseg]
      have he : (self.Classify M (some afParameter') (some kDiff') none).type = .IT_EMPTY := by
        cases hc : (self.Classify M (some afParameter') (some kDiff') none).type with
        | IT_EMPTY => rfl
        | IT_POINT => exact absurd hc hp
        | IT_SEGMENT => exact absurd hc hseg
        | IT_RAY =>
          exfalso
          unfold IntrSegment2Segment2.Classify at hc
          simp only [] at hc
          split_ifs at hc
      simp [he]

end TestAndFind

section CommonPoint

variable {K : Type} [LinearOrderedField K]

/-- When `Test` leaves the type IT_POINT (the tolerance is not negative), the two segments
have a point in common. -/
theorem test_point_has_common_point (M : MathOps K) (htol : 0 ≤ M.ZERO_TOLERANCE)
    (self : IntrSegment2Segment2 K) (kDiff : Vector2 K) (afParameter : K × K)
    (h : (self.Test M kDiff afParameter).1.m_iIntersectionType = .IT_POINT) :
    ∃ s0 s1 : K, abs s0 ≤ self.m_pkSegment0.Extent ∧ abs s1 ≤ self.m_pkSegment1.Extent ∧
      self.m_pkSegment0.Origin + s0 • self.m_pkSegment0.Direction =
        self.m_pkSegment1.Origin + s1 • self.m_pkSegment1.Direction := by
  by_cases hd : abs (self.m_pkSegment0.Direction.DotPerp self.m_pkSegment1.Direction) >
      M.ZERO_TOLERANCE
  · have hc := classify_of_not_parallel M self kDiff afParameter hd
    have hne : self.m_pkSegment0.Direction.DotPerp self.m_pkSegment1.Direction ≠ 0 := by
      intro h0
      rw [h0, abs_zero] at hd
      exact absurd hd (not_lt.mpr htol)
    unfold IntrSegment2Segment2.Test at h
    simp only [hc, Option.getD_some, if_true] at h
    split_ifs at h with hin
    exact ⟨_, _, hin.1, hin.2, lines_meet_at_parameters _ _ _ _ hne⟩
  · exfalso
    unfold IntrSegment2Segment2.Test IntrSegment2Segment2.Classify at h
    simp only [if_neg hd] at h
    split_ifs at h

end CommonPoint

section CommonPointExamples

/-- C32 (the code diverges): for the collinear segments with centres (0, 0) and (5, 0),
direction (1, 0) and extent 1, with ZERO_TOLERANCE taken as 0, `Test` returns true with
type IT_SEGMENT and quantity INT_MAX, but the segments [-1, 1] and [4, 6] of the x-axis
have no point in common. -/
theorem test_true_for_collinear_segments_apart :
    exampleMathExact.ZERO_TOLERANCE = 0 ∧
    (exampleQueryApart.Test exampleMathExact { x := 9, y := 9 } (9, 9)).2 = true ∧
    (exampleQueryApart.Test exampleMathExact { x := 9, y := 9 } (9, 9)).1.m_iIntersectionType =
      .IT_SEGMENT ∧
    (exampleQueryApart.Test exampleMathExact { x := 9, y := 9 } (9, 9)).1.GetQuantity =
      INT_MAX ∧
    ¬ ∃ s0 s1 : ℚ, abs s0 ≤ exampleQueryApart.m_pkSegment0.Extent ∧
      abs s1 ≤ exampleQueryApart.m_pkSegment1.Extent ∧
      exampleQueryApart.m_pkSegment0.Origin + s0 • exampleQueryApart.m_pkSegment0.Direction =
        exampleQueryApart.m_pkSegment1.Origin + s1 • exampleQueryApart.m_pkSegment1.Direction := by
  refine ⟨rfl, by decide!, by decide!, by decide!, ?_⟩
  rintro ⟨s0, s1, h0, h1, he⟩
  have hx := congrArg Vector2.x he
  have hx' : (0 : ℚ) + s0 * 1 = 5 + s1 * 1 := hx
  have e0 : exampleQueryApart.m_pkSegment0.Extent = 1 := rfl
  have e1 : exampleQueryApart.m_pkSegment1.Extent = 1 := rfl
  rw [e0] at h0
  rw [e1] at h1
  have a0 := (abs_le.mp h0).2
  have a1 := (abs_le.mp h1).1
  linarith

/-- The same query with the tolerance of `Math<double>`: `Test` returns true as well. -/
theorem test_true_for_collinear_segments_apart_tolerance :
    (exampleQueryApart.Test exampleMath { x := 9, y := 9 } (9, 9)).2 = true ∧
    (exampleQueryApart.Test exampleMath { x := 9, y := 9 } (9, 9)).1.m_iIntersectionType =
      .IT_SEGMENT := by
  decide!

end CommonPointExamples

end Wm4

